import Mathlib

/-!
# Client_Server_C: framing codec and expression evaluator

A shallow embedding of `src/protocol.c` (length-prefixed framing over a byte
stream) and `src/parser.c` (recursive-descent arithmetic evaluator), with the
properties of the specification stated and proved over it.

Conventions of the embedding.

* A byte is a natural number; only the length header is ever interpreted, and
  there every byte is reduced modulo 256.
* The operating system is an explicit script: the receive side of a socket is a
  list of `RecvEvent`s, the send side a list of `SendEvent`s. One call of
  `recv`/`send` looks at the head of the script.
* The `while` loops of `read_exact` and `write_exact` are recursive functions
  on a fuel counter; the entry points pass a fuel that is computed from the
  script, and `none` is returned only if that fuel were to run out, which it
  never does (`read_exact_returns`, `write_exact_returns`).
* The productions of the parser take a fuel that bounds the depth of the calls
  below them; `parse_eval` starts from `5 * length + 5`, which is always
  enough (`enoughAt`, `parse_eval_returns`).
* `strtod`, `pow`, `isfinite` and the arithmetic of `double` are a parameter
  `Arith D` of the parser; `Ref.arith` is an exact instance for the examples.
-/

namespace Proto

/-- An octet on the wire. -/
abbrev Byte := Nat

/-- The 1 MiB sanity limit, `#define PROTO_MAX_FRAME (1024u * 1024u)`. -/
def PROTO_MAX_FRAME : Nat := 1024 * 1024

/-! ## The socket, receive side -/

/-- What the kernel has in store for the next `recv` call on the socket. -/
inductive RecvEvent where
  /-- A segment of bytes that has arrived; `recv` hands out at most as many
  of them as the caller asks for and keeps the remainder queued. -/
  | data (bs : List Byte)
  /-- A call interrupted by a signal: `recv` returns -1 with `errno == EINTR`. -/
  | eintr
  /-- Another failure: `recv` returns -1 with `errno != EINTR`. -/
  | fail
  /-- The peer has closed the connection: `recv` returns 0. -/
  | eof
  deriving DecidableEq, Repr

/-- The outcome of one `recv` call: the return value `r`, the bytes stored at
the destination, and whether `errno` is `EINTR`. -/
structure RecvResult where
  r : Int
  bytes : List Byte
  eintr : Bool
  deriving DecidableEq, Repr

/-- One call `recv(fd, dst, want, 0)` on a socket whose pending events are
`es`. An exhausted script behaves like a closed connection, and end-of-stream
is sticky. -/
def recv (es : List RecvEvent) (want : Nat) : RecvResult × List RecvEvent :=
  match es with
  | [] => (⟨0, [], false⟩, [])
  | .eof :: rest => (⟨0, [], false⟩, .eof :: rest)
  | .eintr :: rest => (⟨-1, [], true⟩, rest)
  | .fail :: rest => (⟨-1, [], false⟩, rest)
  | .data bs :: rest =>
    if bs.length ≤ want then (⟨(bs.length : Int), bs, false⟩, rest)
    else (⟨(want : Int), bs.take want, false⟩, .data (bs.drop want) :: rest)

/-- The loop of `read_exact`: `total` bytes are already stored in `buf`.
Returns the return value of `read_exact`, the bytes stored in the destination
buffer and the remaining script. -/
def read_exact_loop :
    Nat → List RecvEvent → Nat → Nat → List Byte → Option (Int × List Byte × List RecvEvent)
  | 0, _, _, _, _ => none
  | fuel + 1, es, n, total, buf =>
    if total < n then
      let (res, es1) := recv es (n - total)
      if res.r = 0 then some (0, buf, es1)            -- peer closed
      else if res.r < 0 then
        if res.eintr then read_exact_loop fuel es1 n total buf
        else some (-1, buf, es1)
      else read_exact_loop fuel es1 n (total + res.r.toNat) (buf ++ res.bytes)
    else some ((total : Int), buf, es)

/-- The function `read_exact(fd, buf, n)`. Every iteration but the last takes
an event off the script, so `es.length + 2` iterations always suffice. -/
def read_exact (es : List RecvEvent) (n : Nat) : Option (Int × List Byte × List RecvEvent) :=
  read_exact_loop (es.length + 2) es n 0 []

/-! ## The socket, send side -/

/-- What the kernel does with the next `send` call on the socket. -/
inductive SendEvent where
  /-- The kernel takes at most `k` of the offered bytes (`send` returns the
  number taken, which is 0 when `k` is 0). -/
  | accept (k : Nat)
  /-- A call interrupted by a signal: `send` returns -1 with `errno == EINTR`. -/
  | eintr
  /-- Another failure: `send` returns -1 with `errno != EINTR`. -/
  | fail
  deriving DecidableEq, Repr

/-- The outcome of one `send` call: the return value `w`, the bytes put on the
wire, and whether `errno` is `EINTR`. -/
structure SendResult where
  w : Int
  sent : List Byte
  eintr : Bool
  deriving DecidableEq, Repr

/-- One call `send(fd, src, n, 0)` offering the bytes `src`. An exhausted
script behaves like a broken connection. -/
def send (ss : List SendEvent) (src : List Byte) : SendResult × List SendEvent :=
  match ss with
  | [] => (⟨-1, [], false⟩, [])
  | .eintr :: rest => (⟨-1, [], true⟩, rest)
  | .fail :: rest => (⟨-1, [], false⟩, rest)
  | .accept k :: rest => (⟨((src.take k).length : Int), src.take k, false⟩, rest)

/-- The loop of `write_exact` over the source bytes `src` (the first `n` bytes
at `buf`): `total` of them are already sent and `out` is what has been put on
the wire so far. -/
def write_exact_loop :
    Nat → List SendEvent → List Byte → Nat → Nat → List Byte →
      Option (Int × List Byte × List SendEvent)
  | 0, _, _, _, _, _ => none
  | fuel + 1, ss, src, n, total, out =>
    if total < n then
      let (res, ss1) := send ss ((src.drop total).take (n - total))
      if res.w ≤ 0 then
        if res.w < 0 ∧ res.eintr = true then write_exact_loop fuel ss1 src n total out
        else some (-1, out, ss1)
      else write_exact_loop fuel ss1 src n (total + res.w.toNat) (out ++ res.sent)
    else some ((total : Int), out, ss)

/-- The function `write_exact(fd, buf, n)`, where `src` is the content of the
memory at `buf`. Returns the return value, the bytes put on the wire and the
remaining script. -/
def write_exact (ss : List SendEvent) (src : List Byte) (n : Nat) :
    Option (Int × List Byte × List SendEvent) :=
  write_exact_loop (ss.length + 2) ss src n 0 []

/-! ## Frames -/

/-- The memory image of `htonl(len)`: the four octets of `len`, most
significant first. -/
def htonl (len : Nat) : List Byte :=
  [len / 2 ^ 24 % 256, len / 2 ^ 16 % 256, len / 2 ^ 8 % 256, len % 256]

/-- The value `ntohl(net_len)` of a 32-bit word whose memory image is `bs`
(octets missing from `bs` are the zeroes of the initialiser `net_len = 0`). -/
def ntohl (bs : List Byte) : Nat :=
  (bs.getD 0 0 % 256) * 2 ^ 24 + (bs.getD 1 0 % 256) * 2 ^ 16
    + (bs.getD 2 0 % 256) * 2 ^ 8 + (bs.getD 3 0 % 256)

/-- The function `send_frame(fd, data, len)`; `data` is the content of the
memory at `data` and `len` a 32-bit count. Returns the return value, the bytes
put on the wire and the remaining script. -/
def send_frame (ss : List SendEvent) (data : List Byte) (len : Nat) :
    Option (Int × List Byte × List SendEvent) :=
  match write_exact ss (htonl len) 4 with
  | none => none
  | some (w1, out1, ss1) =>
    if w1 < 0 then some (-1, out1, ss1)
    else if 0 < len then
      match write_exact ss1 data len with
      | none => none
      | some (w2, out2, ss2) =>
        if w2 < 0 then some (-1, out1 ++ out2, ss2)
        else some (0, out1 ++ out2, ss2)
    else some (0, out1, ss1)

/-- What `recv_frame` leaves behind: its return value and the two output
parameters, `none` when the function did not assign them. -/
structure FrameResult where
  ret : Int
  out_buf : Option (List Byte)
  out_len : Option Nat
  deriving DecidableEq, Repr

/-- The function `recv_frame(fd, out_buf, out_len)`. `ptrs_ok` says that both
output pointers are non-NULL and `malloc_ok` that the allocation of the
payload buffer succeeds. On success `out_buf` is the allocated buffer, the
payload followed by the terminating NUL. -/
def recv_frame (ptrs_ok malloc_ok : Bool) (es : List RecvEvent) :
    Option (FrameResult × List RecvEvent) :=
  if ptrs_ok = false then some (⟨-1, none, none⟩, es)
  else
    match read_exact es 4 with
    | none => none
    | some (r, hdr, es1) =>
      if r ≤ 0 then some (⟨-1, none, none⟩, es1)
      else
        let len := ntohl hdr
        if len = 0 ∨ len > PROTO_MAX_FRAME then some (⟨-1, none, none⟩, es1)
        else if malloc_ok = false then some (⟨-1, none, none⟩, es1)
        else
          match read_exact es1 len with
          | none => none
          | some (r2, buf, es2) =>
            if r2 ≤ 0 then some (⟨-1, none, none⟩, es2)
            else some (⟨0, some (buf ++ [0]), some len⟩, es2)

/-- The bytes a receive script delivers before the connection ends or fails. -/
def wire : List RecvEvent → List Byte
  | [] => []
  | .data [] :: _ => []
  | .data (b :: bs) :: rest => (b :: bs) ++ wire rest
  | .eintr :: rest => wire rest
  | .fail :: _ => []
  | .eof :: _ => []

/-- Whether the delivery of a receive script stops with an end-of-stream
(`true`) or with a failure other than `EINTR` (`false`). -/
def closes : List RecvEvent → Bool
  | [] => true
  | .data [] :: _ => true
  | .data (_ :: _) :: rest => closes rest
  | .eintr :: rest => closes rest
  | .fail :: _ => false
  | .eof :: _ => true

end Proto

namespace Parser

/-! ## The C library and the arithmetic of `double`

`parser.c` computes with `double` and calls `strtod`, `pow` and `isfinite`.
None of these is part of the repository, so the embedding takes them as a
parameter: every definition and theorem below is stated for an arbitrary
`Arith D`. -/

/-- What one call `strtod(p, &end)` yields: the number of characters
`end - p` that were consumed, the value returned, and whether `errno` is
non-zero afterwards. -/
structure StrtodResult (D : Type) where
  consumed : Nat
  value : D
  erange : Bool
  deriving DecidableEq, Repr

/-- The `double` operations the evaluator uses. `pow` returns its value and
whether it has set `errno`; `is_zero x` is the C test `x == 0.0` (true of both
zeroes). `strtod` scans a NUL-terminated string, given as the list of the
characters before the NUL, and never consumes more than the string holds. -/
structure Arith (D : Type) where
  add : D → D → D
  sub : D → D → D
  mul : D → D → D
  div : D → D → D
  neg : D → D
  pow : D → D → D × Bool
  isfinite : D → Bool
  is_zero : D → Bool
  strtod : List Char → StrtodResult D
  strtod_le : ∀ s, (strtod s).consumed ≤ s.length

/-- The terminating NUL of a C string. -/
def NUL : Char := Char.ofNat 0

/-- The character `*p` at a cursor whose remaining input is `p`; the end of
the list is the terminating NUL. -/
def cur (p : List Char) : Char := p.headD NUL

/-- `isspace((unsigned char)c)` in the "C" locale (the program never calls
`setlocale`): space, `\t`, `\n`, `\v`, `\f`, `\r`. -/
def isspace (c : Char) : Bool := c.toNat = 32 || (9 ≤ c.toNat && c.toNat ≤ 13)

/-- `isprint((unsigned char)c)` in the "C" locale: 0x20 to 0x7E. -/
def isprint (c : Char) : Bool := 32 ≤ c.toNat && c.toNat ≤ 126

/-- `snprintf(buf, size, "%s", s)` for `size > 0`: at most `size - 1`
characters of `s` are stored. -/
def snprintf (size : Nat) (s : String) : String := String.mk (s.data.take (size - 1))

/-- The struct `parser_t`. The cursor `p` is represented by the input that
remains from it on, `err_at` likewise (`none` is the NULL pointer), and
`err_msg` is the content of the 128-byte message buffer. The field `s`, the
start of the string, is assigned once and never read, and is left out. -/
structure parser_t where
  p : List Char
  err_at : Option (List Char)
  err_msg : String
  deriving DecidableEq, Repr

/-- The loop `while (*p && isspace((unsigned char)*p)) p++` on the remaining
input. -/
def skip_ws_from : List Char → List Char
  | [] => []
  | c :: cs => if c ≠ NUL ∧ isspace c = true then skip_ws_from cs else c :: cs

/-- `skip_ws(ps)`. -/
def skip_ws (ps : parser_t) : parser_t := { ps with p := skip_ws_from ps.p }

/-- `set_err(ps, msg)`: the position is recorded by the first call only, the
message by every call. -/
def set_err (ps : parser_t) (msg : String) : parser_t :=
  { ps with
    err_at := if ps.err_at.isNone then some ps.p else ps.err_at
    err_msg := snprintf 128 msg }

/-- `match(ps, c)`: the return value (1 as `true`) and the state afterwards. -/
def match_ (ps : parser_t) (c : Char) : Bool × parser_t :=
  let ps1 := skip_ws ps
  if cur ps1.p = c then (true, { ps1 with p := ps1.p.tail }) else (false, ps1)

/-- `peek(ps)`: the value returned and the state afterwards. -/
def peek (ps : parser_t) : Nat × parser_t :=
  let ps1 := skip_ws ps
  ((cur ps1.p).toNat % 256, ps1)

/-- What a production returns: 1 together with the value stored in `*out`, or
0 (with `*out` not assigned); in both cases the parser state afterwards. -/
inductive Res (D : Type) where
  | ok (v : D) (ps : parser_t)
  | fail (ps : parser_t)
  deriving DecidableEq, Repr

/-- The state a production leaves behind. -/
def Res.state {D : Type} : Res D → parser_t
  | .ok _ ps => ps
  | .fail ps => ps

/-- `parse_number(ps, out)`. -/
def parse_number {D : Type} (A : Arith D) (ps : parser_t) : Res D :=
  let ps1 := skip_ws ps
  let r := A.strtod ps1.p
  if r.consumed = 0 then .fail (set_err ps1 "expected number or '('")
  else if r.erange = true ∨ A.isfinite r.value = false then .fail (set_err ps1 "invalid number")
  else .ok r.value { ps1 with p := ps1.p.drop r.consumed }

/-! The five productions and the two `for (;;)` loops. Each takes a fuel that
bounds the depth of calls below it; `none` means that the fuel ran out. -/

mutual

/-- `parse_expr(ps, out)` up to its loop. -/
def parse_expr {D : Type} (A : Arith D) : Nat → parser_t → Option (Res D)
  | 0, _ => none
  | fuel + 1, ps =>
    match parse_term A fuel ps with
    | none => none
    | some (.fail ps1) => some (.fail ps1)
    | some (.ok v ps1) => parse_expr_loop A fuel v ps1

/-- The `for (;;)` loop of `parse_expr`, entered with the accumulator `v`. -/
def parse_expr_loop {D : Type} (A : Arith D) : Nat → D → parser_t → Option (Res D)
  | 0, _, _ => none
  | fuel + 1, v, ps =>
    let m1 := match_ ps '+'
    if m1.1 then
      match parse_term A fuel m1.2 with
      | none => none
      | some (.fail ps2) => some (.fail ps2)
      | some (.ok rhs ps2) => parse_expr_loop A fuel (A.add v rhs) ps2
    else
      let m2 := match_ m1.2 '-'
      if m2.1 then
        match parse_term A fuel m2.2 with
        | none => none
        | some (.fail ps2) => some (.fail ps2)
        | some (.ok rhs ps2) => parse_expr_loop A fuel (A.sub v rhs) ps2
      else some (.ok v m2.2)

/-- `parse_term(ps, out)` up to its loop. -/
def parse_term {D : Type} (A : Arith D) : Nat → parser_t → Option (Res D)
  | 0, _ => none
  | fuel + 1, ps =>
    match parse_power A fuel ps with
    | none => none
    | some (.fail ps1) => some (.fail ps1)
    | some (.ok v ps1) => parse_term_loop A fuel v ps1

/-- The `for (;;)` loop of `parse_term`, entered with the accumulator `v`. -/
def parse_term_loop {D : Type} (A : Arith D) : Nat → D → parser_t → Option (Res D)
  | 0, _, _ => none
  | fuel + 1, v, ps =>
    let m1 := match_ ps '*'
    if m1.1 then
      match parse_power A fuel m1.2 with
      | none => none
      | some (.fail ps2) => some (.fail ps2)
      | some (.ok rhs ps2) => parse_term_loop A fuel (A.mul v rhs) ps2
    else
      let m2 := match_ m1.2 '/'
      if m2.1 then
        match parse_power A fuel m2.2 with
        | none => none
        | some (.fail ps2) => some (.fail ps2)
        | some (.ok rhs ps2) =>
          if A.is_zero rhs = true then some (.fail (set_err ps2 "division by zero"))
          else parse_term_loop A fuel (A.div v rhs) ps2
      else some (.ok v m2.2)

/-- `parse_power(ps, out)`. -/
def parse_power {D : Type} (A : Arith D) : Nat → parser_t → Option (Res D)
  | 0, _ => none
  | fuel + 1, ps =>
    match parse_unary A fuel ps with
    | none => none
    | some (.fail ps1) => some (.fail ps1)
    | some (.ok base ps1) =>
      let m := match_ ps1 '^'
      if m.1 then
        match parse_power A fuel m.2 with
        | none => none
        | some (.fail ps2) => some (.fail ps2)
        | some (.ok exp ps2) =>
          let r := A.pow base exp
          if r.2 = true ∨ A.isfinite r.1 = false then
            some (.fail (set_err ps2 "invalid exponentiation"))
          else some (.ok r.1 ps2)
      else some (.ok base m.2)

/-- `parse_unary(ps, out)`. -/
def parse_unary {D : Type} (A : Arith D) : Nat → parser_t → Option (Res D)
  | 0, _ => none
  | fuel + 1, ps =>
    let m1 := match_ ps '+'
    if m1.1 then parse_unary A fuel m1.2
    else
      let m2 := match_ m1.2 '-'
      if m2.1 then
        match parse_unary A fuel m2.2 with
        | none => none
        | some (.fail ps2) => some (.fail ps2)
        | some (.ok v ps2) => some (.ok (A.neg v) ps2)
      else parse_primary A fuel m2.2

/-- `parse_primary(ps, out)`. -/
def parse_primary {D : Type} (A : Arith D) : Nat → parser_t → Option (Res D)
  | 0, _ => none
  | fuel + 1, ps =>
    let m := match_ ps '('
    if m.1 then
      match parse_expr A fuel m.2 with
      | none => none
      | some (.fail ps1) => some (.fail ps1)
      | some (.ok v ps1) =>
        let m2 := match_ ps1 ')'
        if m2.1 then some (.ok v m2.2)
        else some (.fail (set_err m2.2 "expected ')'"))
    else some (parse_number A m.2)

end

/-- The enum `parse_status_t`. -/
inductive parse_status_t where
  | PARSE_OK
  | PARSE_ERR
  deriving DecidableEq, Repr

/-- What `parse_eval` leaves behind: its return value, `*out_value` and the
content of `errbuf`, each `none` when the function did not write it. -/
structure EvalResult (D : Type) where
  status : parse_status_t
  out_value : Option D
  errbuf : Option String
  deriving DecidableEq, Repr

/-- An upper-case hexadecimal digit. -/
def hexDigit (n : Nat) : Char :=
  if n < 10 then Char.ofNat (48 + n) else Char.ofNat (55 + n)

/-- The text `near` that `parse_eval` builds for the position `at`. -/
def near_text (at_ : List Char) : String :=
  if cur at_ = NUL then snprintf 32 "end"
  else if isprint (cur at_) = true then snprintf 32 (String.singleton (cur at_))
  else
    let b := (cur at_).toNat % 256
    snprintf 32 ("byte 0x" ++ String.mk [hexDigit (b / 16), hexDigit (b % 16)])

/-- The fuel `parse_eval` starts from: five calls lead from `parse_expr` to
the next `parse_expr`, and at least one character is consumed on the way. -/
def eval_fuel (input : List Char) : Nat := 5 * input.length + 5

/-- `parse_eval(input, out_value, errbuf, errbuf_sz)` for non-NULL `input`
and `out_value`; `input` is the string before its terminating NUL, and
`errbuf_sz = 0` also stands for a NULL `errbuf`. -/
def parse_eval {D : Type} (A : Arith D) (input : List Char) (errbuf_sz : Nat) :
    Option (EvalResult D) :=
  let ps : parser_t := { p := input, err_at := none, err_msg := "" }
  match parse_expr A (eval_fuel input) ps with
  | none => none
  | some (.fail ps1) =>
    let at_ := match ps1.err_at with
      | some a => a
      | none => ps1.p
    let near := near_text at_
    let reason := if ps1.err_msg ≠ "" then ps1.err_msg else "parse error"
    some ⟨.PARSE_ERR, none,
      if 0 < errbuf_sz then some (snprintf errbuf_sz (reason ++ " near '" ++ near ++ "'"))
      else none⟩
  | some (.ok v ps1) =>
    let ps2 := skip_ws ps1
    if cur ps2.p ≠ NUL then
      some ⟨.PARSE_ERR, none,
        if 0 < errbuf_sz then
          some (snprintf errbuf_sz ("unexpected token near '"
            ++ String.singleton (if isprint (cur ps2.p) = true then cur ps2.p else '?') ++ "'"))
        else none⟩
    else some ⟨.PARSE_OK, some v, none⟩

end Parser
namespace Parser

/-! ## A reference arithmetic

The examples need one concrete `Arith`. `Ref.arith` computes exactly, on
rational numbers in lowest terms, and turns every result beyond the range of a
`double` into a non-finite value. It agrees with IEEE-754 binary64 wherever
the operands and the exact result are representable (all integers of magnitude
below 2^53 are), which is the case in every example below. It does not round,
it has one non-finite value for the infinities and NaN, and it reports an
exponentiation with a non-integer exponent as a domain error. -/

namespace Ref

/-- A rational number `num / den` in lowest terms with `den > 0`, or a
non-finite value (an infinity or a NaN). -/
inductive Val where
  | fin (num : Int) (den : Nat)
  | nonfin
  deriving DecidableEq, Repr

/-- The power `b ^ e` of natural numbers, split into two steps with small
exponents. -/
def npow (b e : Nat) : Nat := (b ^ 256) ^ (e / 256) * b ^ (e % 256)

/-- The power `a ^ e` of an integer. -/
def ipow (a : Int) (e : Nat) : Int :=
  if a < 0 ∧ e % 2 = 1 then -(npow a.natAbs e : Int) else (npow a.natAbs e : Int)

/-- The largest finite `double`, `DBL_MAX = 2^1024 - 2^971`. -/
def DBL_MAX : Nat := npow 2 1024 - npow 2 971

/-- The value `n / d`, reduced; non-finite when `d = 0` or when it is beyond
`DBL_MAX` in magnitude. -/
def Val.mk (n : Int) (d : Nat) : Val :=
  if d = 0 then .nonfin
  else if n.natAbs > DBL_MAX * d then .nonfin
  else .fin (n / (Nat.gcd n.natAbs d : Int)) (d / Nat.gcd n.natAbs d)

/-- The value of an integer. -/
def Val.ofInt (n : Int) : Val := Val.mk n 1

def add : Val → Val → Val
  | .fin a b, .fin c d => Val.mk (a * d + c * b) (b * d)
  | _, _ => .nonfin

def sub : Val → Val → Val
  | .fin a b, .fin c d => Val.mk (a * d - c * b) (b * d)
  | _, _ => .nonfin

def mul : Val → Val → Val
  | .fin a b, .fin c d => Val.mk (a * c) (b * d)
  | _, _ => .nonfin

def div : Val → Val → Val
  | .fin a b, .fin c d => Val.mk (a * d * c.sign) (b * c.natAbs)
  | _, _ => .nonfin

def neg : Val → Val
  | .fin a b => .fin (-a) b
  | .nonfin => .nonfin

def isfinite : Val → Bool
  | .fin _ _ => true
  | .nonfin => false

def is_zero : Val → Bool
  | .fin a _ => a = 0
  | .nonfin => false

/-- The result of an operation whose exact value is `v`, and whether the
operation reports a range error: an overflow does, and so does an underflow,
a value other than 0 that is smaller in magnitude than the least subnormal
`double` 2^-1074 and is rounded to 0 or to that subnormal. -/
def ranged (v : Val) : Val × Bool :=
  match v with
  | .nonfin => (.nonfin, true)
  | .fin a b =>
    if a ≠ 0 ∧ a.natAbs * npow 2 1074 < b then
      (if 2 * a.natAbs * npow 2 1074 ≤ b then .fin 0 1 else .fin a.sign (npow 2 1074), true)
    else (.fin a b, false)

/-- `pow(x, y)` and whether it sets `errno`: exact for an integer `y`; a pole
(0 to a negative power), an overflow and an underflow set `errno`. -/
def pow : Val → Val → Val × Bool
  | .fin a b, .fin e 1 =>
    if 0 ≤ e then ranged (Val.mk (ipow a e.toNat) (npow b e.toNat))
    else if a = 0 then (.nonfin, true)
    else ranged (Val.mk (ipow (a.sign * b) e.natAbs) (npow a.natAbs e.natAbs))
  | .fin _ _, .fin _ _ => (.nonfin, true)
  | _, _ => (.nonfin, false)

/-- The digits at the head of `s`: their value on top of `acc`, their number,
and the rest of `s`. -/
def scanDigits : List Char → Nat → Nat × Nat × List Char
  | [], acc => (acc, 0, [])
  | c :: cs, acc =>
    if c.isDigit then
      let r := scanDigits cs (10 * acc + (c.toNat - 48))
      (r.1, r.2.1 + 1, r.2.2)
    else (acc, 0, c :: cs)

/-- The optional exponent part `e[+-]digits` at the head of `s`: the exponent
and the rest of `s` (`s` itself when there is no exponent part). -/
def scanExponent (s : List Char) : Int × List Char :=
  match s with
  | e :: t =>
    if e = 'e' ∨ e = 'E' then
      match t with
      | '-' :: u =>
        let r := scanDigits u 0
        if r.2.1 = 0 then (0, s) else (-(r.1 : Int), r.2.2)
      | '+' :: u =>
        let r := scanDigits u 0
        if r.2.1 = 0 then (0, s) else ((r.1 : Int), r.2.2)
      | _ =>
        let r := scanDigits t 0
        if r.2.1 = 0 then (0, s) else ((r.1 : Int), r.2.2)
    else (0, s)
  | [] => (0, s)

/-- The value `m * 10^e / 10^fd` of a decimal literal, and whether it is out
of range. -/
def decimal (m : Nat) (fd : Nat) (e : Int) : Val × Bool :=
  if 0 ≤ e then ranged (Val.mk ((m : Int) * (npow 10 e.toNat : Int)) (npow 10 fd))
  else ranged (Val.mk (m : Int) (npow 10 fd * npow 10 e.natAbs))

/-- The unsigned part of a `strtod` subject sequence at the head of `s`:
`inf`, `nan`, or decimal digits with an optional fraction and exponent. The
result is the value, the `errno` flag and the rest of `s`, or `none` when `s`
does not start with a number. -/
def scanUnsigned (s : List Char) : Option (Val × Bool × List Char) :=
  match s.map Char.toLower with
  | 'i' :: 'n' :: 'f' :: 'i' :: 'n' :: 'i' :: 't' :: 'y' :: _ => some (.nonfin, false, s.drop 8)
  | 'i' :: 'n' :: 'f' :: _ => some (.nonfin, false, s.drop 3)
  | 'n' :: 'a' :: 'n' :: _ => some (.nonfin, false, s.drop 3)
  | _ =>
    let ip := scanDigits s 0
    let fp := match ip.2.2 with
      | '.' :: t => scanDigits t ip.1
      | _ => (ip.1, 0, ip.2.2)
    let dot := match ip.2.2 with
      | '.' :: _ => true
      | _ => false
    if ip.2.1 + fp.2.1 = 0 then none
    else
      let rest := if dot = true ∧ ip.2.1 + fp.2.1 = 0 then ip.2.2 else fp.2.2
      let ex := scanExponent rest
      let d := decimal fp.1 fp.2.1 ex.1
      some (d.1, d.2, ex.2)

/-- A model of `strtod`: leading white space, an optional sign, and the
unsigned part. The rest of the string is whatever was not consumed. -/
def scan (s : List Char) : Option (Val × Bool × List Char) :=
  match skip_ws_from s with
  | '-' :: t =>
    match scanUnsigned t with
    | some (v, e, r) => some (neg v, e, r)
    | none => none
  | '+' :: t => scanUnsigned t
  | t => scanUnsigned t

/-- The function `strtod` of the reference arithmetic. -/
def strtod (s : List Char) : StrtodResult Val :=
  match scan s with
  | some (v, e, r) => ⟨s.length - r.length, v, e⟩
  | none => ⟨0, .fin 0 1, false⟩

/-- The reference arithmetic. -/
def arith : Arith Val where
  add := add
  sub := sub
  mul := mul
  div := div
  neg := neg
  pow := pow
  isfinite := isfinite
  is_zero := is_zero
  strtod := strtod
  strtod_le := by
    intro s
    unfold strtod
    cases scan s with
    | none => exact Nat.zero_le _
    | some r => exact Nat.sub_le _ _

end Ref

end Parser
namespace Parser

/-! ## The grammar of the specification

The specification gives the language as a grammar,

```
expr    := term (('+' | '-') term)*      left-associative
term    := power (('*' | '/') power)*    left-associative
power   := unary ('^' power)?            right-associative
unary   := ('+' | '-') unary | primary
primary := NUMBER | '(' expr ')'
```

with white space allowed before every token. The definitions of this section
follow that text, not the code: parse trees, their value, and the derivation
relation of the grammar. -/

/-- A parse tree of the grammar. A NUMBER leaf carries the value of the
literal and whether the literal is valid (scanned without range error, and
finite). -/
inductive Tree (D : Type) where
  | num (v : D) (valid : Bool)
  | paren (e : Tree D)
  | plus (e : Tree D)
  | minus (e : Tree D)
  | pow (b e : Tree D)
  | mul (a b : Tree D)
  | div (a b : Tree D)
  | add (a b : Tree D)
  | sub (a b : Tree D)

/-- The value of a parse tree; `none` when the tree holds an invalid literal,
a division by zero, or an exponentiation that sets `errno` or is not
finite. -/
def Tree.eval {D : Type} (A : Arith D) : Tree D → Option D
  | .num v valid => if valid = true then some v else none
  | .paren e => e.eval A
  | .plus e => e.eval A
  | .minus e =>
    match e.eval A with
    | some x => some (A.neg x)
    | none => none
  | .pow b e =>
    match b.eval A, e.eval A with
    | some x, some y =>
      if (A.pow x y).2 = true ∨ A.isfinite (A.pow x y).1 = false then none
      else some (A.pow x y).1
    | _, _ => none
  | .mul a b =>
    match a.eval A, b.eval A with
    | some x, some y => some (A.mul x y)
    | _, _ => none
  | .div a b =>
    match a.eval A, b.eval A with
    | some x, some y => if A.is_zero y = true then none else some (A.div x y)
    | _, _ => none
  | .add a b =>
    match a.eval A, b.eval A with
    | some x, some y => some (A.add x y)
    | _, _ => none
  | .sub a b =>
    match a.eval A, b.eval A with
    | some x, some y => some (A.sub x y)
    | _, _ => none

/-- The token `c`: optional white space, then the character `c`. `Tok c s r`
says that the input `s` starts with this token and that `r` follows it. -/
def Tok (c : Char) (s r : List Char) : Prop := skip_ws_from s = c :: r

/-- The token NUMBER: optional white space, then the longest text `strtod`
accepts, which is not empty. A literal has no sign of its own (a sign is a
token of the production `unary`) and does not start with a parenthesis.
`NumberAt A s r v valid` says that `s` starts with a literal of value `v`,
that `r` follows it, and whether the literal is valid. -/
def NumberAt {D : Type} (A : Arith D) (s r : List Char) (v : D) (valid : Bool) : Prop :=
  cur (skip_ws_from s) ≠ '+' ∧ cur (skip_ws_from s) ≠ '-' ∧ cur (skip_ws_from s) ≠ '('
    ∧ 0 < (A.strtod (skip_ws_from s)).consumed
    ∧ r = (skip_ws_from s).drop (A.strtod (skip_ws_from s)).consumed
    ∧ v = (A.strtod (skip_ws_from s)).value
    ∧ valid = (!(A.strtod (skip_ws_from s)).erange && A.isfinite (A.strtod (skip_ws_from s)).value)

/-- The nonterminals of the grammar. -/
inductive NT where
  | expr
  | term
  | power
  | unary
  | primary
  deriving DecidableEq, Repr

/-- The derivation relation: `Derives A n s r t` says that a prefix of the
input `s` is derived from the nonterminal `n` with parse tree `t`, and that
`r` is the input after that prefix. The repetitions of `expr` and `term` are
read as left-recursive rules, which is what left-associative means. -/
inductive Derives {D : Type} (A : Arith D) : NT → List Char → List Char → Tree D → Prop where
  | number {s r : List Char} {v : D} {valid : Bool} :
      NumberAt A s r v valid → Derives A .primary s r (.num v valid)
  | paren {s r1 r2 r : List Char} {t : Tree D} :
      Tok '(' s r1 → Derives A .expr r1 r2 t → Tok ')' r2 r → Derives A .primary s r (.paren t)
  | primary {s r : List Char} {t : Tree D} :
      Derives A .primary s r t → Derives A .unary s r t
  | plus {s r1 r : List Char} {t : Tree D} :
      Tok '+' s r1 → Derives A .unary r1 r t → Derives A .unary s r (.plus t)
  | minus {s r1 r : List Char} {t : Tree D} :
      Tok '-' s r1 → Derives A .unary r1 r t → Derives A .unary s r (.minus t)
  | unary {s r : List Char} {t : Tree D} :
      Derives A .unary s r t → Derives A .power s r t
  | pow {s r1 r2 r : List Char} {b e : Tree D} :
      Derives A .unary s r1 b → Tok '^' r1 r2 → Derives A .power r2 r e →
      Derives A .power s r (.pow b e)
  | power {s r : List Char} {t : Tree D} :
      Derives A .power s r t → Derives A .term s r t
  | mul {s r1 r2 r : List Char} {a b : Tree D} :
      Derives A .term s r1 a → Tok '*' r1 r2 → Derives A .power r2 r b →
      Derives A .term s r (.mul a b)
  | div {s r1 r2 r : List Char} {a b : Tree D} :
      Derives A .term s r1 a → Tok '/' r1 r2 → Derives A .power r2 r b →
      Derives A .term s r (.div a b)
  | term {s r : List Char} {t : Tree D} :
      Derives A .term s r t → Derives A .expr s r t
  | add {s r1 r2 r : List Char} {a b : Tree D} :
      Derives A .expr s r1 a → Tok '+' r1 r2 → Derives A .term r2 r b →
      Derives A .expr s r (.add a b)
  | sub {s r1 r2 r : List Char} {a b : Tree D} :
      Derives A .expr s r1 a → Tok '-' r1 r2 → Derives A .term r2 r b →
      Derives A .expr s r (.sub a b)

/-- A sentence of the grammar with parse tree `t`: the input is derived from
`expr`, and only white space is left before the end of the string. -/
def Sentence {D : Type} (A : Arith D) (s : List Char) (t : Tree D) : Prop :=
  ∃ r, Derives A .expr s r t ∧ cur (skip_ws_from r) = NUL

/-! ## The calls of a run

To speak of a point that a run of the parser comes to, the calls are made
explicit: which function, with which fuel, accumulator and state. -/

/-- A call of one of the seven functions. -/
inductive Call (D : Type) where
  | expr (fuel : Nat) (ps : parser_t)
  | expr_loop (fuel : Nat) (v : D) (ps : parser_t)
  | term (fuel : Nat) (ps : parser_t)
  | term_loop (fuel : Nat) (v : D) (ps : parser_t)
  | power (fuel : Nat) (ps : parser_t)
  | unary (fuel : Nat) (ps : parser_t)
  | primary (fuel : Nat) (ps : parser_t)

/-- What a call returns. -/
def Call.run {D : Type} (A : Arith D) : Call D → Option (Res D)
  | .expr f ps => parse_expr A f ps
  | .expr_loop f v ps => parse_expr_loop A f v ps
  | .term f ps => parse_term A f ps
  | .term_loop f v ps => parse_term_loop A f v ps
  | .power f ps => parse_power A f ps
  | .unary f ps => parse_unary A f ps
  | .primary f ps => parse_primary A f ps

/-- `Calls A c d`: the body of the call `c` comes to the call `d`, everything
it did before having succeeded. There is one rule for each call in the
source; the loops count as calls of their own. -/
inductive Calls {D : Type} (A : Arith D) : Call D → Call D → Prop where
  | expr_term (f : Nat) (ps : parser_t) : Calls A (.expr (f + 1) ps) (.term f ps)
  | expr_loop (f : Nat) (ps : parser_t) (v : D) (ps1 : parser_t) :
      parse_term A f ps = some (.ok v ps1) →
      Calls A (.expr (f + 1) ps) (.expr_loop f v ps1)
  | loop_plus_term (f : Nat) (v : D) (ps : parser_t) :
      (match_ ps '+').1 = true →
      Calls A (.expr_loop (f + 1) v ps) (.term f (match_ ps '+').2)
  | loop_plus_next (f : Nat) (v : D) (ps : parser_t) (rhs : D) (ps2 : parser_t) :
      (match_ ps '+').1 = true → parse_term A f (match_ ps '+').2 = some (.ok rhs ps2) →
      Calls A (.expr_loop (f + 1) v ps) (.expr_loop f (A.add v rhs) ps2)
  | loop_minus_term (f : Nat) (v : D) (ps : parser_t) :
      (match_ ps '+').1 = false → (match_ (match_ ps '+').2 '-').1 = true →
      Calls A (.expr_loop (f + 1) v ps) (.term f (match_ (match_ ps '+').2 '-').2)
  | loop_minus_next (f : Nat) (v : D) (ps : parser_t) (rhs : D) (ps2 : parser_t) :
      (match_ ps '+').1 = false → (match_ (match_ ps '+').2 '-').1 = true →
      parse_term A f (match_ (match_ ps '+').2 '-').2 = some (.ok rhs ps2) →
      Calls A (.expr_loop (f + 1) v ps) (.expr_loop f (A.sub v rhs) ps2)
  | term_power (f : Nat) (ps : parser_t) : Calls A (.term (f + 1) ps) (.power f ps)
  | term_loop (f : Nat) (ps : parser_t) (v : D) (ps1 : parser_t) :
      parse_power A f ps = some (.ok v ps1) →
      Calls A (.term (f + 1) ps) (.term_loop f v ps1)
  | loop_mul_power (f : Nat) (v : D) (ps : parser_t) :
      (match_ ps '*').1 = true →
      Calls A (.term_loop (f + 1) v ps) (.power f (match_ ps '*').2)
  | loop_mul_next (f : Nat) (v : D) (ps : parser_t) (rhs : D) (ps2 : parser_t) :
      (match_ ps '*').1 = true → parse_power A f (match_ ps '*').2 = some (.ok rhs ps2) →
      Calls A (.term_loop (f + 1) v ps) (.term_loop f (A.mul v rhs) ps2)
  | loop_div_power (f : Nat) (v : D) (ps : parser_t) :
      (match_ ps '*').1 = false → (match_ (match_ ps '*').2 '/').1 = true →
      Calls A (.term_loop (f + 1) v ps) (.power f (match_ (match_ ps '*').2 '/').2)
  | loop_div_next (f : Nat) (v : D) (ps : parser_t) (rhs : D) (ps2 : parser_t) :
      (match_ ps '*').1 = false → (match_ (match_ ps '*').2 '/').1 = true →
      parse_power A f (match_ (match_ ps '*').2 '/').2 = some (.ok rhs ps2) →
      A.is_zero rhs = false →
      Calls A (.term_loop (f + 1) v ps) (.term_loop f (A.div v rhs) ps2)
  | power_unary (f : Nat) (ps : parser_t) : Calls A (.power (f + 1) ps) (.unary f ps)
  | power_power (f : Nat) (ps : parser_t) (base : D) (ps1 : parser_t) :
      parse_unary A f ps = some (.ok base ps1) → (match_ ps1 '^').1 = true →
      Calls A (.power (f + 1) ps) (.power f (match_ ps1 '^').2)
  | unary_plus (f : Nat) (ps : parser_t) :
      (match_ ps '+').1 = true →
      Calls A (.unary (f + 1) ps) (.unary f (match_ ps '+').2)
  | unary_minus (f : Nat) (ps : parser_t) :
      (match_ ps '+').1 = false → (match_ (match_ ps '+').2 '-').1 = true →
      Calls A (.unary (f + 1) ps) (.unary f (match_ (match_ ps '+').2 '-').2)
  | unary_primary (f : Nat) (ps : parser_t) :
      (match_ ps '+').1 = false → (match_ (match_ ps '+').2 '-').1 = false →
      Calls A (.unary (f + 1) ps) (.primary f (match_ (match_ ps '+').2 '-').2)
  | primary_expr (f : Nat) (ps : parser_t) :
      (match_ ps '(').1 = true →
      Calls A (.primary (f + 1) ps) (.expr f (match_ ps '(').2)

/-- The run of `parse_eval` on `input` comes to the call `c` without an
earlier failure. -/
def Reaches {D : Type} (A : Arith D) (input : List Char) (c : Call D) : Prop :=
  Relation.ReflTransGen (Calls A)
    (.expr (eval_fuel input) { p := input, err_at := none, err_msg := "" }) c

end Parser
namespace Parser

variable {D : Type}

/-! ## Auxiliary predicates

The statements that the proofs below establish for the seven functions at
once, and the text of the error message. -/

/-- The statement that one more unit of fuel leaves every result in place, for
the seven functions at once. -/
def MonoAt (A : Arith D) (f : Nat) : Prop :=
  (∀ ps r, parse_expr A f ps = some r → parse_expr A (f + 1) ps = some r)
  ∧ (∀ v ps r, parse_expr_loop A f v ps = some r → parse_expr_loop A (f + 1) v ps = some r)
  ∧ (∀ ps r, parse_term A f ps = some r → parse_term A (f + 1) ps = some r)
  ∧ (∀ v ps r, parse_term_loop A f v ps = some r → parse_term_loop A (f + 1) v ps = some r)
  ∧ (∀ ps r, parse_power A f ps = some r → parse_power A (f + 1) ps = some r)
  ∧ (∀ ps r, parse_unary A f ps = some r → parse_unary A (f + 1) ps = some r)
  ∧ (∀ ps r, parse_primary A f ps = some r → parse_primary A (f + 1) ps = some r)

/-- The statement that the fuel `f` is enough whenever it is at least five
times the remaining input plus the depth of the production, for the seven
functions at once. -/
def EnoughAt (A : Arith D) (f : Nat) : Prop :=
  (∀ ps, 5 * ps.p.length + 5 ≤ f →
    ∃ r, parse_expr A f ps = some r ∧ r.state.p.length ≤ ps.p.length)
  ∧ (∀ v ps, 5 * ps.p.length + 4 ≤ f →
    ∃ r, parse_expr_loop A f v ps = some r ∧ r.state.p.length ≤ ps.p.length)
  ∧ (∀ ps, 5 * ps.p.length + 4 ≤ f →
    ∃ r, parse_term A f ps = some r ∧ r.state.p.length ≤ ps.p.length)
  ∧ (∀ v ps, 5 * ps.p.length + 3 ≤ f →
    ∃ r, parse_term_loop A f v ps = some r ∧ r.state.p.length ≤ ps.p.length)
  ∧ (∀ ps, 5 * ps.p.length + 3 ≤ f →
    ∃ r, parse_power A f ps = some r ∧ r.state.p.length ≤ ps.p.length)
  ∧ (∀ ps, 5 * ps.p.length + 2 ≤ f →
    ∃ r, parse_unary A f ps = some r ∧ r.state.p.length ≤ ps.p.length)
  ∧ (∀ ps, 5 * ps.p.length + 1 ≤ f →
    ∃ r, parse_primary A f ps = some r ∧ r.state.p.length ≤ ps.p.length)

/-- The two states have the same error position and message. -/
def SameErr (a b : parser_t) : Prop := a.err_at = b.err_at ∧ a.err_msg = b.err_msg

/-- The statement that a production that returns 1 has not touched the error
fields, for the seven functions at once. -/
def KeepAt (A : Arith D) (f : Nat) : Prop :=
  (∀ ps v ps1, parse_expr A f ps = some (.ok v ps1) → SameErr ps1 ps)
  ∧ (∀ w ps v ps1, parse_expr_loop A f w ps = some (.ok v ps1) → SameErr ps1 ps)
  ∧ (∀ ps v ps1, parse_term A f ps = some (.ok v ps1) → SameErr ps1 ps)
  ∧ (∀ w ps v ps1, parse_term_loop A f w ps = some (.ok v ps1) → SameErr ps1 ps)
  ∧ (∀ ps v ps1, parse_power A f ps = some (.ok v ps1) → SameErr ps1 ps)
  ∧ (∀ ps v ps1, parse_unary A f ps = some (.ok v ps1) → SameErr ps1 ps)
  ∧ (∀ ps v ps1, parse_primary A f ps = some (.ok v ps1) → SameErr ps1 ps)

/-- The position `parse_eval` reports for a failed state. -/
def err_pos (ps : parser_t) : List Char :=
  match ps.err_at with
  | some a => a
  | none => ps.p

/-- The message `parse_eval` writes for a failed state. -/
def err_text (ps : parser_t) : String :=
  (if ps.err_msg ≠ "" then ps.err_msg else "parse error") ++ " near '"
    ++ near_text (err_pos ps) ++ "'"

/-- What the parser does on the input of a derivation, for each nonterminal.
The parser may start anywhere in the white space before the first token. For
`power`, `term` and `expr` the character after the derived text must not
continue the production; `term` and `expr` are then taken to the point where
their loop goes on with the value of the tree. -/
def Agrees (A : Arith D) : NT → List Char → List Char → Tree D → Prop
  | .primary, s, r, t =>
    (cur (skip_ws_from s) ≠ '+' ∧ cur (skip_ws_from s) ≠ '-')
    ∧ ∀ v, t.eval A = some v → ∀ p ea em, skip_ws_from p = skip_ws_from s →
      ∃ c, ∀ f, c ≤ f → parse_primary A f ⟨p, ea, em⟩ = some (.ok v ⟨r, ea, em⟩)
  | .unary, s, r, t =>
    ∀ v, t.eval A = some v → ∀ p ea em, skip_ws_from p = skip_ws_from s →
      ∃ c, ∀ f, c ≤ f → parse_unary A f ⟨p, ea, em⟩ = some (.ok v ⟨r, ea, em⟩)
  | .power, s, r, t =>
    ∀ v, t.eval A = some v → cur (skip_ws_from r) ≠ '^' →
      ∀ p ea em, skip_ws_from p = skip_ws_from s →
      ∃ c, ∀ f, c ≤ f →
        parse_power A f ⟨p, ea, em⟩ = some (.ok v ⟨skip_ws_from r, ea, em⟩)
  | .term, s, r, t =>
    ∀ v, t.eval A = some v → cur (skip_ws_from r) ≠ '^' →
      ∀ p ea em, skip_ws_from p = skip_ws_from s →
      ∃ c k, ∀ f, c ≤ f →
        parse_term A (f + k) ⟨p, ea, em⟩ = parse_term_loop A f v ⟨skip_ws_from r, ea, em⟩
  | .expr, s, r, t =>
    ∀ v, t.eval A = some v → cur (skip_ws_from r) ≠ '^' → cur (skip_ws_from r) ≠ '*' →
      cur (skip_ws_from r) ≠ '/' → ∀ p ea em, skip_ws_from p = skip_ws_from s →
      ∃ c k, ∀ f, c ≤ f →
        parse_expr A (f + k) ⟨p, ea, em⟩ = parse_expr_loop A f v ⟨skip_ws_from r, ea, em⟩

/-- The parser state a call starts from. -/
def Call.state : Call D → parser_t
  | .expr _ ps => ps
  | .expr_loop _ _ ps => ps
  | .term _ ps => ps
  | .term_loop _ _ ps => ps
  | .power _ ps => ps
  | .unary _ ps => ps
  | .primary _ ps => ps

end Parser
namespace Parser

variable {D : Type}

/-! ## Measures on the calls of a run -/

/-- The statement that no function moves the cursor backwards or out of the
string: the input that remains after a call is a suffix of the input that
remained before it. For the seven functions at once. -/
def SuffixAt (A : Arith D) (f : Nat) : Prop :=
  (∀ ps r, parse_expr A f ps = some r → r.state.p <:+ ps.p)
  ∧ (∀ v ps r, parse_expr_loop A f v ps = some r → r.state.p <:+ ps.p)
  ∧ (∀ ps r, parse_term A f ps = some r → r.state.p <:+ ps.p)
  ∧ (∀ v ps r, parse_term_loop A f v ps = some r → r.state.p <:+ ps.p)
  ∧ (∀ ps r, parse_power A f ps = some r → r.state.p <:+ ps.p)
  ∧ (∀ ps r, parse_unary A f ps = some r → r.state.p <:+ ps.p)
  ∧ (∀ ps r, parse_primary A f ps = some r → r.state.p <:+ ps.p)

/-- The offset `ps->p - ps->s` of a cursor whose remaining input is `p`, in
an input of length `L`. -/
def offset (L : Nat) (p : List Char) : Nat := L - p.length

/-- The depth of a function below the next `parse_expr`: the number of calls
it takes from there to come back to `parse_expr`. -/
def Call.rank : Call D → Nat
  | .expr _ _ => 5
  | .expr_loop _ _ _ => 4
  | .term _ _ => 4
  | .term_loop _ _ _ => 3
  | .power _ _ => 3
  | .unary _ _ => 2
  | .primary _ _ => 1

/-- The measure of a call: five times the remaining input, plus the rank. -/
def Call.measure (c : Call D) : Nat := 5 * c.state.p.length + c.rank

/-- The calls that enter a production or a loop again from inside itself:
the recursive calls of `parse_unary` and `parse_power`, the call of
`parse_expr` in `parse_primary`, and the iterations of the two loops. -/
inductive Reenters {D : Type} (A : Arith D) : Call D → Call D → Prop where
  | unary_plus (f : Nat) (ps : parser_t) :
      (match_ ps '+').1 = true →
      Reenters A (.unary (f + 1) ps) (.unary f (match_ ps '+').2)
  | unary_minus (f : Nat) (ps : parser_t) :
      (match_ ps '+').1 = false → (match_ (match_ ps '+').2 '-').1 = true →
      Reenters A (.unary (f + 1) ps) (.unary f (match_ (match_ ps '+').2 '-').2)
  | power_power (f : Nat) (ps : parser_t) (base : D) (ps1 : parser_t) :
      parse_unary A f ps = some (.ok base ps1) → (match_ ps1 '^').1 = true →
      Reenters A (.power (f + 1) ps) (.power f (match_ ps1 '^').2)
  | primary_expr (f : Nat) (ps : parser_t) :
      (match_ ps '(').1 = true →
      Reenters A (.primary (f + 1) ps) (.expr f (match_ ps '(').2)
  | loop_plus_next (f : Nat) (v : D) (ps : parser_t) (rhs : D) (ps2 : parser_t) :
      (match_ ps '+').1 = true → parse_term A f (match_ ps '+').2 = some (.ok rhs ps2) →
      Reenters A (.expr_loop (f + 1) v ps) (.expr_loop f (A.add v rhs) ps2)
  | loop_minus_next (f : Nat) (v : D) (ps : parser_t) (rhs : D) (ps2 : parser_t) :
      (match_ ps '+').1 = false → (match_ (match_ ps '+').2 '-').1 = true →
      parse_term A f (match_ (match_ ps '+').2 '-').2 = some (.ok rhs ps2) →
      Reenters A (.expr_loop (f + 1) v ps) (.expr_loop f (A.sub v rhs) ps2)
  | loop_mul_next (f : Nat) (v : D) (ps : parser_t) (rhs : D) (ps2 : parser_t) :
      (match_ ps '*').1 = true → parse_power A f (match_ ps '*').2 = some (.ok rhs ps2) →
      Reenters A (.term_loop (f + 1) v ps) (.term_loop f (A.mul v rhs) ps2)
  | loop_div_next (f : Nat) (v : D) (ps : parser_t) (rhs : D) (ps2 : parser_t) :
      (match_ ps '*').1 = false → (match_ (match_ ps '*').2 '/').1 = true →
      parse_power A f (match_ (match_ ps '*').2 '/').2 = some (.ok rhs ps2) →
      A.is_zero rhs = false →
      Reenters A (.term_loop (f + 1) v ps) (.term_loop f (A.div v rhs) ps2)

/-! ## The cursor in memory

To say that the cursor does not pass the terminating NUL, the cursor is taken
as the memory from the pointer on, the terminator and whatever lies behind it
included: `mem` is the memory at `input`, and a step past the terminator
would leave a cursor inside the bytes behind it. -/

/-- `strlen` of the C string at the start of the memory `mem`: the number of
characters before the first NUL. -/
def c_strlen (mem : List Char) : Nat := (mem.takeWhile (fun c => c ≠ NUL)).length

/-- The cursor `p` points into the C string at the start of `mem`, its
terminating NUL included: it is a suffix of the memory, and its offset is at
most the length of the string. -/
def InString (mem p : List Char) : Prop :=
  p <:+ mem ∧ offset mem.length p ≤ c_strlen mem

/-- The statement that a function started on a cursor inside the string
returns with a cursor inside the string, for the seven functions at once. -/
def InStringAt (A : Arith D) (mem : List Char) (f : Nat) : Prop :=
  (∀ ps r, parse_expr A f ps = some r → InString mem ps.p → InString mem r.state.p)
  ∧ (∀ v ps r, parse_expr_loop A f v ps = some r → InString mem ps.p →
      InString mem r.state.p)
  ∧ (∀ ps r, parse_term A f ps = some r → InString mem ps.p → InString mem r.state.p)
  ∧ (∀ v ps r, parse_term_loop A f v ps = some r → InString mem ps.p →
      InString mem r.state.p)
  ∧ (∀ ps r, parse_power A f ps = some r → InString mem ps.p → InString mem r.state.p)
  ∧ (∀ ps r, parse_unary A f ps = some r → InString mem ps.p → InString mem r.state.p)
  ∧ (∀ ps r, parse_primary A f ps = some r → InString mem ps.p → InString mem r.state.p)

end Parser
namespace Parser

variable {D : Type}

/-! ## Counting the calls of `set_err`

The functions of this section follow the control flow of the parser and
return the number of times `set_err` is called on the way: one for every
`set_err(...)` statement that is executed, plus the calls made by the
productions that are called. -/

/-- The number of calls of `set_err` in `parse_number(ps, out)`. -/
def count_number (A : Arith D) (ps : parser_t) : Nat :=
  let ps1 := skip_ws ps
  let r := A.strtod ps1.p
  if r.consumed = 0 then 1
  else if r.erange = true ∨ A.isfinite r.value = false then 1
  else 0

mutual

/-- The number of calls of `set_err` in `parse_expr(ps, out)`. -/
def count_expr (A : Arith D) : Nat → parser_t → Nat
  | 0, _ => 0
  | fuel + 1, ps =>
    count_term A fuel ps +
      match parse_term A fuel ps with
      | some (.ok v ps1) => count_expr_loop A fuel v ps1
      | _ => 0

/-- The number of calls of `set_err` in the loop of `parse_expr`. -/
def count_expr_loop (A : Arith D) : Nat → D → parser_t → Nat
  | 0, _, _ => 0
  | fuel + 1, v, ps =>
    let m1 := match_ ps '+'
    if m1.1 then
      count_term A fuel m1.2 +
        match parse_term A fuel m1.2 with
        | some (.ok rhs ps2) => count_expr_loop A fuel (A.add v rhs) ps2
        | _ => 0
    else
      let m2 := match_ m1.2 '-'
      if m2.1 then
        count_term A fuel m2.2 +
          match parse_term A fuel m2.2 with
          | some (.ok rhs ps2) => count_expr_loop A fuel (A.sub v rhs) ps2
          | _ => 0
      else 0

/-- The number of calls of `set_err` in `parse_term(ps, out)`. -/
def count_term (A : Arith D) : Nat → parser_t → Nat
  | 0, _ => 0
  | fuel + 1, ps =>
    count_power A fuel ps +
      match parse_power A fuel ps with
      | some (.ok v ps1) => count_term_loop A fuel v ps1
      | _ => 0

/-- The number of calls of `set_err` in the loop of `parse_term`. -/
def count_term_loop (A : Arith D) : Nat → D → parser_t → Nat
  | 0, _, _ => 0
  | fuel + 1, v, ps =>
    let m1 := match_ ps '*'
    if m1.1 then
      count_power A fuel m1.2 +
        match parse_power A fuel m1.2 with
        | some (.ok rhs ps2) => count_term_loop A fuel (A.mul v rhs) ps2
        | _ => 0
    else
      let m2 := match_ m1.2 '/'
      if m2.1 then
        count_power A fuel m2.2 +
          match parse_power A fuel m2.2 with
          | some (.ok rhs ps2) =>
            if A.is_zero rhs = true then 1
            else count_term_loop A fuel (A.div v rhs) ps2
          | _ => 0
      else 0

/-- The number of calls of `set_err` in `parse_power(ps, out)`. -/
def count_power (A : Arith D) : Nat → parser_t → Nat
  | 0, _ => 0
  | fuel + 1, ps =>
    count_unary A fuel ps +
      match parse_unary A fuel ps with
      | some (.ok base ps1) =>
        let m := match_ ps1 '^'
        if m.1 then
          count_power A fuel m.2 +
            match parse_power A fuel m.2 with
            | some (.ok exp _) =>
              if (A.pow base exp).2 = true ∨ A.isfinite (A.pow base exp).1 = false then 1
              else 0
            | _ => 0
        else 0
      | _ => 0

/-- The number of calls of `set_err` in `parse_unary(ps, out)`. -/
def count_unary (A : Arith D) : Nat → parser_t → Nat
  | 0, _ => 0
  | fuel + 1, ps =>
    let m1 := match_ ps '+'
    if m1.1 then count_unary A fuel m1.2
    else
      let m2 := match_ m1.2 '-'
      if m2.1 then count_unary A fuel m2.2
      else count_primary A fuel m2.2

/-- The number of calls of `set_err` in `parse_primary(ps, out)`. -/
def count_primary (A : Arith D) : Nat → parser_t → Nat
  | 0, _ => 0
  | fuel + 1, ps =>
    let m := match_ ps '('
    if m.1 then
      count_expr A fuel m.2 +
        match parse_expr A fuel m.2 with
        | some (.ok _ ps1) => if (match_ ps1 ')').1 then 0 else 1
        | _ => 0
    else count_number A m.2

end

/-- The statement that a function that returns 1 has not called `set_err`
and one that returns 0 has called it exactly once, for the seven functions at
once. -/
def CountAt (A : Arith D) (f : Nat) : Prop :=
  (∀ ps r, parse_expr A f ps = some r →
    count_expr A f ps = match r with
      | .ok _ _ => 0
      | .fail _ => 1)
  ∧ (∀ v ps r, parse_expr_loop A f v ps = some r →
    count_expr_loop A f v ps = match r with
      | .ok _ _ => 0
      | .fail _ => 1)
  ∧ (∀ ps r, parse_term A f ps = some r →
    count_term A f ps = match r with
      | .ok _ _ => 0
      | .fail _ => 1)
  ∧ (∀ v ps r, parse_term_loop A f v ps = some r →
    count_term_loop A f v ps = match r with
      | .ok _ _ => 0
      | .fail _ => 1)
  ∧ (∀ ps r, parse_power A f ps = some r →
    count_power A f ps = match r with
      | .ok _ _ => 0
      | .fail _ => 1)
  ∧ (∀ ps r, parse_unary A f ps = some r →
    count_unary A f ps = match r with
      | .ok _ _ => 0
      | .fail _ => 1)
  ∧ (∀ ps r, parse_primary A f ps = some r →
    count_primary A f ps = match r with
      | .ok _ _ => 0
      | .fail _ => 1)

/-- The five reasons that the parser passes to `set_err`. -/
def reasons : List String :=
  ["division by zero", "invalid exponentiation", "expected ')'", "expected number or '('",
    "invalid number"]

/-- The state `e` of a failure is the state `q` in which `set_err` was called,
with the position of `q` and one of the five reasons recorded; `q` has the
error fields of `ps`. -/
def RaisedFrom (ps e : parser_t) : Prop :=
  ∃ q reason, SameErr q ps ∧ reason ∈ reasons ∧ e = set_err q reason

/-- The statement that the state of every failure is the one that a single
`set_err` has left, for the seven functions at once. -/
def RaiseAt (A : Arith D) (f : Nat) : Prop :=
  (∀ ps e, parse_expr A f ps = some (.fail e) → RaisedFrom ps e)
  ∧ (∀ v ps e, parse_expr_loop A f v ps = some (.fail e) → RaisedFrom ps e)
  ∧ (∀ ps e, parse_term A f ps = some (.fail e) → RaisedFrom ps e)
  ∧ (∀ v ps e, parse_term_loop A f v ps = some (.fail e) → RaisedFrom ps e)
  ∧ (∀ ps e, parse_power A f ps = some (.fail e) → RaisedFrom ps e)
  ∧ (∀ ps e, parse_unary A f ps = some (.fail e) → RaisedFrom ps e)
  ∧ (∀ ps e, parse_primary A f ps = some (.fail e) → RaisedFrom ps e)

end Parser
namespace Server

open Proto Parser

/-! ## The connection loop of `server.c`

`client_thread` receives a frame, evaluates its payload as a C string, formats
the outcome with `format_ok` or `format_err` of `util.c` and sends it back as
one frame. What it needs of the C library beyond the parser is a parameter:
the `printf` conversion `%.15g` and the constant `0.0`. -/

/-- The `printf` conversion `%.15g` of a `double`, and the `double` 0.0. -/
structure Libc (D : Type) where
  g15 : D → String
  zero : D

/-- The text holds no NUL character. -/
def NulFree (s : String) : Prop := ∀ c ∈ s.data, c ≠ NUL

instance (s : String) : Decidable (NulFree s) := by
  unfold NulFree
  infer_instance

/-- The `char` a byte of a buffer is read as. -/
def to_char (b : Byte) : Char := Char.ofNat (b % 256)

/-- The byte a `char` of a buffer is sent as. -/
def to_byte (c : Char) : Byte := c.toNat % 256

/-- The C string that starts a buffer: the characters before the first NUL. -/
def c_str (buf : List Byte) : List Char := (buf.map to_char).takeWhile (fun c => c ≠ NUL)

/-- `strlen(s)` of a buffer that holds the text `s` followed by zeroes. -/
def strlen (s : String) : Nat := (s.data.takeWhile (fun c => c ≠ NUL)).length

/-- `format_ok(buf, bufsz, value)`: the text stored in `buf`. -/
def format_ok {D : Type} (L : Libc D) (bufsz : Nat) (value : D) : String :=
  snprintf bufsz ("OK " ++ L.g15 value ++ "\n")

/-- `format_err(buf, bufsz, reason)`: the text stored in `buf`; `none` is a
NULL `reason`. -/
def format_err (bufsz : Nat) (reason : Option String) : String :=
  snprintf bufsz ("ERR " ++ reason.getD "error" ++ "\n")

/-- The text that one iteration of the loop stores in `out` for the request
buffer `expr` (the payload with its terminating NUL); `none` only if
`parse_eval` were to run out of fuel. -/
def respond {D : Type} (A : Arith D) (L : Libc D) (expr : List Byte) : Option String :=
  match parse_eval A (c_str expr) 256 with
  | none => none
  | some r =>
    let value := r.out_value.getD L.zero
    let err := r.errbuf.getD ""
    if r.status = .PARSE_OK then some (format_ok L 512 value)
    else some (format_err 512 (some (if err ≠ "" then err else "parse error")))

/-- The payload of the response frame: the first `strlen(out)` bytes of
`out`. -/
def payload_of (out : String) : List Byte := (out.data.take (strlen out)).map to_byte

/-- Why the loop of `client_thread` was left. -/
inductive Exit where
  | recv_failed
  | send_failed
  deriving DecidableEq, Repr

/-- What a connection has seen when `client_thread` leaves its loop: the
request payloads answered and the response payloads sent for them, in order,
the bytes put on the wire, the reason of the exit and the two scripts. -/
structure ThreadResult where
  served : List (List Byte × List Byte)
  sent : List Byte
  exit : Exit
  es : List RecvEvent
  ss : List SendEvent
  deriving DecidableEq, Repr

/-- The loop `for (;;)` of `client_thread`, with the requests served and the
bytes sent so far. `malloc_ok` says whether the allocations of `recv_frame`
succeed. -/
def client_loop {D : Type} (A : Arith D) (L : Libc D) (malloc_ok : Bool) :
    Nat → List RecvEvent → List SendEvent → List (List Byte × List Byte) → List Byte →
      Option ThreadResult
  | 0, _, _, _, _ => none
  | fuel + 1, es, ss, served, sent =>
    match recv_frame true malloc_ok es with
    | none => none
    | some (fr, es1) =>
      if fr.ret < 0 then some ⟨served, sent, .recv_failed, es1, ss⟩
      else
        let expr := fr.out_buf.getD []
        let expr_len := fr.out_len.getD 0
        match respond A L expr with
        | none => none
        | some out =>
          let out_len := strlen out
          match send_frame ss (out.data.map to_byte) out_len with
          | none => none
          | some (w, bytes, ss1) =>
            if w < 0 then some ⟨served, sent ++ bytes, .send_failed, es1, ss1⟩
            else
              client_loop A L malloc_ok fuel es1 ss1
                (served ++ [(expr.take expr_len, payload_of out)]) (sent ++ bytes)

/-- The loop of `client_thread(arg)` on a connection with the receive script
`es` and the send script `ss`. Every iteration that goes on has taken at least
five bytes off the stream, so one iteration for each byte of the stream and
one more always suffice. -/
def client_thread {D : Type} (A : Arith D) (L : Libc D) (malloc_ok : Bool)
    (es : List RecvEvent) (ss : List SendEvent) : Option ThreadResult :=
  client_loop A L malloc_ok ((wire es).length + 1) es ss [] []

/-- The frame of a payload on the wire. -/
def frame (payload : List Byte) : List Byte := htonl payload.length ++ payload

/-- A send script that takes whatever the next `n` calls of `send_frame`
offer: two events for each call, each accepting up to 512 bytes. -/
def willing (n : Nat) : List SendEvent := List.replicate (2 * n) (.accept 512)

/-- The conversion `%.15g` on the reference arithmetic: the decimal digits of
an integer (what `printf` prints for an integer below 10^15 in magnitude) and
`inf` for the non-finite value; a value that is not an integer is shown as a
fraction, which is not what `printf` prints. -/
def ref_g15 : Ref.Val → String
  | .fin n 1 => if n < 0 then "-" ++ Nat.repr n.natAbs else Nat.repr n.natAbs
  | .fin n d => (if n < 0 then "-" ++ Nat.repr n.natAbs else Nat.repr n.natAbs)
      ++ "/" ++ Nat.repr d
  | .nonfin => "inf"

/-- The C library for the reference arithmetic. -/
def ref_libc : Libc Ref.Val := { g15 := ref_g15, zero := .fin 0 1 }

end Server
namespace Parser

variable {D : Type}

/-! ## Two inputs that the parser reads alike

`CursorSim A R` says that the relation `R` between two cursors is kept by
every lexical step of the parser: by `skip_ws`, by a `match` that hits and by
the `strtod` of `parse_number`. The productions then run in step on related
cursors (`SimAt`). -/

/-- The characters that `match` is called with. -/
def ops : List Char := ['+', '-', '*', '/', '^', '(', ')']

/-- The relation `R` between cursors is kept by the lexical steps of the
parser. After `skip_ws` the two cursors show the same character; a `match`
that hits advances both by one; `strtod`, which `parse_number` only calls on a
character other than `+`, `-` and `(`, returns the same on both and leaves
both related. -/
structure CursorSim (A : Arith D) (R : List Char → List Char → Prop) : Prop where
  ws : ∀ p p1, R p p1 → R (skip_ws_from p) (skip_ws_from p1)
  head : ∀ p p1, R p p1 → skip_ws_from p = p → skip_ws_from p1 = p1 → cur p1 = cur p
  tail : ∀ p p1, R p p1 → skip_ws_from p = p → skip_ws_from p1 = p1 → cur p ∈ ops →
    R p.tail p1.tail
  number : ∀ p p1, R p p1 → skip_ws_from p = p → skip_ws_from p1 = p1 →
    cur p ≠ '+' → cur p ≠ '-' → cur p ≠ '(' →
    A.strtod p1 = A.strtod p
      ∧ R (p.drop (A.strtod p).consumed) (p1.drop (A.strtod p).consumed)

/-- Two parser states without an error, on related cursors. -/
def StSim (R : List Char → List Char → Prop) (ps ps1 : parser_t) : Prop :=
  R ps.p ps1.p ∧ ps.err_at = none ∧ ps1.err_at = none ∧ ps1.err_msg = ps.err_msg

/-- Two failed states that `parse_eval` reports alike: the same message, and
the same character at the position of the error. -/
def FailSim (e e1 : parser_t) : Prop :=
  e1.err_msg = e.err_msg ∧ cur (err_pos e1) = cur (err_pos e)

/-- Two results of a production that correspond: both out of fuel, both a
failure reported alike, or both a success with the same value on related
states. -/
def ResSim (R : List Char → List Char → Prop) (x x1 : Option (Res D)) : Prop :=
  (x = none ∧ x1 = none)
  ∨ (∃ e e1, x = some (.fail e) ∧ x1 = some (.fail e1) ∧ FailSim e e1)
  ∨ (∃ v q q1, x = some (.ok v q) ∧ x1 = some (.ok v q1) ∧ StSim R q q1)

/-- The statement that the productions run in step on related states, for the
seven functions at once. `parse_primary` is only compared where
`parse_unary` calls it: on a character other than `+` and `-`. -/
def SimAt (A : Arith D) (R : List Char → List Char → Prop) (f : Nat) : Prop :=
  (∀ ps ps1, StSim R ps ps1 → ResSim R (parse_expr A f ps) (parse_expr A f ps1))
  ∧ (∀ v ps ps1, StSim R ps ps1 →
      ResSim R (parse_expr_loop A f v ps) (parse_expr_loop A f v ps1))
  ∧ (∀ ps ps1, StSim R ps ps1 → ResSim R (parse_term A f ps) (parse_term A f ps1))
  ∧ (∀ v ps ps1, StSim R ps ps1 →
      ResSim R (parse_term_loop A f v ps) (parse_term_loop A f v ps1))
  ∧ (∀ ps ps1, StSim R ps ps1 → ResSim R (parse_power A f ps) (parse_power A f ps1))
  ∧ (∀ ps ps1, StSim R ps ps1 → ResSim R (parse_unary A f ps) (parse_unary A f ps1))
  ∧ (∀ ps ps1, StSim R ps ps1 → cur (skip_ws_from ps.p) ≠ '+' →
      cur (skip_ws_from ps.p) ≠ '-' →
      ResSim R (parse_primary A f ps) (parse_primary A f ps1))

/-! ## Whitespace between tokens

The program has no tokenizer of its own: a token is what one lexical step
takes, a single character for `match` and the characters `strtod` consumes for
`parse_number`. `Boundary A w post n u` follows these steps from the cursor
`u ++ post` and says that they arrive at the end of `u`, so that the point
between `u` and `post` is where a token ends, or that they stop before it at a
character that starts no token. -/

/-- The point between `u` and `post` lies between two tokens (or before the
first or after the last; `n` bounds the number of steps). At a whitespace
character the cursor moves on. At another character it may move on by one if
the character is one that `match` takes; and if the character is not `+`, `-`
or `(`, so that `parse_number` may call `strtod` here, the number `strtod`
finds ends within `u`, `strtod` finds the same number when the whitespace
character `w` follows `u`, and the cursor moves on behind the number. -/
def Boundary (A : Arith D) (w : Char) (post : List Char) : Nat → List Char → Prop
  | _, [] => True
  | 0, _ :: _ => False
  | n + 1, c :: u =>
    if isspace c = true then Boundary A w post n u
    else
      (c ∈ ops → Boundary A w post n u)
      ∧ (c ≠ '+' → c ≠ '-' → c ≠ '(' →
        A.strtod (c :: u ++ w :: post) = A.strtod (c :: u ++ post)
        ∧ (A.strtod (c :: u ++ post)).consumed ≤ (c :: u).length
        ∧ (0 < (A.strtod (c :: u ++ post)).consumed →
          Boundary A w post n ((c :: u).drop (A.strtod (c :: u ++ post)).consumed)))

instance Boundary.decidable [DecidableEq D] (A : Arith D) (w : Char) (post : List Char) :
    ∀ (n : Nat) (u : List Char), Decidable (Boundary A w post n u)
  | 0, [] => isTrue trivial
  | _ + 1, [] => isTrue trivial
  | 0, _ :: _ => isFalse not_false
  | n + 1, c :: u =>
    if h : isspace c = true then
      have := Boundary.decidable A w post n u
      decidable_of_iff (Boundary A w post n u) (by simp [Boundary, h])
    else
      have := Boundary.decidable A w post n u
      have := Boundary.decidable A w post n
        ((c :: u).drop (A.strtod (c :: u ++ post)).consumed)
      decidable_of_iff
        ((c ∈ ops → Boundary A w post n u)
          ∧ (c ≠ '+' → c ≠ '-' → c ≠ '(' →
            A.strtod (c :: u ++ w :: post) = A.strtod (c :: u ++ post)
            ∧ (A.strtod (c :: u ++ post)).consumed ≤ (c :: u).length
            ∧ (0 < (A.strtod (c :: u ++ post)).consumed →
              Boundary A w post n ((c :: u).drop (A.strtod (c :: u ++ post)).consumed))))
        (by simp [Boundary, h])

/-- The input `s1` is the input `s` with one whitespace character inserted
between two tokens, before the first token or after the last. -/
def Inserted (A : Arith D) (s s1 : List Char) : Prop :=
  ∃ pre w post, s = pre ++ post ∧ s1 = pre ++ w :: post ∧ isspace w = true
    ∧ Boundary A w post pre.length pre

/-- The relation between the cursors of the runs on `pre ++ post` and on
`pre ++ w :: post`: both behind the inserted character, or both before it at
a point from which the lexical steps arrive at it. -/
def InsR (A : Arith D) (w : Char) (post : List Char) (p p1 : List Char) : Prop :=
  p1 = p ∨ ∃ n u, Boundary A w post n u ∧ p = u ++ post ∧ p1 = u ++ w :: post

end Parser
namespace Proto

/-! ## Lemmas on the codec -/

theorem ntohl_htonl (len : Nat) (h : len < 2 ^ 32) : ntohl (htonl len) = len := by
  simp only [ntohl, htonl, List.getD_cons_zero, List.getD_cons_succ, Nat.mod_mod]
  omega

theorem htonl_length (len : Nat) : (htonl len).length = 4 := rfl

/-- A read of `n - total` more bytes from a script that delivers at least that
many stores exactly the next bytes of the wire, whatever the segmentation. -/
theorem read_exact_loop_wire (es : List RecvEvent) :
    ∀ (fuel n total : Nat) (buf : List Byte), es.length < fuel → total ≤ n →
      n - total ≤ (wire es).length →
      ∃ es1, read_exact_loop fuel es n total buf
          = some ((n : Int), buf ++ (wire es).take (n - total), es1)
        ∧ wire es1 = (wire es).drop (n - total) ∧ es1.length ≤ es.length := by
  induction es with
  | nil =>
    intro fuel n total buf hf ht hw
    obtain ⟨f, rfl⟩ : ∃ f, fuel = f + 1 := ⟨fuel - 1, by omega⟩
    have : total = n := by simp [wire] at hw; omega
    subst this
    exact ⟨[], by simp [read_exact_loop, wire]⟩
  | cons e rest ih =>
    intro fuel n total buf hf ht hw
    obtain ⟨f, rfl⟩ : ∃ f, fuel = f + 1 := ⟨fuel - 1, by omega⟩
    simp only [List.length_cons] at hf
    by_cases hlt : total < n
    · cases e with
      | eof => simp [wire] at hw; omega
      | fail => simp [wire] at hw; omega
      | eintr =>
        obtain ⟨es1, h1, h2, h3⟩ := ih f n total buf (by omega) ht (by simpa [wire] using hw)
        refine ⟨es1, ?_, by simpa [wire] using h2, by simp; omega⟩
        simp only [read_exact_loop, hlt, if_true, recv, wire]
        simpa using h1
      | data bs =>
        cases bs with
        | nil => simp [wire] at hw; omega
        | cons b bs =>
          by_cases hle : (b :: bs).length ≤ n - total
          · have hw2 : n - (total + (b :: bs).length) ≤ (wire rest).length := by
              simp only [wire, List.length_append] at hw; omega
            obtain ⟨es1, h1, h2, h3⟩ :=
              ih f n (total + (b :: bs).length) (buf ++ (b :: bs)) (by omega) (by omega) hw2
            refine ⟨es1, ?_, ?_, by simp; omega⟩
            · have hpos : ¬ ((bs.length : Int) + 1 = 0) := by omega
              have hneg : ¬ ((bs.length : Int) + 1 < 0) := by omega
              have htn : ((bs.length : Int) + 1).toNat = bs.length + 1 := by omega
              have hlist : buf ++ (b :: bs) ++ (wire rest).take (n - (total + (b :: bs).length))
                  = buf ++ ((b :: bs) ++ wire rest).take (n - total) := by
                rw [List.take_append_eq_append_take, List.take_of_length_le hle, Nat.sub_sub,
                  List.append_assoc]
              rw [hlist] at h1
              simp only [List.length_cons] at hle h1
              simp only [read_exact_loop, hlt, if_true, recv, List.length_cons, hle,
                Nat.cast_add, Nat.cast_one, hpos, hneg, if_false, htn, h1, wire]
            · rw [h2]
              simp only [wire]
              rw [List.drop_append_eq_append_drop, List.drop_of_length_le hle]
              simp [Nat.sub_sub]
          · have hgt : n - total < (b :: bs).length := by omega
            refine ⟨.data ((b :: bs).drop (n - total)) :: rest, ?_, ?_, by simp⟩
            · have hpos : ¬ (((n - total : Nat) : Int) = 0) := by omega
              have hneg : ¬ (((n - total : Nat) : Int) < 0) := by omega
              have htn : total + ((n - total : Nat) : Int).toNat = n := by omega
              have hnn : ¬ (n < n) := by omega
              obtain ⟨g, rfl⟩ : ∃ g, f = g + 1 := ⟨f - 1, by omega⟩
              simp only [read_exact_loop, hlt, if_true, recv, hle, if_false, hpos, hneg, htn,
                hnn, wire]
              rw [List.take_append_of_le_length (by omega)]
            · obtain ⟨c, cs, hc⟩ : ∃ c cs, (b :: bs).drop (n - total) = c :: cs := by
                cases hd : (b :: bs).drop (n - total) with
                | nil => simp [List.drop_eq_nil_iff] at hd; simp at hgt; omega
                | cons c cs => exact ⟨c, cs, rfl⟩
              rw [hc]
              simp only [wire]
              rw [← hc, List.drop_append_of_le_length (by omega)]
    · have : total = n := by omega
      subst this
      exact ⟨e :: rest, by simp [read_exact_loop], by simp, le_refl _⟩

/-- The same for a whole call of `read_exact`. -/
theorem read_exact_wire (es : List RecvEvent) (n : Nat) (h : n ≤ (wire es).length) :
    ∃ es1, read_exact es n = some ((n : Int), (wire es).take n, es1)
      ∧ wire es1 = (wire es).drop n ∧ es1.length ≤ es.length := by
  simpa [read_exact] using read_exact_loop_wire es (es.length + 2) n 0 [] (by omega) (by omega) h

/-- A read that asks for more bytes than the script delivers ends with 0 when
the stream is closed first and with -1 when a failure comes first. -/
theorem read_exact_loop_short (es : List RecvEvent) :
    ∀ (fuel n total : Nat) (buf : List Byte), es.length < fuel →
      (wire es).length < n - total →
      ∃ b es1, read_exact_loop fuel es n total buf
          = some ((if closes es then 0 else -1 : Int), b, es1) := by
  induction es with
  | nil =>
    intro fuel n total buf hf hw
    obtain ⟨f, rfl⟩ : ∃ f, fuel = f + 1 := ⟨fuel - 1, by omega⟩
    have hlt : total < n := by omega
    exact ⟨buf, [], by simp [read_exact_loop, hlt, recv, closes]⟩
  | cons e rest ih =>
    intro fuel n total buf hf hw
    obtain ⟨f, rfl⟩ : ∃ f, fuel = f + 1 := ⟨fuel - 1, by omega⟩
    simp only [List.length_cons] at hf
    have hlt : total < n := by omega
    cases e with
    | eof => exact ⟨buf, .eof :: rest, by simp [read_exact_loop, hlt, recv, closes]⟩
    | fail => exact ⟨buf, rest, by simp [read_exact_loop, hlt, recv, closes]⟩
    | eintr =>
      obtain ⟨b, es1, h1⟩ := ih f n total buf (by omega) (by simpa [wire] using hw)
      exact ⟨b, es1, by simpa [read_exact_loop, hlt, recv, closes] using h1⟩
    | data bs =>
      cases bs with
      | nil => exact ⟨buf, rest, by simp [read_exact_loop, hlt, recv, closes]⟩
      | cons b bs =>
        simp only [wire, List.length_append, List.length_cons] at hw
        have hle : bs.length + 1 ≤ n - total := by omega
        obtain ⟨b1, es1, h1⟩ :=
          ih f n (total + (bs.length + 1)) (buf ++ (b :: bs)) (by omega) (by omega)
        refine ⟨b1, es1, ?_⟩
        have hpos : ¬ ((bs.length : Int) + 1 = 0) := by omega
        have hneg : ¬ ((bs.length : Int) + 1 < 0) := by omega
        have htn : ((bs.length : Int) + 1).toNat = bs.length + 1 := by omega
        simp only [read_exact_loop, hlt, if_true, recv, List.length_cons, hle,
          Nat.cast_add, Nat.cast_one, hpos, hneg, if_false, htn, h1, closes]

/-- The same for a whole call of `read_exact`. -/
theorem read_exact_short (es : List RecvEvent) (n : Nat) (h : (wire es).length < n) :
    ∃ b es1, read_exact es n = some ((if closes es then 0 else -1 : Int), b, es1) := by
  simpa [read_exact] using read_exact_loop_short es (es.length + 2) n 0 [] (by omega) (by omega)

/-- A write that does not fail has put exactly the requested bytes on the
wire, in order. -/
theorem write_exact_loop_out :
    ∀ (fuel : Nat) (ss : List SendEvent) (src : List Byte) (n total : Nat) (out : List Byte)
      (w : Int) (o : List Byte) (ss1 : List SendEvent), total ≤ n → n ≤ src.length →
      write_exact_loop fuel ss src n total out = some (w, o, ss1) → 0 ≤ w →
      w = (n : Int) ∧ o = out ++ (src.drop total).take (n - total) := by
  intro fuel
  induction fuel with
  | zero => intro ss src n total out w o ss1 _ _ h; simp [write_exact_loop] at h
  | succ f ih =>
    intro ss src n total out w o ss1 ht hn h hw
    by_cases hlt : total < n
    · cases ss with
      | nil =>
        simp [write_exact_loop, hlt, send] at h
        omega
      | cons e rest =>
        cases e with
        | eintr =>
          simp only [write_exact_loop, hlt, if_true, send] at h
          exact ih rest src n total out w o ss1 ht hn (by simpa using h) hw
        | fail =>
          simp [write_exact_loop, hlt, send] at h
          omega
        | accept k =>
          simp only [write_exact_loop, hlt, if_true, send] at h
          have hlen : (List.take k (List.take (n - total) (List.drop total src))).length
              = min k (n - total) := by
            simp only [List.length_take, List.length_drop]; omega
          rw [hlen] at h
          by_cases hk : min k (n - total) = 0
          · simp [hk] at h
            omega
          · have h1 : ¬ (((min k (n - total) : Nat) : Int) ≤ 0) := by omega
            have h2 : ((min k (n - total) : Nat) : Int).toNat = min k (n - total) := by omega
            simp only [h1, if_false, h2] at h
            obtain ⟨e1, e2⟩ := ih rest src n (total + min k (n - total)) _ w o ss1
              (by omega) hn h hw
            refine ⟨e1, ?_⟩
            rw [e2, List.append_assoc, List.take_take]
            congr 1
            have hsplit : n - total = min k (n - total) + (n - (total + min k (n - total))) := by
              omega
            conv_rhs => rw [hsplit, List.take_add]
            rw [List.drop_drop]
    · simp only [write_exact_loop, hlt, if_false, Option.some.injEq, Prod.mk.injEq] at h
      obtain ⟨h1, h2, _⟩ := h
      have : total = n := by omega
      subst this
      simp [← h1, ← h2]

/-- A `send_frame` that returns without failure has put the header and then
the first `len` payload bytes on the wire. -/
theorem send_frame_out (ss : List SendEvent) (data : List Byte) (len : Nat) (ret : Int)
    (out : List Byte) (ss1 : List SendEvent) (hlen : len ≤ data.length)
    (h : send_frame ss data len = some (ret, out, ss1)) (hret : 0 ≤ ret) :
    ret = 0 ∧ out = htonl len ++ data.take len := by
  unfold send_frame at h
  cases h1 : write_exact ss (htonl len) 4 with
  | none => simp [h1] at h
  | some r1 =>
    obtain ⟨w1, out1, ss2⟩ := r1
    simp only [h1] at h
    by_cases hw1 : w1 < 0
    · simp [hw1] at h; omega
    · obtain ⟨_, ho1⟩ := write_exact_loop_out _ ss (htonl len) 4 0 [] w1 out1 ss2 (by omega)
        (by simp [htonl]) h1 (by omega)
      have ho1 : out1 = htonl len := by simpa [htonl] using ho1
      simp only [hw1, if_false] at h
      by_cases hpos : 0 < len
      · simp only [hpos, if_true] at h
        cases h2 : write_exact ss2 data len with
        | none => simp [h2] at h
        | some r2 =>
          obtain ⟨w2, out2, ss3⟩ := r2
          simp only [h2] at h
          by_cases hw2 : w2 < 0
          · simp [hw2] at h; omega
          · obtain ⟨_, ho2⟩ := write_exact_loop_out _ ss2 data len 0 [] w2 out2 ss3 (by omega)
              hlen h2 (by omega)
            simp only [hw2, if_false, Option.some.injEq, Prod.mk.injEq] at h
            obtain ⟨e1, e2, _⟩ := h
            refine ⟨e1.symm, ?_⟩
            rw [← e2, ho1, ho2]
            simp
      · have : len = 0 := by omega
        subst this
        simp only [lt_self_iff_false, if_false, Option.some.injEq, Prod.mk.injEq] at h
        obtain ⟨e1, e2, _⟩ := h
        exact ⟨e1.symm, by rw [← e2, ho1]; simp⟩

/-- A complete, well-formed frame on the wire is received whole, whatever its
segmentation. -/
theorem recv_frame_ok (es : List RecvEvent) (len : Nat) (h4 : 4 ≤ (wire es).length)
    (hl : ntohl ((wire es).take 4) = len) (h1 : 1 ≤ len) (h2 : len ≤ PROTO_MAX_FRAME)
    (hw : 4 + len ≤ (wire es).length) :
    ∃ es2, recv_frame true true es
        = some (⟨0, some (((wire es).drop 4).take len ++ [0]), some len⟩, es2)
      ∧ wire es2 = (wire es).drop (4 + len) := by
  obtain ⟨es1, r1, w1, _⟩ := read_exact_wire es 4 h4
  obtain ⟨es2, r2, w2, _⟩ := read_exact_wire es1 len (by rw [w1, List.length_drop]; omega)
  refine ⟨es2, ?_, by rw [w2, w1, List.drop_drop]⟩
  have hne : ¬ (len = 0 ∨ len > PROTO_MAX_FRAME) := by omega
  have hpos : ¬ ((len : Int) ≤ 0) := by omega
  simp only [recv_frame, r1, r2, hl, hne, w1]
  simp [hpos]

/-- A header announcing a length of 0 or of more than `PROTO_MAX_FRAME` makes
`recv_frame` fail right after the header. -/
theorem recv_frame_bad_header (malloc_ok : Bool) (es : List RecvEvent)
    (h4 : 4 ≤ (wire es).length)
    (hbad : ntohl ((wire es).take 4) = 0 ∨ ntohl ((wire es).take 4) > PROTO_MAX_FRAME) :
    ∃ es1, recv_frame true malloc_ok es = some (⟨-1, none, none⟩, es1)
      ∧ wire es1 = (wire es).drop 4 := by
  obtain ⟨es1, r1, w1, _⟩ := read_exact_wire es 4 h4
  refine ⟨es1, ?_, w1⟩
  simp only [recv_frame, r1]
  simp [hbad]

/-- A stream that stops before the frame is complete makes `recv_frame` fail
with -1 and no output, wherever it stops. -/
theorem recv_frame_short (ptrs_ok malloc_ok : Bool) (es : List RecvEvent)
    (h : (wire es).length < 4 ∨ (wire es).length < 4 + ntohl ((wire es).take 4)) :
    ∃ es1, recv_frame ptrs_ok malloc_ok es = some (⟨-1, none, none⟩, es1) := by
  cases ptrs_ok with
  | false => exact ⟨es, by simp [recv_frame]⟩
  | true =>
    by_cases h4 : (wire es).length < 4
    · obtain ⟨b, es1, r1⟩ := read_exact_short es 4 h4
      refine ⟨es1, ?_⟩
      simp only [recv_frame, r1]
      cases closes es <;> simp
    · obtain ⟨es1, r1, w1, _⟩ := read_exact_wire es 4 (by omega)
      have hlen : (wire es).length < 4 + ntohl ((wire es).take 4) := by omega
      by_cases hbad : ntohl ((wire es).take 4) = 0 ∨ ntohl ((wire es).take 4) > PROTO_MAX_FRAME
      · exact ⟨es1, by simp only [recv_frame, r1]; simp [hbad]⟩
      · cases malloc_ok with
        | false => exact ⟨es1, by simp only [recv_frame, r1]; simp [hbad]⟩
        | true =>
          obtain ⟨b, es2, r2⟩ := read_exact_short es1 (ntohl ((wire es).take 4))
            (by rw [w1, List.length_drop]; omega)
          refine ⟨es2, ?_⟩
          simp only [recv_frame, r1, r2]
          cases closes es1 <;> simp [hbad]

/-- When the kernel takes the header in one call and the payload in another,
`send_frame` succeeds. -/
theorem send_frame_accept (data : List Byte) (len : Nat) (hlen : len ≤ data.length) :
    ∃ ss1, send_frame [.accept 4, .accept len] data len
      = some (0, htonl len ++ data.take len, ss1) := by
  by_cases hpos : 0 < len
  · refine ⟨[], ?_⟩
    have hl : (List.take len data).length = len := by simp [hlen]
    have h1 : ¬ ((len : Int) ≤ 0) := by omega
    have h2 : ¬ (len < len) := by omega
    have h3 : ¬ ((len : Int) < 0) := by omega
    simp [send_frame, write_exact, write_exact_loop, send, htonl, hpos, hl, h1, h2, h3,
      List.take_take]
  · have : len = 0 := by omega
    subst this
    exact ⟨[.accept 0], by simp [send_frame, write_exact, write_exact_loop, send, htonl]⟩

/-! ## The functions always return -/

theorem read_exact_loop_returns (es : List RecvEvent) (fuel n total : Nat) (buf : List Byte)
    (hf : es.length < fuel) : ∃ r, read_exact_loop fuel es n total buf = some r := by
  by_cases h : n - total ≤ (wire es).length
  · by_cases ht : total ≤ n
    · obtain ⟨es1, h1, _⟩ := read_exact_loop_wire es fuel n total buf hf ht h
      exact ⟨_, h1⟩
    · obtain ⟨f, rfl⟩ : ∃ f, fuel = f + 1 := ⟨fuel - 1, by omega⟩
      have hlt : ¬ total < n := by omega
      simp [read_exact_loop, hlt]
  · obtain ⟨b, es1, h1⟩ := read_exact_loop_short es fuel n total buf hf (by omega)
    exact ⟨_, h1⟩

/-- The fuel of `read_exact` never runs out. -/
theorem read_exact_returns (es : List RecvEvent) (n : Nat) : ∃ r, read_exact es n = some r :=
  read_exact_loop_returns es (es.length + 2) n 0 [] (by omega)

/-- The fuel of `recv_frame` never runs out. -/
theorem recv_frame_returns (ptrs_ok malloc_ok : Bool) (es : List RecvEvent) :
    ∃ r, recv_frame ptrs_ok malloc_ok es = some r := by
  unfold recv_frame
  split
  · exact ⟨_, rfl⟩
  · obtain ⟨⟨r1, hdr, es1⟩, h1⟩ := read_exact_returns es 4
    rw [h1]
    simp only
    split
    · exact ⟨_, rfl⟩
    · split
      · exact ⟨_, rfl⟩
      · split
        · exact ⟨_, rfl⟩
        · obtain ⟨⟨r2, buf, es2⟩, h2⟩ := read_exact_returns es1 (ntohl hdr)
          rw [h2]
          simp only
          split <;> exact ⟨_, rfl⟩

theorem write_exact_loop_returns (ss : List SendEvent) :
    ∀ (fuel : Nat) (src : List Byte) (n total : Nat) (out : List Byte), ss.length < fuel →
      ∃ r, write_exact_loop fuel ss src n total out = some r := by
  induction ss with
  | nil =>
    intro fuel src n total out hf
    obtain ⟨f, rfl⟩ : ∃ f, fuel = f + 1 := ⟨fuel - 1, by omega⟩
    by_cases hlt : total < n
    · simp [write_exact_loop, hlt, send]
    · simp [write_exact_loop, hlt]
  | cons e rest ih =>
    intro fuel src n total out hf
    obtain ⟨f, rfl⟩ : ∃ f, fuel = f + 1 := ⟨fuel - 1, by omega⟩
    simp only [List.length_cons] at hf
    by_cases hlt : total < n
    · cases e with
      | eintr =>
        obtain ⟨r, hr⟩ := ih f src n total out (by omega)
        exact ⟨r, by simpa [write_exact_loop, hlt, send] using hr⟩
      | fail => simp [write_exact_loop, hlt, send]
      | accept k =>
        simp only [write_exact_loop, hlt, if_true, send]
        split
        · rw [if_neg (by simp)]
          exact ⟨_, rfl⟩
        · exact ih f src n _ _ (by omega)
    · simp [write_exact_loop, hlt]

/-- The fuel of `write_exact` never runs out. -/
theorem write_exact_returns (ss : List SendEvent) (src : List Byte) (n : Nat) :
    ∃ r, write_exact ss src n = some r :=
  write_exact_loop_returns ss (ss.length + 2) src n 0 [] (by omega)

/-- The fuel of `send_frame` never runs out. -/
theorem send_frame_returns (ss : List SendEvent) (data : List Byte) (len : Nat) :
    ∃ r, send_frame ss data len = some r := by
  unfold send_frame
  obtain ⟨⟨w1, out1, ss1⟩, h1⟩ := write_exact_returns ss (htonl len) 4
  rw [h1]
  simp only
  split
  · exact ⟨_, rfl⟩
  · split
    · obtain ⟨⟨w2, out2, ss2⟩, h2⟩ := write_exact_returns ss1 data len
      rw [h2]
      simp only
      split <;> exact ⟨_, rfl⟩
    · exact ⟨_, rfl⟩

/-! ## The claims on the framing codec -/

/-- C1. Framing round trip: for every payload of length n with
1 <= n <= 1,048,576, if `send_frame(payload, n)` succeeds and a receive
script delivers the bytes it has put on the wire (in any segmentation, with
any interrupted calls in between, followed by any further bytes `more`), then
`recv_frame` (called with valid output pointers, the allocation succeeding)
returns 0, sets `out_len` to n and `out_buf` to a buffer that holds the
payload byte for byte, followed by the terminating NUL; the bytes `more` stay
unread. -/
theorem C1_frame_round_trip (payload : List Byte) (ss ss1 : List SendEvent) (out : List Byte)
    (es : List RecvEvent) (more : List Byte)
    (h1 : 1 ≤ payload.length) (h2 : payload.length ≤ 1048576)
    (hsend : send_frame ss payload payload.length = some (0, out, ss1))
    (hes : wire es = out ++ more) :
    ∃ es1, recv_frame true true es
        = some (⟨0, some (payload ++ [0]), some payload.length⟩, es1)
      ∧ wire es1 = more := by
  obtain ⟨_, hout⟩ := send_frame_out ss payload payload.length 0 out ss1 (le_refl _) hsend
    (le_refl _)
  rw [List.take_length] at hout
  have hw : wire es = htonl payload.length ++ (payload ++ more) := by
    rw [hes, hout, List.append_assoc]
  have htake : (wire es).take 4 = htonl payload.length := by
    rw [hw, List.take_append_of_le_length (by simp [htonl])]; rfl
  have hdrop : (wire es).drop 4 = payload ++ more := by
    rw [hw, List.drop_append_of_le_length (by simp [htonl])]; rfl
  have hlen : (wire es).length = 4 + (payload.length + more.length) := by
    rw [hw]; simp [htonl]; omega
  obtain ⟨es2, r, w⟩ := recv_frame_ok es payload.length (by omega)
    (by rw [htake]; exact ntohl_htonl _ (by omega)) h1 (by simpa [PROTO_MAX_FRAME] using h2)
    (by omega)
  refine ⟨es2, ?_, ?_⟩
  · rw [r, hdrop]; simp
  · rw [w, ← List.drop_drop, hdrop]; simp

/-- The round trip of the payload 7, 8, 9 over a segmented stream. -/
theorem C1_frame_round_trip_witness :
    ∃ es1, recv_frame true true [.data [0, 0], .eintr, .data [0, 3, 7], .data [8, 9, 1]]
        = some (⟨0, some ([7, 8, 9] ++ [0]), some [7, 8, 9].length⟩, es1)
      ∧ wire es1 = [1] :=
  C1_frame_round_trip [7, 8, 9] [.accept 1, .eintr, .accept 10, .accept 2, .accept 5] []
    [0, 0, 0, 3, 7, 8, 9] [.data [0, 0], .eintr, .data [0, 3, 7], .data [8, 9, 1]] [1]
    (by decide) (by decide) (by decide) (by decide)

/-- C2. `recv_frame` rejects bad headers: for every stream that delivers at
least 4 bytes, if the first 4 decode (big-endian) to a length that is 0 or
greater than 1,048,576, then `recv_frame` returns -1, assigns neither
`out_buf` nor `out_len`, and leaves every byte after the header unread; if
they decode to exactly 1,048,576, the frame is not rejected: once the payload
is delivered `recv_frame` returns 0 with `out_len` = 1,048,576. -/
theorem C2_recv_frame_rejects_bad_header (malloc_ok : Bool) (es : List RecvEvent)
    (h4 : 4 ≤ (wire es).length) :
    ((ntohl ((wire es).take 4) = 0 ∨ ntohl ((wire es).take 4) > 1048576) →
      ∃ es1, recv_frame true malloc_ok es = some (⟨-1, none, none⟩, es1)
        ∧ wire es1 = (wire es).drop 4)
    ∧ (ntohl ((wire es).take 4) = 1048576 → 4 + 1048576 ≤ (wire es).length →
      ∃ es2, recv_frame true true es
        = some (⟨0, some (((wire es).drop 4).take 1048576 ++ [0]), some 1048576⟩, es2)) := by
  constructor
  · intro hbad
    exact recv_frame_bad_header malloc_ok es h4 (by simpa [PROTO_MAX_FRAME] using hbad)
  · intro hmax hw
    obtain ⟨es2, r, _⟩ := recv_frame_ok es 1048576 h4 hmax (by omega)
      (by simp [PROTO_MAX_FRAME]) hw
    exact ⟨es2, r⟩

/-- The headers 00 10 00 01 (1,048,577) and 00 00 00 00 are rejected, and the
bytes after them stay unread. -/
theorem C2_recv_frame_rejects_bad_header_witness :
    (∃ es1, recv_frame true true [.data [0, 16, 0], .data [1, 7, 7]]
        = some (⟨-1, none, none⟩, es1) ∧ wire es1 = [7, 7])
    ∧ (∃ es1, recv_frame true true [.data [0, 0, 0, 0, 7]]
        = some (⟨-1, none, none⟩, es1) ∧ wire es1 = [7]) :=
  ⟨(C2_recv_frame_rejects_bad_header true [.data [0, 16, 0], .data [1, 7, 7]] (by decide)).1
      (Or.inr (by decide)),
   (C2_recv_frame_rejects_bad_header true [.data [0, 0, 0, 0, 7]] (by decide)).1
      (Or.inl (by decide))⟩

/-- C3. Wire format of `send_frame`: for every payload buffer and every 32-bit
`len` within it, a `send_frame` whose writes all succeed returns 0 and has put
exactly 4 + len bytes on the wire, the first four being `len` in big-endian
order (most significant byte first) and the rest the first `len` payload bytes
in order; for `len` = 0 these are the four zero header bytes alone. When the
kernel takes the bytes offered, the writes do succeed. -/
theorem C3_send_frame_wire_format (data : List Byte) (len : Nat) (h32 : len < 2 ^ 32)
    (hlen : len ≤ data.length) :
    (∀ ss ret out ss1, send_frame ss data len = some (ret, out, ss1) → 0 ≤ ret →
      ret = 0 ∧ out.length = 4 + len
        ∧ out.take 4 = [len / 2 ^ 24 % 256, len / 2 ^ 16 % 256, len / 2 ^ 8 % 256, len % 256]
        ∧ ntohl (out.take 4) = len
        ∧ out.drop 4 = data.take len
        ∧ (len = 0 → out = [0, 0, 0, 0]))
    ∧ ∃ ss1, send_frame [.accept 4, .accept len] data len
        = some (0, htonl len ++ data.take len, ss1) := by
  refine ⟨?_, send_frame_accept data len hlen⟩
  intro ss ret out ss1 h hret
  obtain ⟨e1, e2⟩ := send_frame_out ss data len ret out ss1 hlen h hret
  have htake : out.take 4 = htonl len := by
    rw [e2, List.take_append_of_le_length (by simp [htonl])]; rfl
  refine ⟨e1, ?_, htake, ?_, ?_, ?_⟩
  · rw [e2]; simp [htonl, hlen]; omega
  · rw [htake]; exact ntohl_htonl len h32
  · rw [e2, List.drop_append_of_le_length (by simp [htonl])]; rfl
  · intro h0; subst h0; rw [e2]; simp [htonl]

/-- The frame of the payload 7, 8, 9 under partial and interrupted sends. -/
theorem C3_send_frame_wire_format_witness :
    send_frame [.accept 1, .eintr, .accept 10, .accept 2, .accept 5] [7, 8, 9] 3
        = some (0, [0, 0, 0, 3, 7, 8, 9], [])
      ∧ [0, 0, 0, 3, 7, 8, 9].drop 4 = [7, 8, 9].take 3 :=
  ⟨by decide,
   ((C3_send_frame_wire_format [7, 8, 9] 3 (by decide) (by decide)).1
      [.accept 1, .eintr, .accept 10, .accept 2, .accept 5] 0 [0, 0, 0, 3, 7, 8, 9] []
      (by decide) (by decide)).2.2.2.2.1⟩

/-- C4 (as stated, refuted). The result of `recv_frame` on a stream that
ends before any header byte is not different from its result on a stream that
ends inside the header, nor from its result on a stream that ends inside the
payload: all three are -1 with no output. -/
theorem C4_disconnect_distinct_counterexample :
    ¬ ((recv_frame true true [.eof]).map Prod.fst
        ≠ (recv_frame true true [.data [0, 0], .eof]).map Prod.fst)
    ∧ ¬ ((recv_frame true true [.eof]).map Prod.fst
        ≠ (recv_frame true true [.data [0, 0, 0, 3, 7], .eof]).map Prod.fst) := by
  decide

/-- C4 (amended). `recv_frame` reports a clean disconnect and a mid-frame
truncation alike: whenever the stream stops before a complete frame has
arrived (before any header byte, inside the header, or after the header and
before the last payload byte), `recv_frame` returns -1 and assigns neither
output, which is exactly its result on a stream that is closed from the
start. -/
theorem C4_disconnect_same_as_truncation (ptrs_ok malloc_ok : Bool) (es : List RecvEvent)
    (h : (wire es).length < 4 ∨ (wire es).length < 4 + ntohl ((wire es).take 4)) :
    (recv_frame ptrs_ok malloc_ok es).map Prod.fst = some ⟨-1, none, none⟩
      ∧ (recv_frame ptrs_ok malloc_ok es).map Prod.fst
        = (recv_frame ptrs_ok malloc_ok [.eof]).map Prod.fst := by
  obtain ⟨es1, r⟩ := recv_frame_short ptrs_ok malloc_ok es h
  obtain ⟨es2, r0⟩ := recv_frame_short ptrs_ok malloc_ok [.eof] (Or.inl (by decide))
  rw [r, r0]
  simp

/-- A stream that is closed one byte before the end of the payload. -/
theorem C4_disconnect_same_as_truncation_witness :
    (recv_frame true true [.data [0, 0, 0], .eintr, .data [3, 7, 8], .eof]).map Prod.fst
        = some ⟨-1, none, none⟩
      ∧ (recv_frame true true [.data [0, 0, 0], .eintr, .data [3, 7, 8], .eof]).map Prod.fst
        = (recv_frame true true [.eof]).map Prod.fst :=
  C4_disconnect_same_as_truncation true true [.data [0, 0, 0], .eintr, .data [3, 7, 8], .eof]
    (Or.inr (by decide))

end Proto
namespace Parser

variable {D : Type}

/-! ## The cursor primitives -/

theorem skip_ws_from_length (p : List Char) : (skip_ws_from p).length ≤ p.length := by
  induction p with
  | nil => simp [skip_ws_from]
  | cons c cs ih =>
    simp only [skip_ws_from]
    split
    · simp only [List.length_cons]; omega
    · exact le_refl _

theorem skip_ws_from_idem (p : List Char) : skip_ws_from (skip_ws_from p) = skip_ws_from p := by
  induction p with
  | nil => simp [skip_ws_from]
  | cons c cs ih =>
    by_cases h : c ≠ NUL ∧ isspace c = true
    · rw [skip_ws_from, if_pos h, ih]
    · rw [skip_ws_from, if_neg h, skip_ws_from, if_neg h]

/-- After `skip_ws` the cursor is not on a whitespace character. -/
theorem skip_ws_from_cur (p : List Char) : isspace (cur (skip_ws_from p)) = false := by
  induction p with
  | nil => simp [skip_ws_from, cur, NUL, isspace]
  | cons c cs ih =>
    by_cases h : c ≠ NUL ∧ isspace c = true
    · rw [skip_ws_from, if_pos h, ih]
    · rw [skip_ws_from, if_neg h]
      simp only [cur, List.headD_cons]
      by_cases hc : c = NUL
      · subst hc; simp [NUL, isspace]
      · simpa [hc] using h

/-- A cursor that is not on whitespace is left where it is. -/
theorem skip_ws_from_eq_self (p : List Char) (h : isspace (cur p) = false) :
    skip_ws_from p = p := by
  cases p with
  | nil => rfl
  | cons c cs =>
    simp only [cur, List.headD_cons] at h
    simp [skip_ws_from, h]

@[simp] theorem set_err_p (ps : parser_t) (msg : String) : (set_err ps msg).p = ps.p := rfl

@[simp] theorem skip_ws_p (ps : parser_t) : (skip_ws ps).p = skip_ws_from ps.p := rfl

theorem match_length (ps : parser_t) (c : Char) :
    (match_ ps c).2.p.length ≤ ps.p.length := by
  simp only [match_]
  split
  · simp only [skip_ws_p, List.length_tail]
    have := skip_ws_from_length ps.p
    omega
  · exact skip_ws_from_length ps.p

/-- A successful `match` of a character other than NUL consumes it. -/
theorem match_length_lt (ps : parser_t) (c : Char) (hc : c ≠ NUL) (h : (match_ ps c).1 = true) :
    (match_ ps c).2.p.length + 1 ≤ ps.p.length := by
  simp only [match_] at h ⊢
  split at h
  · rename_i hcur
    rw [if_pos hcur]
    simp only [skip_ws_p] at hcur ⊢
    have hlen := skip_ws_from_length ps.p
    cases hp : skip_ws_from ps.p with
    | nil => rw [hp] at hcur; exact absurd hcur.symm (by simpa [cur] using hc)
    | cons d ds => rw [hp] at hlen; simp only [List.tail_cons, List.length_cons] at hlen ⊢; omega
  · simp at h

theorem parse_number_length (A : Arith D) (ps : parser_t) :
    (parse_number A ps).state.p.length ≤ ps.p.length := by
  have := skip_ws_from_length ps.p
  simp only [parse_number]
  split
  · simpa [Res.state] using this
  · split
    · simpa [Res.state] using this
    · simp only [Res.state, skip_ws_p, List.length_drop]; omega

/-! ## Fuel: more of it never changes a result -/

theorem monoAt (A : Arith D) : ∀ f, MonoAt A f := by
  intro f
  induction f with
  | zero =>
    refine ⟨?_, ?_, ?_, ?_, ?_, ?_, ?_⟩ <;> intros <;> simp_all [parse_expr, parse_expr_loop,
      parse_term, parse_term_loop, parse_power, parse_unary, parse_primary]
  | succ f ih =>
    obtain ⟨hE, hEL, hT, hTL, hP, hU, hPr⟩ := ih
    refine ⟨?_, ?_, ?_, ?_, ?_, ?_, ?_⟩
    · intro ps r h
      rw [parse_expr] at h ⊢
      cases h1 : parse_term A f ps with
      | none => simp [h1] at h
      | some r1 =>
        rw [hT ps r1 h1]
        cases r1 with
        | fail e => simpa [h1] using h
        | ok v ps1 => simp only [h1] at h ⊢; exact hEL v ps1 r h
    · intro v ps r h
      rw [parse_expr_loop] at h ⊢
      by_cases m1 : (match_ ps '+').1 = true
      · simp only [m1, if_true] at h ⊢
        cases h1 : parse_term A f (match_ ps '+').2 with
        | none => simp [h1] at h
        | some r1 =>
          rw [hT _ r1 h1]
          cases r1 with
          | fail e => simpa [h1] using h
          | ok rhs ps2 => simp only [h1] at h ⊢; exact hEL _ ps2 r h
      · simp only [m1, if_false, Bool.false_eq_true] at h ⊢
        by_cases m2 : (match_ (match_ ps '+').2 '-').1 = true
        · simp only [m2, if_true] at h ⊢
          cases h1 : parse_term A f (match_ (match_ ps '+').2 '-').2 with
          | none => simp [h1] at h
          | some r1 =>
            rw [hT _ r1 h1]
            cases r1 with
            | fail e => simpa [h1] using h
            | ok rhs ps2 => simp only [h1] at h ⊢; exact hEL _ ps2 r h
        · simpa [m2] using h
    · intro ps r h
      rw [parse_term] at h ⊢
      cases h1 : parse_power A f ps with
      | none => simp [h1] at h
      | some r1 =>
        rw [hP ps r1 h1]
        cases r1 with
        | fail e => simpa [h1] using h
        | ok v ps1 => simp only [h1] at h ⊢; exact hTL v ps1 r h
    · intro v ps r h
      rw [parse_term_loop] at h ⊢
      by_cases m1 : (match_ ps '*').1 = true
      · simp only [m1, if_true] at h ⊢
        cases h1 : parse_power A f (match_ ps '*').2 with
        | none => simp [h1] at h
        | some r1 =>
          rw [hP _ r1 h1]
          cases r1 with
          | fail e => simpa [h1] using h
          | ok rhs ps2 => simp only [h1] at h ⊢; exact hTL _ ps2 r h
      · simp only [m1, if_false, Bool.false_eq_true] at h ⊢
        by_cases m2 : (match_ (match_ ps '*').2 '/').1 = true
        · simp only [m2, if_true] at h ⊢
          cases h1 : parse_power A f (match_ (match_ ps '*').2 '/').2 with
          | none => simp [h1] at h
          | some r1 =>
            rw [hP _ r1 h1]
            cases r1 with
            | fail e => simpa [h1] using h
            | ok rhs ps2 =>
              simp only [h1] at h ⊢
              by_cases hz : A.is_zero rhs = true
              · simpa [hz] using h
              · simp only [hz, if_false, Bool.false_eq_true] at h ⊢; exact hTL _ ps2 r h
        · simpa [m2] using h
    · intro ps r h
      rw [parse_power] at h ⊢
      cases h1 : parse_unary A f ps with
      | none => simp [h1] at h
      | some r1 =>
        rw [hU ps r1 h1]
        cases r1 with
        | fail e => simpa [h1] using h
        | ok base ps1 =>
          simp only [h1] at h ⊢
          by_cases m : (match_ ps1 '^').1 = true
          · simp only [m, if_true] at h ⊢
            cases h2 : parse_power A f (match_ ps1 '^').2 with
            | none => simp [h2] at h
            | some r2 =>
              rw [hP _ r2 h2]
              cases r2 with
              | fail e => simpa [h2] using h
              | ok exp ps2 => simpa [h2] using h
          · simpa [m] using h
    · intro ps r h
      rw [parse_unary] at h ⊢
      by_cases m1 : (match_ ps '+').1 = true
      · simp only [m1, if_true] at h ⊢
        exact hU _ r h
      · simp only [m1, if_false, Bool.false_eq_true] at h ⊢
        by_cases m2 : (match_ (match_ ps '+').2 '-').1 = true
        · simp only [m2, if_true] at h ⊢
          cases h1 : parse_unary A f (match_ (match_ ps '+').2 '-').2 with
          | none => simp [h1] at h
          | some r1 =>
            rw [hU _ r1 h1]
            cases r1 with
            | fail e => simpa [h1] using h
            | ok v ps2 => simpa [h1] using h
        · simp only [m2, if_false, Bool.false_eq_true] at h ⊢
          exact hPr _ r h
    · intro ps r h
      rw [parse_primary] at h ⊢
      by_cases m : (match_ ps '(').1 = true
      · simp only [m, if_true] at h ⊢
        cases h1 : parse_expr A f (match_ ps '(').2 with
        | none => simp [h1] at h
        | some r1 =>
          rw [hE _ r1 h1]
          cases r1 with
          | fail e => simpa [h1] using h
          | ok v ps1 => simpa [h1] using h
      · simpa [m] using h

theorem parse_expr_mono (A : Arith D) {f g : Nat} {ps : parser_t} {r : Res D}
    (h : parse_expr A f ps = some r) (hfg : f ≤ g) : parse_expr A g ps = some r := by
  induction g, hfg using Nat.le_induction with
  | base => exact h
  | succ n _ ih => exact (monoAt A n).1 ps r ih

theorem parse_expr_loop_mono (A : Arith D) {f g : Nat} {v : D} {ps : parser_t} {r : Res D}
    (h : parse_expr_loop A f v ps = some r) (hfg : f ≤ g) :
    parse_expr_loop A g v ps = some r := by
  induction g, hfg using Nat.le_induction with
  | base => exact h
  | succ n _ ih => exact (monoAt A n).2.1 v ps r ih

theorem parse_term_mono (A : Arith D) {f g : Nat} {ps : parser_t} {r : Res D}
    (h : parse_term A f ps = some r) (hfg : f ≤ g) : parse_term A g ps = some r := by
  induction g, hfg using Nat.le_induction with
  | base => exact h
  | succ n _ ih => exact (monoAt A n).2.2.1 ps r ih

theorem parse_term_loop_mono (A : Arith D) {f g : Nat} {v : D} {ps : parser_t} {r : Res D}
    (h : parse_term_loop A f v ps = some r) (hfg : f ≤ g) :
    parse_term_loop A g v ps = some r := by
  induction g, hfg using Nat.le_induction with
  | base => exact h
  | succ n _ ih => exact (monoAt A n).2.2.2.1 v ps r ih

theorem parse_power_mono (A : Arith D) {f g : Nat} {ps : parser_t} {r : Res D}
    (h : parse_power A f ps = some r) (hfg : f ≤ g) : parse_power A g ps = some r := by
  induction g, hfg using Nat.le_induction with
  | base => exact h
  | succ n _ ih => exact (monoAt A n).2.2.2.2.1 ps r ih

theorem parse_unary_mono (A : Arith D) {f g : Nat} {ps : parser_t} {r : Res D}
    (h : parse_unary A f ps = some r) (hfg : f ≤ g) : parse_unary A g ps = some r := by
  induction g, hfg using Nat.le_induction with
  | base => exact h
  | succ n _ ih => exact (monoAt A n).2.2.2.2.2.1 ps r ih

theorem parse_primary_mono (A : Arith D) {f g : Nat} {ps : parser_t} {r : Res D}
    (h : parse_primary A f ps = some r) (hfg : f ≤ g) : parse_primary A g ps = some r := by
  induction g, hfg using Nat.le_induction with
  | base => exact h
  | succ n _ ih => exact (monoAt A n).2.2.2.2.2.2 ps r ih

/-! ## Fuel: how much is enough

Five calls lead from `parse_expr` to the next `parse_expr`, and the last of
them has consumed a parenthesis; every other cycle of calls consumes a
character as well. So `5 * (remaining input) + 5` units of fuel are enough for
`parse_expr`, and no production moves the cursor backwards. -/

theorem plus_ne_NUL : '+' ≠ NUL := by decide
theorem minus_ne_NUL : '-' ≠ NUL := by decide
theorem star_ne_NUL : '*' ≠ NUL := by decide
theorem slash_ne_NUL : '/' ≠ NUL := by decide
theorem caret_ne_NUL : '^' ≠ NUL := by decide
theorem lparen_ne_NUL : '(' ≠ NUL := by decide
theorem rparen_ne_NUL : ')' ≠ NUL := by decide

theorem enoughAt (A : Arith D) : ∀ f, EnoughAt A f := by
  intro f
  induction f with
  | zero => refine ⟨?_, ?_, ?_, ?_, ?_, ?_, ?_⟩ <;> intros <;> omega
  | succ f ih =>
    obtain ⟨hE, hEL, hT, hTL, hP, hU, hPr⟩ := ih
    refine ⟨?_, ?_, ?_, ?_, ?_, ?_, ?_⟩
    · intro ps hf
      obtain ⟨r1, h1, l1⟩ := hT ps (by omega)
      rw [parse_expr, h1]
      cases r1 with
      | fail e => exact ⟨_, rfl, l1⟩
      | ok v ps1 =>
        simp only [Res.state] at l1
        obtain ⟨r2, h2, l2⟩ := hEL v ps1 (by omega)
        exact ⟨r2, h2, by omega⟩
    · intro v ps hf
      rw [parse_expr_loop]
      have k1 := match_length ps '+'
      have k2 := match_length (match_ ps '+').2 '-'
      by_cases m1 : (match_ ps '+').1 = true
      · have k3 := match_length_lt ps '+' plus_ne_NUL m1
        obtain ⟨r1, h1, l1⟩ := hT (match_ ps '+').2 (by omega)
        simp only [m1, if_true, h1]
        cases r1 with
        | fail e => exact ⟨_, rfl, by simp only [Res.state] at l1 ⊢; omega⟩
        | ok rhs ps2 =>
          simp only [Res.state] at l1
          obtain ⟨r2, h2, l2⟩ := hEL (A.add v rhs) ps2 (by omega)
          exact ⟨r2, h2, by omega⟩
      · simp only [m1, if_false, Bool.false_eq_true]
        by_cases m2 : (match_ (match_ ps '+').2 '-').1 = true
        · have k3 := match_length_lt (match_ ps '+').2 '-' minus_ne_NUL m2
          obtain ⟨r1, h1, l1⟩ := hT (match_ (match_ ps '+').2 '-').2 (by omega)
          simp only [m2, if_true, h1]
          cases r1 with
          | fail e => exact ⟨_, rfl, by simp only [Res.state] at l1 ⊢; omega⟩
          | ok rhs ps2 =>
            simp only [Res.state] at l1
            obtain ⟨r2, h2, l2⟩ := hEL (A.sub v rhs) ps2 (by omega)
            exact ⟨r2, h2, by omega⟩
        · simp only [m2, if_false, Bool.false_eq_true]
          exact ⟨_, rfl, by simp only [Res.state]; omega⟩
    · intro ps hf
      obtain ⟨r1, h1, l1⟩ := hP ps (by omega)
      rw [parse_term, h1]
      cases r1 with
      | fail e => exact ⟨_, rfl, l1⟩
      | ok v ps1 =>
        simp only [Res.state] at l1
        obtain ⟨r2, h2, l2⟩ := hTL v ps1 (by omega)
        exact ⟨r2, h2, by omega⟩
    · intro v ps hf
      rw [parse_term_loop]
      have k1 := match_length ps '*'
      have k2 := match_length (match_ ps '*').2 '/'
      by_cases m1 : (match_ ps '*').1 = true
      · have k3 := match_length_lt ps '*' star_ne_NUL m1
        obtain ⟨r1, h1, l1⟩ := hP (match_ ps '*').2 (by omega)
        simp only [m1, if_true, h1]
        cases r1 with
        | fail e => exact ⟨_, rfl, by simp only [Res.state] at l1 ⊢; omega⟩
        | ok rhs ps2 =>
          simp only [Res.state] at l1
          obtain ⟨r2, h2, l2⟩ := hTL (A.mul v rhs) ps2 (by omega)
          exact ⟨r2, h2, by omega⟩
      · simp only [m1, if_false, Bool.false_eq_true]
        by_cases m2 : (match_ (match_ ps '*').2 '/').1 = true
        · have k3 := match_length_lt (match_ ps '*').2 '/' slash_ne_NUL m2
          obtain ⟨r1, h1, l1⟩ := hP (match_ (match_ ps '*').2 '/').2 (by omega)
          simp only [m2, if_true, h1]
          cases r1 with
          | fail e => exact ⟨_, rfl, by simp only [Res.state] at l1 ⊢; omega⟩
          | ok rhs ps2 =>
            simp only [Res.state] at l1
            by_cases hz : A.is_zero rhs = true
            · simp only [hz, if_true]
              exact ⟨_, rfl, by simp only [Res.state, set_err_p]; omega⟩
            · simp only [hz, if_false, Bool.false_eq_true]
              obtain ⟨r2, h2, l2⟩ := hTL (A.div v rhs) ps2 (by omega)
              exact ⟨r2, h2, by omega⟩
        · simp only [m2, if_false, Bool.false_eq_true]
          exact ⟨_, rfl, by simp only [Res.state]; omega⟩
    · intro ps hf
      obtain ⟨r1, h1, l1⟩ := hU ps (by omega)
      rw [parse_power, h1]
      cases r1 with
      | fail e => exact ⟨_, rfl, l1⟩
      | ok base ps1 =>
        simp only [Res.state] at l1
        have k1 := match_length ps1 '^'
        by_cases m : (match_ ps1 '^').1 = true
        · have k3 := match_length_lt ps1 '^' caret_ne_NUL m
          obtain ⟨r2, h2, l2⟩ := hP (match_ ps1 '^').2 (by omega)
          simp only [m, if_true, h2]
          cases r2 with
          | fail e => exact ⟨_, rfl, by simp only [Res.state] at l2 ⊢; omega⟩
          | ok exp ps2 =>
            simp only [Res.state] at l2
            by_cases hbad : (A.pow base exp).2 = true ∨ A.isfinite (A.pow base exp).1 = false
            · simp only [hbad, if_true]
              exact ⟨_, rfl, by simp only [Res.state, set_err_p]; omega⟩
            · simp only [hbad, if_false]
              exact ⟨_, rfl, by simp only [Res.state]; omega⟩
        · simp only [m, if_false, Bool.false_eq_true]
          exact ⟨_, rfl, by simp only [Res.state]; omega⟩
    · intro ps hf
      rw [parse_unary]
      have k1 := match_length ps '+'
      have k2 := match_length (match_ ps '+').2 '-'
      by_cases m1 : (match_ ps '+').1 = true
      · have k3 := match_length_lt ps '+' plus_ne_NUL m1
        obtain ⟨r1, h1, l1⟩ := hU (match_ ps '+').2 (by omega)
        simp only [m1, if_true]
        exact ⟨r1, h1, by omega⟩
      · simp only [m1, if_false, Bool.false_eq_true]
        by_cases m2 : (match_ (match_ ps '+').2 '-').1 = true
        · have k3 := match_length_lt (match_ ps '+').2 '-' minus_ne_NUL m2
          obtain ⟨r1, h1, l1⟩ := hU (match_ (match_ ps '+').2 '-').2 (by omega)
          simp only [m2, if_true, h1]
          cases r1 with
          | fail e => exact ⟨_, rfl, by simp only [Res.state] at l1 ⊢; omega⟩
          | ok v ps2 => exact ⟨_, rfl, by simp only [Res.state] at l1 ⊢; omega⟩
        · simp only [m2, if_false, Bool.false_eq_true]
          obtain ⟨r1, h1, l1⟩ := hPr (match_ (match_ ps '+').2 '-').2 (by omega)
          exact ⟨r1, h1, by omega⟩
    · intro ps hf
      rw [parse_primary]
      have k1 := match_length ps '('
      by_cases m : (match_ ps '(').1 = true
      · have k3 := match_length_lt ps '(' lparen_ne_NUL m
        obtain ⟨r1, h1, l1⟩ := hE (match_ ps '(').2 (by omega)
        simp only [m, if_true, h1]
        cases r1 with
        | fail e => exact ⟨_, rfl, by simp only [Res.state] at l1 ⊢; omega⟩
        | ok v ps1 =>
          simp only [Res.state] at l1
          have k4 := match_length ps1 ')'
          by_cases m2 : (match_ ps1 ')').1 = true
          · simp only [m2, if_true]
            exact ⟨_, rfl, by simp only [Res.state]; omega⟩
          · simp only [m2, if_false, Bool.false_eq_true]
            exact ⟨_, rfl, by simp only [Res.state, set_err_p]; omega⟩
      · simp only [m, if_false, Bool.false_eq_true]
        have k5 := parse_number_length A (match_ ps '(').2
        exact ⟨_, rfl, by omega⟩

/-- With the fuel of `parse_eval`, `parse_expr` returns. -/
theorem parse_expr_enough (A : Arith D) (ps : parser_t) (f : Nat)
    (hf : 5 * ps.p.length + 5 ≤ f) : ∃ r, parse_expr A f ps = some r :=
  let ⟨r, h, _⟩ := (enoughAt A f).1 ps hf
  ⟨r, h⟩

/-- The result of `parse_expr` does not depend on the fuel, once there is
enough of it. -/
theorem parse_expr_any_fuel (A : Arith D) {f g : Nat} {ps : parser_t} {r : Res D}
    (h : parse_expr A f ps = some r) (hg : 5 * ps.p.length + 5 ≤ g) :
    parse_expr A g ps = some r := by
  obtain ⟨r1, h1⟩ := parse_expr_enough A ps g hg
  have a := parse_expr_mono A h (Nat.le_max_left f g)
  have b := parse_expr_mono A h1 (Nat.le_max_right f g)
  rw [a] at b
  rw [h1, ← Option.some.inj b]

/-! ## A successful production leaves the error fields alone -/

theorem SameErr.refl (a : parser_t) : SameErr a a := ⟨rfl, rfl⟩

theorem SameErr.trans {a b c : parser_t} (h1 : SameErr a b) (h2 : SameErr b c) : SameErr a c :=
  ⟨h1.1.trans h2.1, h1.2.trans h2.2⟩

theorem match_sameErr (ps : parser_t) (c : Char) : SameErr (match_ ps c).2 ps := by
  simp only [match_]
  split <;> exact ⟨rfl, rfl⟩

theorem parse_number_sameErr (A : Arith D) (ps : parser_t) (v : D) (ps1 : parser_t)
    (h : parse_number A ps = .ok v ps1) : SameErr ps1 ps := by
  simp only [parse_number] at h
  split at h
  · cases h
  · split at h
    · cases h
    · cases h; exact ⟨rfl, rfl⟩

theorem keepAt (A : Arith D) : ∀ f, KeepAt A f := by
  intro f
  induction f with
  | zero =>
    refine ⟨?_, ?_, ?_, ?_, ?_, ?_, ?_⟩ <;> intros <;> simp_all [parse_expr, parse_expr_loop,
      parse_term, parse_term_loop, parse_power, parse_unary, parse_primary]
  | succ f ih =>
    obtain ⟨hE, hEL, hT, hTL, hP, hU, hPr⟩ := ih
    refine ⟨?_, ?_, ?_, ?_, ?_, ?_, ?_⟩
    · intro ps v ps1 h
      rw [parse_expr] at h
      cases h1 : parse_term A f ps with
      | none => simp [h1] at h
      | some r1 =>
        cases r1 with
        | fail e => simp [h1] at h
        | ok v1 q =>
          simp only [h1] at h
          exact (hEL v1 q v ps1 h).trans (hT ps v1 q h1)
    · intro w ps v ps1 h
      rw [parse_expr_loop] at h
      have s1 := match_sameErr ps '+'
      have s2 := match_sameErr (match_ ps '+').2 '-'
      by_cases m1 : (match_ ps '+').1 = true
      · simp only [m1, if_true] at h
        cases h1 : parse_term A f (match_ ps '+').2 with
        | none => simp [h1] at h
        | some r1 =>
          cases r1 with
          | fail e => simp [h1] at h
          | ok rhs q =>
            simp only [h1] at h
            exact ((hEL _ q v ps1 h).trans (hT _ rhs q h1)).trans s1
      · simp only [m1, if_false, Bool.false_eq_true] at h
        by_cases m2 : (match_ (match_ ps '+').2 '-').1 = true
        · simp only [m2, if_true] at h
          cases h1 : parse_term A f (match_ (match_ ps '+').2 '-').2 with
          | none => simp [h1] at h
          | some r1 =>
            cases r1 with
            | fail e => simp [h1] at h
            | ok rhs q =>
              simp only [h1] at h
              exact (((hEL _ q v ps1 h).trans (hT _ rhs q h1)).trans s2).trans s1
        · simp only [m2, if_false, Bool.false_eq_true, Option.some.injEq, Res.ok.injEq] at h
          rw [← h.2]
          exact s2.trans s1
    · intro ps v ps1 h
      rw [parse_term] at h
      cases h1 : parse_power A f ps with
      | none => simp [h1] at h
      | some r1 =>
        cases r1 with
        | fail e => simp [h1] at h
        | ok v1 q =>
          simp only [h1] at h
          exact (hTL v1 q v ps1 h).trans (hP ps v1 q h1)
    · intro w ps v ps1 h
      rw [parse_term_loop] at h
      have s1 := match_sameErr ps '*'
      have s2 := match_sameErr (match_ ps '*').2 '/'
      by_cases m1 : (match_ ps '*').1 = true
      · simp only [m1, if_true] at h
        cases h1 : parse_power A f (match_ ps '*').2 with
        | none => simp [h1] at h
        | some r1 =>
          cases r1 with
          | fail e => simp [h1] at h
          | ok rhs q =>
            simp only [h1] at h
            exact ((hTL _ q v ps1 h).trans (hP _ rhs q h1)).trans s1
      · simp only [m1, if_false, Bool.false_eq_true] at h
        by_cases m2 : (match_ (match_ ps '*').2 '/').1 = true
        · simp only [m2, if_true] at h
          cases h1 : parse_power A f (match_ (match_ ps '*').2 '/').2 with
          | none => simp [h1] at h
          | some r1 =>
            cases r1 with
            | fail e => simp [h1] at h
            | ok rhs q =>
              simp only [h1] at h
              by_cases hz : A.is_zero rhs = true
              · simp [hz] at h
              · simp only [hz, if_false, Bool.false_eq_true] at h
                exact (((hTL _ q v ps1 h).trans (hP _ rhs q h1)).trans s2).trans s1
        · simp only [m2, if_false, Bool.false_eq_true, Option.some.injEq, Res.ok.injEq] at h
          rw [← h.2]
          exact s2.trans s1
    · intro ps v ps1 h
      rw [parse_power] at h
      cases h1 : parse_unary A f ps with
      | none => simp [h1] at h
      | some r1 =>
        cases r1 with
        | fail e => simp [h1] at h
        | ok base q =>
          simp only [h1] at h
          have s1 := match_sameErr q '^'
          have k1 := hU ps base q h1
          by_cases m : (match_ q '^').1 = true
          · simp only [m, if_true] at h
            cases h2 : parse_power A f (match_ q '^').2 with
            | none => simp [h2] at h
            | some r2 =>
              cases r2 with
              | fail e => simp [h2] at h
              | ok exp q2 =>
                simp only [h2] at h
                split at h
                · simp at h
                · simp only [Option.some.injEq, Res.ok.injEq] at h
                  rw [← h.2]
                  exact ((hP _ exp q2 h2).trans s1).trans k1
          · simp only [m, if_false, Bool.false_eq_true, Option.some.injEq, Res.ok.injEq] at h
            rw [← h.2]
            exact s1.trans k1
    · intro ps v ps1 h
      rw [parse_unary] at h
      have s1 := match_sameErr ps '+'
      have s2 := match_sameErr (match_ ps '+').2 '-'
      by_cases m1 : (match_ ps '+').1 = true
      · simp only [m1, if_true] at h
        exact (hU _ v ps1 h).trans s1
      · simp only [m1, if_false, Bool.false_eq_true] at h
        by_cases m2 : (match_ (match_ ps '+').2 '-').1 = true
        · simp only [m2, if_true] at h
          cases h1 : parse_unary A f (match_ (match_ ps '+').2 '-').2 with
          | none => simp [h1] at h
          | some r1 =>
            cases r1 with
            | fail e => simp [h1] at h
            | ok v1 q =>
              simp only [h1, Option.some.injEq, Res.ok.injEq] at h
              rw [← h.2]
              exact ((hU _ v1 q h1).trans s2).trans s1
        · simp only [m2, if_false, Bool.false_eq_true] at h
          exact ((hPr _ v ps1 h).trans s2).trans s1
    · intro ps v ps1 h
      rw [parse_primary] at h
      have s1 := match_sameErr ps '('
      by_cases m : (match_ ps '(').1 = true
      · simp only [m, if_true] at h
        cases h1 : parse_expr A f (match_ ps '(').2 with
        | none => simp [h1] at h
        | some r1 =>
          cases r1 with
          | fail e => simp [h1] at h
          | ok v1 q =>
            simp only [h1] at h
            have s2 := match_sameErr q ')'
            by_cases m2 : (match_ q ')').1 = true
            · simp only [m2, if_true, Option.some.injEq, Res.ok.injEq] at h
              rw [← h.2]
              exact (s2.trans (hE _ v1 q h1)).trans s1
            · simp [m2] at h
      · simp only [m, if_false, Bool.false_eq_true, Option.some.injEq] at h
        exact (parse_number_sameErr A _ v ps1 h).trans s1

/-- A successful `parse_expr` leaves the error fields as they were. -/
theorem parse_expr_keep (A : Arith D) {f : Nat} {ps : parser_t} {v : D} {ps1 : parser_t}
    (h : parse_expr A f ps = some (.ok v ps1)) : SameErr ps1 ps :=
  (keepAt A f).1 ps v ps1 h

/-! ## A failure goes up unchanged -/

/-- When the call that a body has come to returns 0, the body returns 0 at
once, in the same state. -/
theorem calls_fail (A : Arith D) {c d : Call D} (h : Calls A c d) (e : parser_t)
    (hd : d.run A = some (.fail e)) : c.run A = some (.fail e) := by
  cases h with
  | expr_term f ps => simp only [Call.run] at hd ⊢; rw [parse_expr, hd]
  | expr_loop f ps v ps1 h1 => simp only [Call.run] at hd ⊢; rw [parse_expr, h1]; exact hd
  | loop_plus_term f v ps m1 =>
    simp only [Call.run] at hd ⊢; rw [parse_expr_loop]; simp only [m1, if_true, hd]
  | loop_plus_next f v ps rhs ps2 m1 h1 =>
    simp only [Call.run] at hd ⊢; rw [parse_expr_loop]; simp only [m1, if_true, h1, hd]
  | loop_minus_term f v ps m1 m2 =>
    simp only [Call.run] at hd ⊢; rw [parse_expr_loop]
    simp only [m1, m2, if_true, if_false, Bool.false_eq_true, hd]
  | loop_minus_next f v ps rhs ps2 m1 m2 h1 =>
    simp only [Call.run] at hd ⊢; rw [parse_expr_loop]
    simp only [m1, m2, if_true, if_false, Bool.false_eq_true, h1, hd]
  | term_power f ps => simp only [Call.run] at hd ⊢; rw [parse_term, hd]
  | term_loop f ps v ps1 h1 => simp only [Call.run] at hd ⊢; rw [parse_term, h1]; exact hd
  | loop_mul_power f v ps m1 =>
    simp only [Call.run] at hd ⊢; rw [parse_term_loop]; simp only [m1, if_true, hd]
  | loop_mul_next f v ps rhs ps2 m1 h1 =>
    simp only [Call.run] at hd ⊢; rw [parse_term_loop]; simp only [m1, if_true, h1, hd]
  | loop_div_power f v ps m1 m2 =>
    simp only [Call.run] at hd ⊢; rw [parse_term_loop]
    simp only [m1, m2, if_true, if_false, Bool.false_eq_true, hd]
  | loop_div_next f v ps rhs ps2 m1 m2 h1 hz =>
    simp only [Call.run] at hd ⊢; rw [parse_term_loop]
    simp only [m1, m2, if_true, if_false, Bool.false_eq_true, h1, hz, hd]
  | power_unary f ps => simp only [Call.run] at hd ⊢; rw [parse_power, hd]
  | power_power f ps base ps1 h1 m =>
    simp only [Call.run] at hd ⊢; rw [parse_power, h1]; simp only [m, if_true, hd]
  | unary_plus f ps m1 =>
    simp only [Call.run] at hd ⊢; rw [parse_unary]; simp only [m1, if_true, hd]
  | unary_minus f ps m1 m2 =>
    simp only [Call.run] at hd ⊢; rw [parse_unary]
    simp only [m1, m2, if_true, if_false, Bool.false_eq_true, hd]
  | unary_primary f ps m1 m2 =>
    simp only [Call.run] at hd ⊢; rw [parse_unary]
    simp only [m1, m2, if_false, Bool.false_eq_true, hd]
  | primary_expr f ps m =>
    simp only [Call.run] at hd ⊢; rw [parse_primary]; simp only [m, if_true, hd]

/-- A failure at a call that the run of `parse_eval` has come to is the
failure of the whole `parse_expr`. -/
theorem reaches_fail (A : Arith D) {input : List Char} {c : Call D} (h : Reaches A input c)
    (e : parser_t) (hc : c.run A = some (.fail e)) :
    parse_expr A (eval_fuel input) { p := input, err_at := none, err_msg := "" }
      = some (.fail e) := by
  unfold Reaches at h
  induction h with
  | refl => exact hc
  | tail _ hstep ih => exact ih (calls_fail A hstep e hc)

/-! ## What `parse_eval` makes of the result of `parse_expr` -/

theorem parse_eval_fail (A : Arith D) (input : List Char) (sz : Nat) (e : parser_t)
    (h : parse_expr A (eval_fuel input) { p := input, err_at := none, err_msg := "" }
      = some (.fail e)) :
    parse_eval A input sz
      = some ⟨.PARSE_ERR, none, if 0 < sz then some (snprintf sz (err_text e)) else none⟩ := by
  simp only [parse_eval, h, err_text, err_pos]

theorem parse_eval_ok (A : Arith D) (input : List Char) (sz : Nat) (v : D) (ps1 : parser_t)
    (h : parse_expr A (eval_fuel input) { p := input, err_at := none, err_msg := "" }
      = some (.ok v ps1))
    (hend : cur (skip_ws_from ps1.p) = NUL) :
    parse_eval A input sz = some ⟨.PARSE_OK, some v, none⟩ := by
  simp [parse_eval, h, hend]

/-- The other way round: a `PARSE_OK` comes from a successful `parse_expr`
that has left only white space. -/
theorem parse_eval_ok_inv (A : Arith D) (input : List Char) (sz : Nat) (v : D)
    (h : parse_eval A input sz = some ⟨.PARSE_OK, some v, none⟩) :
    ∃ ps1, parse_expr A (eval_fuel input) { p := input, err_at := none, err_msg := "" }
        = some (.ok v ps1) ∧ cur (skip_ws_from ps1.p) = NUL := by
  simp only [parse_eval] at h
  cases h1 : parse_expr A (eval_fuel input) { p := input, err_at := none, err_msg := "" } with
  | none => simp [h1] at h
  | some r =>
    cases r with
    | fail e => simp [h1] at h
    | ok w ps1 =>
      simp only [h1, skip_ws_p, ne_eq, ite_not] at h
      by_cases hend : cur (skip_ws_from ps1.p) = NUL
      · rw [if_pos hend] at h
        simp only [Option.some.injEq, EvalResult.mk.injEq, true_and, and_true] at h
        exact ⟨ps1, by rw [h], hend⟩
      · rw [if_neg hend] at h
        simp at h

/-- A message that fits the buffer is stored whole. -/
theorem snprintf_fits (sz : Nat) (s : String) (h : s.length < sz) : snprintf sz s = s := by
  unfold snprintf
  have : s.data.length ≤ sz - 1 := by
    have : s.data.length = s.length := rfl
    omega
  rw [List.take_of_length_le this]

/-! ## `match` on a known input -/

theorem match_hit (p r : List Char) (ea : Option (List Char)) (em : String) (c : Char)
    (h : skip_ws_from p = c :: r) :
    match_ ⟨p, ea, em⟩ c = (true, ⟨r, ea, em⟩) := by
  simp [match_, skip_ws, h, cur]

theorem match_miss (p : List Char) (ea : Option (List Char)) (em : String) (c : Char)
    (h : cur (skip_ws_from p) ≠ c) :
    match_ ⟨p, ea, em⟩ c = (false, ⟨skip_ws_from p, ea, em⟩) := by
  simp [match_, skip_ws, h]

/-- The loop of `parse_expr` ends when the next character is no `+` or `-`. -/
theorem parse_expr_loop_exit (A : Arith D) (f : Nat) (v : D) (p : List Char)
    (ea : Option (List Char)) (em : String)
    (h1 : cur (skip_ws_from p) ≠ '+') (h2 : cur (skip_ws_from p) ≠ '-') :
    parse_expr_loop A (f + 1) v ⟨p, ea, em⟩ = some (.ok v ⟨skip_ws_from p, ea, em⟩) := by
  rw [parse_expr_loop, match_miss p ea em '+' h1]
  simp only [if_false, Bool.false_eq_true]
  rw [match_miss _ ea em '-' (by rwa [skip_ws_from_idem])]
  simp [skip_ws_from_idem]

/-- The loop of `parse_term` ends when the next character is no `*` or `/`. -/
theorem parse_term_loop_exit (A : Arith D) (f : Nat) (v : D) (p : List Char)
    (ea : Option (List Char)) (em : String)
    (h1 : cur (skip_ws_from p) ≠ '*') (h2 : cur (skip_ws_from p) ≠ '/') :
    parse_term_loop A (f + 1) v ⟨p, ea, em⟩ = some (.ok v ⟨skip_ws_from p, ea, em⟩) := by
  rw [parse_term_loop, match_miss p ea em '*' h1]
  simp only [if_false, Bool.false_eq_true]
  rw [match_miss _ ea em '/' (by rwa [skip_ws_from_idem])]
  simp [skip_ws_from_idem]

/-! ## The parser follows the derivations of the grammar -/

/-- A `parse_term` that has come to its loop returns when no `*` or `/`
follows. -/
theorem term_done (A : Arith D) (v : D) (p r : List Char) (ea : Option (List Char))
    (em : String)
    (h : ∃ c k, ∀ f, c ≤ f →
      parse_term A (f + k) ⟨p, ea, em⟩ = parse_term_loop A f v ⟨skip_ws_from r, ea, em⟩)
    (h1 : cur (skip_ws_from r) ≠ '*') (h2 : cur (skip_ws_from r) ≠ '/') :
    ∃ c, ∀ f, c ≤ f → parse_term A f ⟨p, ea, em⟩ = some (.ok v ⟨skip_ws_from r, ea, em⟩) := by
  obtain ⟨c, k, hck⟩ := h
  refine ⟨c + k + 1, fun f hf => ?_⟩
  obtain ⟨g, rfl⟩ : ∃ g, f = (g + 1) + k := ⟨f - k - 1, by omega⟩
  rw [hck (g + 1) (by omega),
    parse_term_loop_exit A g v _ ea em (by rwa [skip_ws_from_idem]) (by rwa [skip_ws_from_idem]),
    skip_ws_from_idem]

/-- A `parse_expr` that has come to its loop returns when no `+` or `-`
follows. -/
theorem expr_done (A : Arith D) (v : D) (p r : List Char) (ea : Option (List Char))
    (em : String)
    (h : ∃ c k, ∀ f, c ≤ f →
      parse_expr A (f + k) ⟨p, ea, em⟩ = parse_expr_loop A f v ⟨skip_ws_from r, ea, em⟩)
    (h1 : cur (skip_ws_from r) ≠ '+') (h2 : cur (skip_ws_from r) ≠ '-') :
    ∃ c, ∀ f, c ≤ f → parse_expr A f ⟨p, ea, em⟩ = some (.ok v ⟨skip_ws_from r, ea, em⟩) := by
  obtain ⟨c, k, hck⟩ := h
  refine ⟨c + k + 1, fun f hf => ?_⟩
  obtain ⟨g, rfl⟩ : ∃ g, f = (g + 1) + k := ⟨f - k - 1, by omega⟩
  rw [hck (g + 1) (by omega),
    parse_expr_loop_exit A g v _ ea em (by rwa [skip_ws_from_idem]) (by rwa [skip_ws_from_idem]),
    skip_ws_from_idem]

theorem tok_cur {c : Char} {s r : List Char} (h : Tok c s r) : cur (skip_ws_from s) = c := by
  unfold Tok at h
  rw [h]; rfl

theorem eval_unop_inv (A : Arith D) (t : Tree D) (v : D)
    (h : (Tree.minus t).eval A = some v) : ∃ x, t.eval A = some x ∧ v = A.neg x := by
  simp only [Tree.eval] at h
  cases hx : t.eval A with
  | none => simp [hx] at h
  | some x => simp only [hx, Option.some.injEq] at h; exact ⟨x, rfl, h.symm⟩

theorem eval_pair_inv {α : Type} (a b : Option D) (g : D → D → Option α) (v : α)
    (h : (match a, b with
      | some x, some y => g x y
      | _, _ => none) = some v) :
    ∃ x y, a = some x ∧ b = some y ∧ g x y = some v := by
  cases a with
  | none => simp at h
  | some x =>
    cases b with
    | none => simp at h
    | some y => exact ⟨x, y, rfl, rfl, h⟩

/-- The parser follows every derivation of the grammar. -/
theorem derives_agrees (A : Arith D) {n : NT} {s r : List Char} {t : Tree D}
    (h : Derives A n s r t) : Agrees A n s r t := by
  induction h with
  | @number s r v valid hn =>
    obtain ⟨n1, n2, n3, hc, hr, hv, hval⟩ := hn
    refine ⟨⟨n1, n2⟩, ?_⟩
    intro w hev p ea em hp
    simp only [Tree.eval] at hev
    by_cases hvalid : valid = true
    · simp only [hvalid, if_true, Option.some.injEq] at hev
      subst hev
      rw [hvalid] at hval
      have hval2 : (A.strtod (skip_ws_from s)).erange = false
          ∧ A.isfinite (A.strtod (skip_ws_from s)).value = true := by
        simpa using hval.symm
      refine ⟨1, fun f hf => ?_⟩
      obtain ⟨g, rfl⟩ : ∃ g, f = g + 1 := ⟨f - 1, by omega⟩
      rw [parse_primary, match_miss p ea em '(' (by rwa [hp])]
      simp only [if_false, Bool.false_eq_true, parse_number, skip_ws_p, skip_ws_from_idem, hp]
      rw [if_neg (by omega), if_neg (by simp [hval2.1, hval2.2])]
      rw [hr, hv]
      rfl
    · simp [hvalid] at hev
  | @paren s r1 r2 r t h1 _ h2 ih =>
    refine ⟨⟨by rw [tok_cur h1]; decide, by rw [tok_cur h1]; decide⟩, ?_⟩
    intro v hev p ea em hp
    simp only [Tree.eval] at hev
    have c2 := tok_cur h2
    obtain ⟨c, hc⟩ := expr_done A v r1 r2 ea em
      (ih v hev (by rw [c2]; decide) (by rw [c2]; decide) (by rw [c2]; decide) r1 ea em rfl)
      (by rw [c2]; decide) (by rw [c2]; decide)
    refine ⟨c + 1, fun f hf => ?_⟩
    obtain ⟨g, rfl⟩ : ∃ g, f = g + 1 := ⟨f - 1, by omega⟩
    rw [parse_primary, match_hit p r1 ea em '(' (by rw [hp]; exact h1)]
    simp only [if_true, hc g (by omega)]
    rw [match_hit _ r ea em ')' (by rw [skip_ws_from_idem]; exact h2)]
    simp
  | @primary s r t _ ih =>
    obtain ⟨⟨np, nm⟩, hprim⟩ := ih
    intro v hev p ea em hp
    obtain ⟨c, hc⟩ := hprim v hev (skip_ws_from (skip_ws_from p)) ea em
      (by rw [skip_ws_from_idem, skip_ws_from_idem, hp])
    refine ⟨c + 1, fun f hf => ?_⟩
    obtain ⟨g, rfl⟩ : ∃ g, f = g + 1 := ⟨f - 1, by omega⟩
    rw [parse_unary, match_miss p ea em '+' (by rwa [hp])]
    simp only [if_false, Bool.false_eq_true]
    rw [match_miss _ ea em '-' (by rwa [skip_ws_from_idem, hp])]
    simp only [if_false, Bool.false_eq_true]
    exact hc g (by omega)
  | @plus s r1 r t h1 _ ih =>
    intro v hev p ea em hp
    simp only [Tree.eval] at hev
    obtain ⟨c, hc⟩ := ih v hev r1 ea em rfl
    refine ⟨c + 1, fun f hf => ?_⟩
    obtain ⟨g, rfl⟩ : ∃ g, f = g + 1 := ⟨f - 1, by omega⟩
    rw [parse_unary, match_hit p r1 ea em '+' (by rw [hp]; exact h1)]
    simp only [if_true]
    exact hc g (by omega)
  | @minus s r1 r t h1 _ ih =>
    intro v hev p ea em hp
    obtain ⟨x, hx, rfl⟩ := eval_unop_inv A t v hev
    obtain ⟨c, hc⟩ := ih x hx r1 ea em rfl
    have c1 := tok_cur h1
    refine ⟨c + 1, fun f hf => ?_⟩
    obtain ⟨g, rfl⟩ : ∃ g, f = g + 1 := ⟨f - 1, by omega⟩
    rw [parse_unary, match_miss p ea em '+' (by rw [hp, c1]; decide)]
    simp only [if_false, Bool.false_eq_true]
    rw [match_hit _ r1 ea em '-' (by rw [skip_ws_from_idem, hp]; exact h1)]
    simp only [if_true, hc g (by omega)]
  | @unary s r t _ ih =>
    intro v hev hfollow p ea em hp
    obtain ⟨c, hc⟩ := ih v hev p ea em hp
    refine ⟨c + 1, fun f hf => ?_⟩
    obtain ⟨g, rfl⟩ : ∃ g, f = g + 1 := ⟨f - 1, by omega⟩
    rw [parse_power, hc g (by omega)]
    simp only [match_miss r ea em '^' hfollow, if_false, Bool.false_eq_true]
  | @pow s r1 r2 r b e _ h1 _ ihb ihe =>
    intro v hev hfollow p ea em hp
    simp only [Tree.eval] at hev
    obtain ⟨x, y, hx, hy, hxy⟩ := eval_pair_inv _ _ _ v hev
    obtain ⟨c1, hc1⟩ := ihb x hx p ea em hp
    obtain ⟨c2, hc2⟩ := ihe y hy hfollow r2 ea em rfl
    refine ⟨max c1 c2 + 1, fun f hf => ?_⟩
    obtain ⟨g, rfl⟩ : ∃ g, f = g + 1 := ⟨f - 1, by omega⟩
    have hg1 : c1 ≤ g := by have := Nat.le_max_left c1 c2; omega
    have hg2 : c2 ≤ g := by have := Nat.le_max_right c1 c2; omega
    rw [parse_power, hc1 g hg1]
    simp only [match_hit r1 r2 ea em '^' h1, if_true, hc2 g hg2]
    by_cases hbad : (A.pow x y).2 = true ∨ A.isfinite (A.pow x y).1 = false
    · simp [hbad] at hxy
    · simp only [hbad, if_false, Option.some.injEq] at hxy ⊢
      rw [hxy]
  | @power s r t _ ih =>
    intro v hev hfollow p ea em hp
    obtain ⟨c, hc⟩ := ih v hev hfollow p ea em hp
    refine ⟨c, 1, fun f hf => ?_⟩
    rw [parse_term, hc f hf]
  | @mul s r1 r2 r a b _ h1 _ iha ihb =>
    intro v hev hfollow p ea em hp
    simp only [Tree.eval] at hev
    obtain ⟨x, y, hx, hy, hxy⟩ := eval_pair_inv _ _ _ v hev
    simp only [Option.some.injEq] at hxy
    have c1 := tok_cur h1
    obtain ⟨ca, ka, hca⟩ := iha x hx (by rw [c1]; decide) p ea em hp
    obtain ⟨cb, hcb⟩ := ihb y hy hfollow r2 ea em rfl
    refine ⟨max ca cb, ka + 1, fun f hf => ?_⟩
    have hg1 : ca ≤ f := by have := Nat.le_max_left ca cb; omega
    have hg2 : cb ≤ f := by have := Nat.le_max_right ca cb; omega
    rw [show f + (ka + 1) = (f + 1) + ka by omega, hca (f + 1) (by omega), parse_term_loop,
      match_hit _ r2 ea em '*' (by rw [skip_ws_from_idem]; exact h1)]
    simp only [if_true, hcb f hg2, hxy]
  | @div s r1 r2 r a b _ h1 _ iha ihb =>
    intro v hev hfollow p ea em hp
    simp only [Tree.eval] at hev
    obtain ⟨x, y, hx, hy, hxy⟩ := eval_pair_inv _ _ _ v hev
    have c1 := tok_cur h1
    obtain ⟨ca, ka, hca⟩ := iha x hx (by rw [c1]; decide) p ea em hp
    obtain ⟨cb, hcb⟩ := ihb y hy hfollow r2 ea em rfl
    refine ⟨max ca cb, ka + 1, fun f hf => ?_⟩
    have hg1 : ca ≤ f := by have := Nat.le_max_left ca cb; omega
    have hg2 : cb ≤ f := by have := Nat.le_max_right ca cb; omega
    rw [show f + (ka + 1) = (f + 1) + ka by omega, hca (f + 1) (by omega), parse_term_loop,
      match_miss _ ea em '*' (by rw [skip_ws_from_idem, c1]; decide)]
    simp only [if_false, Bool.false_eq_true]
    rw [match_hit _ r2 ea em '/' (by rw [skip_ws_from_idem, skip_ws_from_idem]; exact h1)]
    simp only [if_true, hcb f hg2]
    by_cases hz : A.is_zero y = true
    · simp [hz] at hxy
    · simp only [hz, if_false, Bool.false_eq_true, Option.some.injEq] at hxy ⊢
      rw [hxy]
  | @term s r t _ ih =>
    intro v hev hf1 hf2 hf3 p ea em hp
    obtain ⟨c, hc⟩ := term_done A v p r ea em (ih v hev hf1 p ea em hp) hf2 hf3
    refine ⟨c, 1, fun f hf => ?_⟩
    rw [parse_expr, hc f hf]
  | @add s r1 r2 r a b _ h1 _ iha ihb =>
    intro v hev hf1 hf2 hf3 p ea em hp
    simp only [Tree.eval] at hev
    obtain ⟨x, y, hx, hy, hxy⟩ := eval_pair_inv _ _ _ v hev
    simp only [Option.some.injEq] at hxy
    have c1 := tok_cur h1
    obtain ⟨ca, ka, hca⟩ :=
      iha x hx (by rw [c1]; decide) (by rw [c1]; decide) (by rw [c1]; decide) p ea em hp
    obtain ⟨cb, hcb⟩ := term_done A y r2 r ea em (ihb y hy hf1 r2 ea em rfl) hf2 hf3
    refine ⟨max ca cb, ka + 1, fun f hf => ?_⟩
    have hg1 : ca ≤ f := by have := Nat.le_max_left ca cb; omega
    have hg2 : cb ≤ f := by have := Nat.le_max_right ca cb; omega
    rw [show f + (ka + 1) = (f + 1) + ka by omega, hca (f + 1) (by omega), parse_expr_loop,
      match_hit _ r2 ea em '+' (by rw [skip_ws_from_idem]; exact h1)]
    simp only [if_true, hcb f hg2, hxy]
  | @sub s r1 r2 r a b _ h1 _ iha ihb =>
    intro v hev hf1 hf2 hf3 p ea em hp
    simp only [Tree.eval] at hev
    obtain ⟨x, y, hx, hy, hxy⟩ := eval_pair_inv _ _ _ v hev
    simp only [Option.some.injEq] at hxy
    have c1 := tok_cur h1
    obtain ⟨ca, ka, hca⟩ :=
      iha x hx (by rw [c1]; decide) (by rw [c1]; decide) (by rw [c1]; decide) p ea em hp
    obtain ⟨cb, hcb⟩ := term_done A y r2 r ea em (ihb y hy hf1 r2 ea em rfl) hf2 hf3
    refine ⟨max ca cb, ka + 1, fun f hf => ?_⟩
    have hg1 : ca ≤ f := by have := Nat.le_max_left ca cb; omega
    have hg2 : cb ≤ f := by have := Nat.le_max_right ca cb; omega
    rw [show f + (ka + 1) = (f + 1) + ka by omega, hca (f + 1) (by omega), parse_expr_loop,
      match_miss _ ea em '+' (by rw [skip_ws_from_idem, c1]; decide)]
    simp only [if_false, Bool.false_eq_true]
    rw [match_hit _ r2 ea em '-' (by rw [skip_ws_from_idem, skip_ws_from_idem]; exact h1)]
    simp only [if_true, hcb f hg2, hxy]

/-! ## No error is recorded before the first failure -/

/-- The call a body comes to starts with the error fields of the body. -/
theorem calls_sameErr (A : Arith D) {c d : Call D} (h : Calls A c d) :
    SameErr d.state c.state := by
  cases h with
  | expr_term f ps => exact SameErr.refl _
  | expr_loop f ps v ps1 h1 => exact (keepAt A f).2.2.1 ps v ps1 h1
  | loop_plus_term f v ps m1 => exact match_sameErr ps '+'
  | loop_plus_next f v ps rhs ps2 m1 h1 =>
    exact ((keepAt A f).2.2.1 _ rhs ps2 h1).trans (match_sameErr ps '+')
  | loop_minus_term f v ps m1 m2 =>
    exact (match_sameErr _ '-').trans (match_sameErr ps '+')
  | loop_minus_next f v ps rhs ps2 m1 m2 h1 =>
    exact (((keepAt A f).2.2.1 _ rhs ps2 h1).trans (match_sameErr _ '-')).trans
      (match_sameErr ps '+')
  | term_power f ps => exact SameErr.refl _
  | term_loop f ps v ps1 h1 => exact (keepAt A f).2.2.2.2.1 ps v ps1 h1
  | loop_mul_power f v ps m1 => exact match_sameErr ps '*'
  | loop_mul_next f v ps rhs ps2 m1 h1 =>
    exact ((keepAt A f).2.2.2.2.1 _ rhs ps2 h1).trans (match_sameErr ps '*')
  | loop_div_power f v ps m1 m2 =>
    exact (match_sameErr _ '/').trans (match_sameErr ps '*')
  | loop_div_next f v ps rhs ps2 m1 m2 h1 hz =>
    exact (((keepAt A f).2.2.2.2.1 _ rhs ps2 h1).trans (match_sameErr _ '/')).trans
      (match_sameErr ps '*')
  | power_unary f ps => exact SameErr.refl _
  | power_power f ps base ps1 h1 m =>
    exact (match_sameErr ps1 '^').trans ((keepAt A f).2.2.2.2.2.1 ps base ps1 h1)
  | unary_plus f ps m1 => exact match_sameErr ps '+'
  | unary_minus f ps m1 m2 => exact (match_sameErr _ '-').trans (match_sameErr ps '+')
  | unary_primary f ps m1 m2 => exact (match_sameErr _ '-').trans (match_sameErr ps '+')
  | primary_expr f ps m => exact match_sameErr ps '('

/-- At every call the run of `parse_eval` comes to, no error is recorded. -/
theorem reaches_clean (A : Arith D) {input : List Char} {c : Call D} (h : Reaches A input c) :
    c.state.err_at = none ∧ c.state.err_msg = "" := by
  unfold Reaches at h
  induction h with
  | refl => exact ⟨rfl, rfl⟩
  | tail _ hstep ih =>
    have := calls_sameErr A hstep
    exact ⟨this.1.trans ih.1, this.2.trans ih.2⟩

/-! ## The text of the message -/

theorem near_text_length (p : List Char) : (near_text p).length ≤ 9 := by
  unfold near_text
  split
  · decide
  · split
    · rw [snprintf_fits _ _ (by simp)]; simp
    · rw [snprintf_fits _ _ (by simp [String.length_append]; decide)]
      simp [String.length_append]; decide

theorem near_text_end (p : List Char) (h : cur p = NUL) : near_text p = "end" := by
  unfold near_text
  rw [if_pos h]
  decide

/-- The message for a failure with a reason of at most 22 characters fits a
buffer of 40 bytes. -/
theorem snprintf_reason (sz : Nat) (hsz : 40 ≤ sz) (reason : String) (hr : reason.length ≤ 22)
    (p : List Char) :
    snprintf sz (reason ++ " near '" ++ near_text p ++ "'")
      = reason ++ " near '" ++ near_text p ++ "'" := by
  apply snprintf_fits
  have := near_text_length p
  have h7 : " near '".length = 7 := by decide
  have h1 : "'".length = 1 := by decide
  simp only [String.length_append, h7, h1]
  omega

/-- The message `parse_eval` writes when `parse_expr` fails with the error
recorded by one `set_err` on a state without error. -/
theorem parse_eval_set_err (A : Arith D) (input : List Char) (sz : Nat)
    (ps : parser_t) (reason : String) (hclean : ps.err_at = none)
    (hr : reason.length < 128) (hne : reason ≠ "")
    (h : parse_expr A (eval_fuel input) { p := input, err_at := none, err_msg := "" }
      = some (.fail (set_err ps reason))) :
    parse_eval A input sz
      = some ⟨.PARSE_ERR, none,
          if 0 < sz then some (snprintf sz (reason ++ " near '" ++ near_text ps.p ++ "'"))
          else none⟩ := by
  have hfit : snprintf 128 reason = reason := snprintf_fits 128 reason hr
  rw [parse_eval_fail A input sz _ h]
  have htext : err_text (set_err ps reason) = reason ++ " near '" ++ near_text ps.p ++ "'" := by
    simp [err_text, err_pos, set_err, hclean, hfit, hne]
  rw [htext]

/-- The fuel of `parse_eval` never runs out. -/
theorem parse_eval_returns (A : Arith D) (input : List Char) (sz : Nat) :
    ∃ r, parse_eval A input sz = some r := by
  obtain ⟨r, h⟩ := parse_expr_enough A { p := input, err_at := none, err_msg := "" }
    (eval_fuel input) (by simp [eval_fuel])
  cases r with
  | fail e => exact ⟨_, parse_eval_fail A input sz e h⟩
  | ok v ps1 =>
    simp only [parse_eval, h]
    split <;> exact ⟨_, rfl⟩

/-- Every sentence of the grammar whose parse tree has a value is evaluated to
that value. -/
theorem sentence_parse_eval (A : Arith D) (input : List Char) (sz : Nat) (t : Tree D) (v : D)
    (hs : Sentence A input t) (hv : t.eval A = some v) :
    parse_eval A input sz = some ⟨.PARSE_OK, some v, none⟩ := by
  obtain ⟨r, hd, hend⟩ := hs
  have hag := derives_agrees A hd
  simp only [Agrees] at hag
  obtain ⟨c, hc⟩ := expr_done A v input r none ""
    (hag v hv (by rw [hend]; decide) (by rw [hend]; decide) (by rw [hend]; decide)
      input none "" rfl)
    (by rw [hend]; decide) (by rw [hend]; decide)
  have h2 := parse_expr_any_fuel A (hc c (le_refl c)) (g := eval_fuel input)
    (by simp [eval_fuel])
  exact parse_eval_ok A input sz v _ h2 (by simpa [skip_ws_from_idem] using hend)

end Parser
namespace Parser

variable {D : Type}

/-! ## The cursor only advances -/

theorem skip_ws_from_suffix (p : List Char) : skip_ws_from p <:+ p := by
  induction p with
  | nil => exact List.suffix_refl _
  | cons c cs ih =>
    rw [skip_ws_from]
    split
    · exact ih.trans (List.suffix_cons c cs)
    · exact List.suffix_refl _

theorem match_suffix (ps : parser_t) (c : Char) : (match_ ps c).2.p <:+ ps.p := by
  simp only [match_]
  split
  · exact (List.tail_suffix _).trans (skip_ws_from_suffix ps.p)
  · exact skip_ws_from_suffix ps.p

theorem parse_number_suffix (A : Arith D) (ps : parser_t) :
    (parse_number A ps).state.p <:+ ps.p := by
  simp only [parse_number]
  split
  · exact skip_ws_from_suffix ps.p
  · split
    · exact skip_ws_from_suffix ps.p
    · exact (List.drop_suffix _ _).trans (skip_ws_from_suffix ps.p)

theorem suffixAt (A : Arith D) : ∀ f, SuffixAt A f := by
  intro f
  induction f with
  | zero =>
    refine ⟨?_, ?_, ?_, ?_, ?_, ?_, ?_⟩ <;> intros <;> simp_all [parse_expr, parse_expr_loop,
      parse_term, parse_term_loop, parse_power, parse_unary, parse_primary]
  | succ f ih =>
    obtain ⟨hE, hEL, hT, hTL, hP, hU, hPr⟩ := ih
    refine ⟨?_, ?_, ?_, ?_, ?_, ?_, ?_⟩
    · intro ps r h
      rw [parse_expr] at h
      cases h1 : parse_term A f ps with
      | none => simp [h1] at h
      | some r1 =>
        have s1 := hT ps r1 h1
        cases r1 with
        | fail e =>
          simp only [h1, Option.some.injEq] at h
          rw [← h]; exact s1
        | ok v q =>
          simp only [h1] at h
          exact (hEL v q r h).trans s1
    · intro w ps r h
      rw [parse_expr_loop] at h
      have k1 := match_suffix ps '+'
      have k2 := match_suffix (match_ ps '+').2 '-'
      by_cases m1 : (match_ ps '+').1 = true
      · simp only [m1, if_true] at h
        cases h1 : parse_term A f (match_ ps '+').2 with
        | none => simp [h1] at h
        | some r1 =>
          have s1 := hT _ r1 h1
          cases r1 with
          | fail e =>
            simp only [h1, Option.some.injEq] at h
            rw [← h]; exact s1.trans k1
          | ok rhs q =>
            simp only [h1] at h
            exact ((hEL _ q r h).trans s1).trans k1
      · simp only [m1, if_false, Bool.false_eq_true] at h
        by_cases m2 : (match_ (match_ ps '+').2 '-').1 = true
        · simp only [m2, if_true] at h
          cases h1 : parse_term A f (match_ (match_ ps '+').2 '-').2 with
          | none => simp [h1] at h
          | some r1 =>
            have s1 := hT _ r1 h1
            cases r1 with
            | fail e =>
              simp only [h1, Option.some.injEq] at h
              rw [← h]; exact (s1.trans k2).trans k1
            | ok rhs q =>
              simp only [h1] at h
              exact (((hEL _ q r h).trans s1).trans k2).trans k1
        · simp only [m2, if_false, Bool.false_eq_true, Option.some.injEq] at h
          rw [← h]; exact k2.trans k1
    · intro ps r h
      rw [parse_term] at h
      cases h1 : parse_power A f ps with
      | none => simp [h1] at h
      | some r1 =>
        have s1 := hP ps r1 h1
        cases r1 with
        | fail e =>
          simp only [h1, Option.some.injEq] at h
          rw [← h]; exact s1
        | ok v q =>
          simp only [h1] at h
          exact (hTL v q r h).trans s1
    · intro w ps r h
      rw [parse_term_loop] at h
      have k1 := match_suffix ps '*'
      have k2 := match_suffix (match_ ps '*').2 '/'
      by_cases m1 : (match_ ps '*').1 = true
      · simp only [m1, if_true] at h
        cases h1 : parse_power A f (match_ ps '*').2 with
        | none => simp [h1] at h
        | some r1 =>
          have s1 := hP _ r1 h1
          cases r1 with
          | fail e =>
            simp only [h1, Option.some.injEq] at h
            rw [← h]; exact s1.trans k1
          | ok rhs q =>
            simp only [h1] at h
            exact ((hTL _ q r h).trans s1).trans k1
      · simp only [m1, if_false, Bool.false_eq_true] at h
        by_cases m2 : (match_ (match_ ps '*').2 '/').1 = true
        · simp only [m2, if_true] at h
          cases h1 : parse_power A f (match_ (match_ ps '*').2 '/').2 with
          | none => simp [h1] at h
          | some r1 =>
            have s1 := hP _ r1 h1
            cases r1 with
            | fail e =>
              simp only [h1, Option.some.injEq] at h
              rw [← h]; exact (s1.trans k2).trans k1
            | ok rhs q =>
              simp only [h1] at h
              by_cases hz : A.is_zero rhs = true
              · simp only [hz, if_true, Option.some.injEq] at h
                rw [← h]; exact (s1.trans k2).trans k1
              · simp only [hz, if_false, Bool.false_eq_true] at h
                exact (((hTL _ q r h).trans s1).trans k2).trans k1
        · simp only [m2, if_false, Bool.false_eq_true, Option.some.injEq] at h
          rw [← h]; exact k2.trans k1
    · intro ps r h
      rw [parse_power] at h
      cases h1 : parse_unary A f ps with
      | none => simp [h1] at h
      | some r1 =>
        have s1 := hU ps r1 h1
        cases r1 with
        | fail e =>
          simp only [h1, Option.some.injEq] at h
          rw [← h]; exact s1
        | ok base q =>
          simp only [h1] at h
          have k1 := match_suffix q '^'
          by_cases m : (match_ q '^').1 = true
          · simp only [m, if_true] at h
            cases h2 : parse_power A f (match_ q '^').2 with
            | none => simp [h2] at h
            | some r2 =>
              have s2 := hP _ r2 h2
              cases r2 with
              | fail e =>
                simp only [h2, Option.some.injEq] at h
                rw [← h]; exact (s2.trans k1).trans s1
              | ok exp q2 =>
                simp only [h2] at h
                split at h
                · simp only [Option.some.injEq] at h
                  rw [← h]; exact (s2.trans k1).trans s1
                · simp only [Option.some.injEq] at h
                  rw [← h]; exact (s2.trans k1).trans s1
          · simp only [m, if_false, Bool.false_eq_true, Option.some.injEq] at h
            rw [← h]; exact k1.trans s1
    · intro ps r h
      rw [parse_unary] at h
      have k1 := match_suffix ps '+'
      have k2 := match_suffix (match_ ps '+').2 '-'
      by_cases m1 : (match_ ps '+').1 = true
      · simp only [m1, if_true] at h
        exact (hU _ r h).trans k1
      · simp only [m1, if_false, Bool.false_eq_true] at h
        by_cases m2 : (match_ (match_ ps '+').2 '-').1 = true
        · simp only [m2, if_true] at h
          cases h1 : parse_unary A f (match_ (match_ ps '+').2 '-').2 with
          | none => simp [h1] at h
          | some r1 =>
            have s1 := hU _ r1 h1
            cases r1 with
            | fail e =>
              simp only [h1, Option.some.injEq] at h
              rw [← h]; exact (s1.trans k2).trans k1
            | ok v q =>
              simp only [h1, Option.some.injEq] at h
              rw [← h]; exact (s1.trans k2).trans k1
        · simp only [m2, if_false, Bool.false_eq_true] at h
          exact ((hPr _ r h).trans k2).trans k1
    · intro ps r h
      rw [parse_primary] at h
      have k1 := match_suffix ps '('
      by_cases m : (match_ ps '(').1 = true
      · simp only [m, if_true] at h
        cases h1 : parse_expr A f (match_ ps '(').2 with
        | none => simp [h1] at h
        | some r1 =>
          have s1 := hE _ r1 h1
          cases r1 with
          | fail e =>
            simp only [h1, Option.some.injEq] at h
            rw [← h]; exact s1.trans k1
          | ok v q =>
            simp only [h1] at h
            have k2 := match_suffix q ')'
            by_cases m2 : (match_ q ')').1 = true
            · simp only [m2, if_true, Option.some.injEq] at h
              rw [← h]; exact (k2.trans s1).trans k1
            · simp only [m2, if_false, Bool.false_eq_true, Option.some.injEq] at h
              rw [← h]; exact (k2.trans s1).trans k1
      · simp only [m, if_false, Bool.false_eq_true, Option.some.injEq] at h
        rw [← h]; exact (parse_number_suffix A _).trans k1

/-- Every call returns with a cursor at or after the one it started from. -/
theorem run_suffix (A : Arith D) (c : Call D) (r : Res D) (h : c.run A = some r) :
    r.state.p <:+ c.state.p := by
  cases c with
  | expr f ps => exact (suffixAt A f).1 ps r h
  | expr_loop f v ps => exact (suffixAt A f).2.1 v ps r h
  | term f ps => exact (suffixAt A f).2.2.1 ps r h
  | term_loop f v ps => exact (suffixAt A f).2.2.2.1 v ps r h
  | power f ps => exact (suffixAt A f).2.2.2.2.1 ps r h
  | unary f ps => exact (suffixAt A f).2.2.2.2.2.1 ps r h
  | primary f ps => exact (suffixAt A f).2.2.2.2.2.2 ps r h

/-- The call a body comes to starts at or after the cursor of the body. -/
theorem calls_suffix (A : Arith D) {c d : Call D} (h : Calls A c d) :
    d.state.p <:+ c.state.p := by
  cases h with
  | expr_term f ps => exact List.suffix_refl _
  | expr_loop f ps v ps1 h1 => exact (suffixAt A f).2.2.1 ps _ h1
  | loop_plus_term f v ps m1 => exact match_suffix ps '+'
  | loop_plus_next f v ps rhs ps2 m1 h1 =>
    exact ((suffixAt A f).2.2.1 _ _ h1).trans (match_suffix ps '+')
  | loop_minus_term f v ps m1 m2 => exact (match_suffix _ '-').trans (match_suffix ps '+')
  | loop_minus_next f v ps rhs ps2 m1 m2 h1 =>
    exact (((suffixAt A f).2.2.1 _ _ h1).trans (match_suffix _ '-')).trans (match_suffix ps '+')
  | term_power f ps => exact List.suffix_refl _
  | term_loop f ps v ps1 h1 => exact (suffixAt A f).2.2.2.2.1 ps _ h1
  | loop_mul_power f v ps m1 => exact match_suffix ps '*'
  | loop_mul_next f v ps rhs ps2 m1 h1 =>
    exact ((suffixAt A f).2.2.2.2.1 _ _ h1).trans (match_suffix ps '*')
  | loop_div_power f v ps m1 m2 => exact (match_suffix _ '/').trans (match_suffix ps '*')
  | loop_div_next f v ps rhs ps2 m1 m2 h1 hz =>
    exact (((suffixAt A f).2.2.2.2.1 _ _ h1).trans (match_suffix _ '/')).trans
      (match_suffix ps '*')
  | power_unary f ps => exact List.suffix_refl _
  | power_power f ps base ps1 h1 m =>
    exact (match_suffix ps1 '^').trans ((suffixAt A f).2.2.2.2.2.1 ps _ h1)
  | unary_plus f ps m1 => exact match_suffix ps '+'
  | unary_minus f ps m1 m2 => exact (match_suffix _ '-').trans (match_suffix ps '+')
  | unary_primary f ps m1 m2 => exact (match_suffix _ '-').trans (match_suffix ps '+')
  | primary_expr f ps m => exact match_suffix ps '('

/-- Every call of a run starts inside the input. -/
theorem reaches_suffix (A : Arith D) {input : List Char} {c : Call D}
    (h : Reaches A input c) : c.state.p <:+ input := by
  unfold Reaches at h
  induction h with
  | refl => exact List.suffix_refl _
  | tail _ hstep ih => exact (calls_suffix A hstep).trans ih

/-- A suffix gives an offset that is not smaller and is within the length. -/
theorem offset_of_suffix (L : Nat) {p q : List Char} (h : q <:+ p) :
    offset L p ≤ offset L q ∧ offset L q ≤ L := by
  have := h.length_le
  unfold offset
  omega

/-! ## The cursor does not pass the terminating NUL -/

theorem c_strlen_le (mem : List Char) : c_strlen mem ≤ mem.length :=
  (List.takeWhile_sublist _).length_le

/-- At the offset `strlen` the memory holds the terminating NUL. -/
theorem cur_drop_strlen (mem : List Char) : cur (mem.drop (c_strlen mem)) = NUL := by
  induction mem with
  | nil => rfl
  | cons c cs ih =>
    by_cases hc : c = NUL
    · have h0 : c_strlen (c :: cs) = 0 := by
        unfold c_strlen
        rw [List.takeWhile_cons_of_neg (by simpa using hc)]
        rfl
      rw [h0]
      exact hc
    · have h1 : c_strlen (c :: cs) = c_strlen cs + 1 := by
        unfold c_strlen
        rw [List.takeWhile_cons_of_pos (by simpa using hc)]
        rfl
      rw [h1, List.drop_succ_cons]
      exact ih

theorem inString_iff (mem p : List Char) :
    InString mem p ↔ ∃ k, k ≤ c_strlen mem ∧ p = mem.drop k := by
  have hL := c_strlen_le mem
  constructor
  · rintro ⟨hs, ho⟩
    exact ⟨mem.length - p.length, ho, List.suffix_iff_eq_drop.mp hs⟩
  · rintro ⟨k, hk, rfl⟩
    refine ⟨List.drop_suffix _ _, ?_⟩
    unfold offset
    rw [List.length_drop]
    omega

/-- A cursor inside the string that is not on the NUL may step forward. -/
theorem inString_tail (mem p : List Char) (h : InString mem p) (hc : cur p ≠ NUL) :
    InString mem p.tail := by
  obtain ⟨k, hk, rfl⟩ := (inString_iff mem p).mp h
  have hne : k ≠ c_strlen mem := by
    intro e
    rw [e] at hc
    exact hc (cur_drop_strlen mem)
  exact (inString_iff mem _).mpr ⟨k + 1, by omega, by rw [List.tail_drop]⟩

theorem skip_ws_from_inString (mem : List Char) :
    ∀ p, InString mem p → InString mem (skip_ws_from p) := by
  intro p
  induction p with
  | nil => intro h; exact h
  | cons c cs ih =>
    intro h
    rw [skip_ws_from]
    split
    · rename_i hc
      exact ih (inString_tail mem (c :: cs) h hc.1)
    · exact h

theorem match_inString (mem : List Char) (ps : parser_t) (c : Char) (hc : c ≠ NUL)
    (h : InString mem ps.p) : InString mem (match_ ps c).2.p := by
  have hs := skip_ws_from_inString mem ps.p h
  simp only [match_]
  split
  · rename_i heq
    exact inString_tail mem _ hs (by rw [skip_ws_p] at heq ⊢; rw [heq]; exact hc)
  · exact hs

theorem parse_number_inString (A : Arith D) (mem : List Char)
    (hstr : ∀ k, k ≤ c_strlen mem → (A.strtod (mem.drop k)).consumed ≤ c_strlen mem - k)
    (ps : parser_t) (h : InString mem ps.p) : InString mem (parse_number A ps).state.p := by
  have hs := skip_ws_from_inString mem ps.p h
  simp only [parse_number]
  split
  · exact hs
  · split
    · exact hs
    · obtain ⟨k, hk, hp⟩ := (inString_iff mem _).mp hs
      have hle := hstr k hk
      rw [← hp] at hle
      refine (inString_iff mem _).mpr ⟨k + (A.strtod (skip_ws_from ps.p)).consumed, by omega, ?_⟩
      show List.drop _ (skip_ws_from ps.p) = _
      rw [hp, List.drop_drop, ← hp]
      rfl

theorem inStringAt (A : Arith D) (mem : List Char)
    (hstr : ∀ k, k ≤ c_strlen mem → (A.strtod (mem.drop k)).consumed ≤ c_strlen mem - k) :
    ∀ f, InStringAt A mem f := by
  intro f
  induction f with
  | zero =>
    refine ⟨?_, ?_, ?_, ?_, ?_, ?_, ?_⟩ <;> intros <;> simp_all [parse_expr, parse_expr_loop,
      parse_term, parse_term_loop, parse_power, parse_unary, parse_primary]
  | succ f ih =>
    obtain ⟨hE, hEL, hT, hTL, hP, hU, hPr⟩ := ih
    refine ⟨?_, ?_, ?_, ?_, ?_, ?_, ?_⟩
    · intro ps r h hp
      rw [parse_expr] at h
      cases h1 : parse_term A f ps with
      | none => simp [h1] at h
      | some r1 =>
        have s1 := hT ps r1 h1 hp
        cases r1 with
        | fail e =>
          simp only [h1, Option.some.injEq] at h
          rw [← h]; exact s1
        | ok v q =>
          simp only [h1] at h
          exact hEL v q r h s1
    · intro w ps r h hp
      rw [parse_expr_loop] at h
      have k1 := match_inString mem ps '+' plus_ne_NUL hp
      have k2 := match_inString mem (match_ ps '+').2 '-' minus_ne_NUL k1
      by_cases m1 : (match_ ps '+').1 = true
      · simp only [m1, if_true] at h
        cases h1 : parse_term A f (match_ ps '+').2 with
        | none => simp [h1] at h
        | some r1 =>
          have s1 := hT _ r1 h1 k1
          cases r1 with
          | fail e =>
            simp only [h1, Option.some.injEq] at h
            rw [← h]; exact s1
          | ok rhs q =>
            simp only [h1] at h
            exact hEL _ q r h s1
      · simp only [m1, if_false, Bool.false_eq_true] at h
        by_cases m2 : (match_ (match_ ps '+').2 '-').1 = true
        · simp only [m2, if_true] at h
          cases h1 : parse_term A f (match_ (match_ ps '+').2 '-').2 with
          | none => simp [h1] at h
          | some r1 =>
            have s1 := hT _ r1 h1 k2
            cases r1 with
            | fail e =>
              simp only [h1, Option.some.injEq] at h
              rw [← h]; exact s1
            | ok rhs q =>
              simp only [h1] at h
              exact hEL _ q r h s1
        · simp only [m2, if_false, Bool.false_eq_true, Option.some.injEq] at h
          rw [← h]; exact k2
    · intro ps r h hp
      rw [parse_term] at h
      cases h1 : parse_power A f ps with
      | none => simp [h1] at h
      | some r1 =>
        have s1 := hP ps r1 h1 hp
        cases r1 with
        | fail e =>
          simp only [h1, Option.some.injEq] at h
          rw [← h]; exact s1
        | ok v q =>
          simp only [h1] at h
          exact hTL v q r h s1
    · intro w ps r h hp
      rw [parse_term_loop] at h
      have k1 := match_inString mem ps '*' star_ne_NUL hp
      have k2 := match_inString mem (match_ ps '*').2 '/' slash_ne_NUL k1
      by_cases m1 : (match_ ps '*').1 = true
      · simp only [m1, if_true] at h
        cases h1 : parse_power A f (match_ ps '*').2 with
        | none => simp [h1] at h
        | some r1 =>
          have s1 := hP _ r1 h1 k1
          cases r1 with
          | fail e =>
            simp only [h1, Option.some.injEq] at h
            rw [← h]; exact s1
          | ok rhs q =>
            simp only [h1] at h
            exact hTL _ q r h s1
      · simp only [m1, if_false, Bool.false_eq_true] at h
        by_cases m2 : (match_ (match_ ps '*').2 '/').1 = true
        · simp only [m2, if_true] at h
          cases h1 : parse_power A f (match_ (match_ ps '*').2 '/').2 with
          | none => simp [h1] at h
          | some r1 =>
            have s1 := hP _ r1 h1 k2
            cases r1 with
            | fail e =>
              simp only [h1, Option.some.injEq] at h
              rw [← h]; exact s1
            | ok rhs q =>
              simp only [h1] at h
              by_cases hz : A.is_zero rhs = true
              · simp only [hz, if_true, Option.some.injEq] at h
                rw [← h]; exact s1
              · simp only [hz, if_false, Bool.false_eq_true] at h
                exact hTL _ q r h s1
        · simp only [m2, if_false, Bool.false_eq_true, Option.some.injEq] at h
          rw [← h]; exact k2
    · intro ps r h hp
      rw [parse_power] at h
      cases h1 : parse_unary A f ps with
      | none => simp [h1] at h
      | some r1 =>
        have s1 := hU ps r1 h1 hp
        cases r1 with
        | fail e =>
          simp only [h1, Option.some.injEq] at h
          rw [← h]; exact s1
        | ok base q =>
          simp only [h1] at h
          have k1 := match_inString mem q '^' caret_ne_NUL s1
          by_cases m : (match_ q '^').1 = true
          · simp only [m, if_true] at h
            cases h2 : parse_power A f (match_ q '^').2 with
            | none => simp [h2] at h
            | some r2 =>
              have s2 := hP _ r2 h2 k1
              cases r2 with
              | fail e =>
                simp only [h2, Option.some.injEq] at h
                rw [← h]; exact s2
              | ok exp q2 =>
                simp only [h2] at h
                split at h
                · simp only [Option.some.injEq] at h
                  rw [← h]; exact s2
                · simp only [Option.some.injEq] at h
                  rw [← h]; exact s2
          · simp only [m, if_false, Bool.false_eq_true, Option.some.injEq] at h
            rw [← h]; exact k1
    · intro ps r h hp
      rw [parse_unary] at h
      have k1 := match_inString mem ps '+' plus_ne_NUL hp
      have k2 := match_inString mem (match_ ps '+').2 '-' minus_ne_NUL k1
      by_cases m1 : (match_ ps '+').1 = true
      · simp only [m1, if_true] at h
        exact hU _ r h k1
      · simp only [m1, if_false, Bool.false_eq_true] at h
        by_cases m2 : (match_ (match_ ps '+').2 '-').1 = true
        · simp only [m2, if_true] at h
          cases h1 : parse_unary A f (match_ (match_ ps '+').2 '-').2 with
          | none => simp [h1] at h
          | some r1 =>
            have s1 := hU _ r1 h1 k2
            cases r1 with
            | fail e =>
              simp only [h1, Option.some.injEq] at h
              rw [← h]; exact s1
            | ok v q =>
              simp only [h1, Option.some.injEq] at h
              rw [← h]; exact s1
        · simp only [m2, if_false, Bool.false_eq_true] at h
          exact hPr _ r h k2
    · intro ps r h hp
      rw [parse_primary] at h
      have k1 := match_inString mem ps '(' lparen_ne_NUL hp
      by_cases m : (match_ ps '(').1 = true
      · simp only [m, if_true] at h
        cases h1 : parse_expr A f (match_ ps '(').2 with
        | none => simp [h1] at h
        | some r1 =>
          have s1 := hE _ r1 h1 k1
          cases r1 with
          | fail e =>
            simp only [h1, Option.some.injEq] at h
            rw [← h]; exact s1
          | ok v q =>
            simp only [h1] at h
            have k2 := match_inString mem q ')' rparen_ne_NUL s1
            by_cases m2 : (match_ q ')').1 = true
            · simp only [m2, if_true, Option.some.injEq] at h
              rw [← h]; exact k2
            · simp only [m2, if_false, Bool.false_eq_true, Option.some.injEq] at h
              rw [← h]; exact k2
      · simp only [m, if_false, Bool.false_eq_true, Option.some.injEq] at h
        rw [← h]; exact parse_number_inString A mem hstr _ k1

/-- Every call started inside the string returns inside the string. -/
theorem run_inString (A : Arith D) (mem : List Char)
    (hstr : ∀ k, k ≤ c_strlen mem → (A.strtod (mem.drop k)).consumed ≤ c_strlen mem - k)
    (c : Call D) (r : Res D) (h : c.run A = some r) (hp : InString mem c.state.p) :
    InString mem r.state.p := by
  cases c with
  | expr f ps => exact (inStringAt A mem hstr f).1 ps r h hp
  | expr_loop f v ps => exact (inStringAt A mem hstr f).2.1 v ps r h hp
  | term f ps => exact (inStringAt A mem hstr f).2.2.1 ps r h hp
  | term_loop f v ps => exact (inStringAt A mem hstr f).2.2.2.1 v ps r h hp
  | power f ps => exact (inStringAt A mem hstr f).2.2.2.2.1 ps r h hp
  | unary f ps => exact (inStringAt A mem hstr f).2.2.2.2.2.1 ps r h hp
  | primary f ps => exact (inStringAt A mem hstr f).2.2.2.2.2.2 ps r h hp

/-- The call a body comes to starts inside the string when the body does. -/
theorem calls_inString (A : Arith D) (mem : List Char)
    (hstr : ∀ k, k ≤ c_strlen mem → (A.strtod (mem.drop k)).consumed ≤ c_strlen mem - k)
    {c d : Call D} (h : Calls A c d) (hp : InString mem c.state.p) :
    InString mem d.state.p := by
  have hI := inStringAt A mem hstr
  cases h with
  | expr_term f ps => exact hp
  | expr_loop f ps v ps1 h1 => exact (hI f).2.2.1 ps _ h1 hp
  | loop_plus_term f v ps m1 => exact match_inString mem ps '+' plus_ne_NUL hp
  | loop_plus_next f v ps rhs ps2 m1 h1 =>
    exact (hI f).2.2.1 _ _ h1 (match_inString mem ps '+' plus_ne_NUL hp)
  | loop_minus_term f v ps m1 m2 =>
    exact match_inString mem _ '-' minus_ne_NUL (match_inString mem ps '+' plus_ne_NUL hp)
  | loop_minus_next f v ps rhs ps2 m1 m2 h1 =>
    exact (hI f).2.2.1 _ _ h1
      (match_inString mem _ '-' minus_ne_NUL (match_inString mem ps '+' plus_ne_NUL hp))
  | term_power f ps => exact hp
  | term_loop f ps v ps1 h1 => exact (hI f).2.2.2.2.1 ps _ h1 hp
  | loop_mul_power f v ps m1 => exact match_inString mem ps '*' star_ne_NUL hp
  | loop_mul_next f v ps rhs ps2 m1 h1 =>
    exact (hI f).2.2.2.2.1 _ _ h1 (match_inString mem ps '*' star_ne_NUL hp)
  | loop_div_power f v ps m1 m2 =>
    exact match_inString mem _ '/' slash_ne_NUL (match_inString mem ps '*' star_ne_NUL hp)
  | loop_div_next f v ps rhs ps2 m1 m2 h1 hz =>
    exact (hI f).2.2.2.2.1 _ _ h1
      (match_inString mem _ '/' slash_ne_NUL (match_inString mem ps '*' star_ne_NUL hp))
  | power_unary f ps => exact hp
  | power_power f ps base ps1 h1 m =>
    exact match_inString mem ps1 '^' caret_ne_NUL ((hI f).2.2.2.2.2.1 ps _ h1 hp)
  | unary_plus f ps m1 => exact match_inString mem ps '+' plus_ne_NUL hp
  | unary_minus f ps m1 m2 =>
    exact match_inString mem _ '-' minus_ne_NUL (match_inString mem ps '+' plus_ne_NUL hp)
  | unary_primary f ps m1 m2 =>
    exact match_inString mem _ '-' minus_ne_NUL (match_inString mem ps '+' plus_ne_NUL hp)
  | primary_expr f ps m => exact match_inString mem ps '(' lparen_ne_NUL hp

/-- Every call of the run on the memory `mem` starts inside the string. -/
theorem reaches_inString (A : Arith D) (mem : List Char)
    (hstr : ∀ k, k ≤ c_strlen mem → (A.strtod (mem.drop k)).consumed ≤ c_strlen mem - k)
    {c : Call D} (h : Reaches A mem c) : InString mem c.state.p := by
  unfold Reaches at h
  induction h with
  | refl => exact (inString_iff mem _).mpr ⟨0, Nat.zero_le _, rfl⟩
  | tail _ hstep ih => exact calls_inString A mem hstr hstep ih

end Parser
namespace Parser

variable {D : Type}

/-! ## `set_err` is called once in a failing run, and never in a successful one -/

theorem count_number_eq (A : Arith D) (ps : parser_t) :
    count_number A ps = match parse_number A ps with
      | .ok _ _ => 0
      | .fail _ => 1 := by
  simp only [count_number, parse_number]
  split
  · rfl
  · split <;> rfl

theorem countAt (A : Arith D) : ∀ f, CountAt A f := by
  intro f
  induction f with
  | zero =>
    refine ⟨?_, ?_, ?_, ?_, ?_, ?_, ?_⟩ <;> intros <;> simp_all [parse_expr, parse_expr_loop,
      parse_term, parse_term_loop, parse_power, parse_unary, parse_primary]
  | succ f ih =>
    obtain ⟨hE, hEL, hT, hTL, hP, hU, hPr⟩ := ih
    refine ⟨?_, ?_, ?_, ?_, ?_, ?_, ?_⟩
    · intro ps r h
      rw [parse_expr] at h
      rw [count_expr]
      cases h1 : parse_term A f ps with
      | none => simp [h1] at h
      | some r1 =>
        have c1 := hT ps r1 h1
        cases r1 with
        | fail e =>
          simp only [h1, Option.some.injEq] at h
          subst h
          simp only [c1, Nat.add_zero]
        | ok v q =>
          simp only [h1] at h
          simp only [c1, hEL v q r h, Nat.zero_add]
    · intro w ps r h
      rw [parse_expr_loop] at h
      rw [count_expr_loop]
      by_cases m1 : (match_ ps '+').1 = true
      · simp only [m1, if_true] at h ⊢
        cases h1 : parse_term A f (match_ ps '+').2 with
        | none => simp [h1] at h
        | some r1 =>
          have c1 := hT _ r1 h1
          cases r1 with
          | fail e =>
            simp only [h1, Option.some.injEq] at h
            subst h
            simp only [c1, Nat.add_zero]
          | ok rhs q =>
            simp only [h1] at h
            simp only [c1, hEL _ q r h, Nat.zero_add]
      · simp only [m1, if_false, Bool.false_eq_true] at h ⊢
        by_cases m2 : (match_ (match_ ps '+').2 '-').1 = true
        · simp only [m2, if_true] at h ⊢
          cases h1 : parse_term A f (match_ (match_ ps '+').2 '-').2 with
          | none => simp [h1] at h
          | some r1 =>
            have c1 := hT _ r1 h1
            cases r1 with
            | fail e =>
              simp only [h1, Option.some.injEq] at h
              subst h
              simp only [c1, Nat.add_zero]
            | ok rhs q =>
              simp only [h1] at h
              simp only [c1, hEL _ q r h, Nat.zero_add]
        · simp only [m2, if_false, Bool.false_eq_true, Option.some.injEq] at h ⊢
          subst h
          rfl
    · intro ps r h
      rw [parse_term] at h
      rw [count_term]
      cases h1 : parse_power A f ps with
      | none => simp [h1] at h
      | some r1 =>
        have c1 := hP ps r1 h1
        cases r1 with
        | fail e =>
          simp only [h1, Option.some.injEq] at h
          subst h
          simp only [c1, Nat.add_zero]
        | ok v q =>
          simp only [h1] at h
          simp only [c1, hTL v q r h, Nat.zero_add]
    · intro w ps r h
      rw [parse_term_loop] at h
      rw [count_term_loop]
      by_cases m1 : (match_ ps '*').1 = true
      · simp only [m1, if_true] at h ⊢
        cases h1 : parse_power A f (match_ ps '*').2 with
        | none => simp [h1] at h
        | some r1 =>
          have c1 := hP _ r1 h1
          cases r1 with
          | fail e =>
            simp only [h1, Option.some.injEq] at h
            subst h
            simp only [c1, Nat.add_zero]
          | ok rhs q =>
            simp only [h1] at h
            simp only [c1, hTL _ q r h, Nat.zero_add]
      · simp only [m1, if_false, Bool.false_eq_true] at h ⊢
        by_cases m2 : (match_ (match_ ps '*').2 '/').1 = true
        · simp only [m2, if_true] at h ⊢
          cases h1 : parse_power A f (match_ (match_ ps '*').2 '/').2 with
          | none => simp [h1] at h
          | some r1 =>
            have c1 := hP _ r1 h1
            cases r1 with
            | fail e =>
              simp only [h1, Option.some.injEq] at h
              subst h
              simp only [c1, Nat.add_zero]
            | ok rhs q =>
              simp only [h1] at h
              by_cases hz : A.is_zero rhs = true
              · simp only [hz, if_true, Option.some.injEq] at h ⊢
                subst h
                simp only [c1, Nat.zero_add]
              · simp only [hz, if_false, Bool.false_eq_true] at h ⊢
                simp only [c1, hTL _ q r h, Nat.zero_add]
        · simp only [m2, if_false, Bool.false_eq_true, Option.some.injEq] at h ⊢
          subst h
          rfl
    · intro ps r h
      rw [parse_power] at h
      rw [count_power]
      cases h1 : parse_unary A f ps with
      | none => simp [h1] at h
      | some r1 =>
        have c1 := hU ps r1 h1
        cases r1 with
        | fail e =>
          simp only [h1, Option.some.injEq] at h
          subst h
          simp only [c1, Nat.add_zero]
        | ok base q =>
          simp only [h1] at h
          simp only [c1, Nat.zero_add]
          by_cases m : (match_ q '^').1 = true
          · simp only [m, if_true] at h ⊢
            cases h2 : parse_power A f (match_ q '^').2 with
            | none => simp [h2] at h
            | some r2 =>
              have c2 := hP _ r2 h2
              cases r2 with
              | fail e =>
                simp only [h2, Option.some.injEq] at h
                subst h
                simp only [c2, Nat.add_zero]
              | ok exp q2 =>
                simp only [h2] at h
                simp only [c2, Nat.zero_add]
                by_cases hbad : (A.pow base exp).2 = true ∨ A.isfinite (A.pow base exp).1 = false
                · simp only [hbad, if_true, Option.some.injEq] at h ⊢
                  subst h
                  rfl
                · simp only [hbad, if_false, Option.some.injEq] at h ⊢
                  subst h
                  rfl
          · simp only [m, if_false, Bool.false_eq_true, Option.some.injEq] at h ⊢
            subst h
            rfl
    · intro ps r h
      rw [parse_unary] at h
      rw [count_unary]
      by_cases m1 : (match_ ps '+').1 = true
      · simp only [m1, if_true] at h ⊢
        exact hU _ r h
      · simp only [m1, if_false, Bool.false_eq_true] at h ⊢
        by_cases m2 : (match_ (match_ ps '+').2 '-').1 = true
        · simp only [m2, if_true] at h ⊢
          cases h1 : parse_unary A f (match_ (match_ ps '+').2 '-').2 with
          | none => simp [h1] at h
          | some r1 =>
            have c1 := hU _ r1 h1
            cases r1 with
            | fail e =>
              simp only [h1, Option.some.injEq] at h
              subst h
              exact c1
            | ok v q =>
              simp only [h1, Option.some.injEq] at h
              subst h
              exact c1
        · simp only [m2, if_false, Bool.false_eq_true] at h ⊢
          exact hPr _ r h
    · intro ps r h
      rw [parse_primary] at h
      rw [count_primary]
      by_cases m : (match_ ps '(').1 = true
      · simp only [m, if_true] at h ⊢
        cases h1 : parse_expr A f (match_ ps '(').2 with
        | none => simp [h1] at h
        | some r1 =>
          have c1 := hE _ r1 h1
          cases r1 with
          | fail e =>
            simp only [h1, Option.some.injEq] at h
            subst h
            simp only [c1, Nat.add_zero]
          | ok v q =>
            simp only [h1] at h
            simp only [c1, Nat.zero_add]
            by_cases m2 : (match_ q ')').1 = true
            · simp only [m2, if_true, Option.some.injEq] at h ⊢
              subst h
              rfl
            · simp only [m2, if_false, Bool.false_eq_true, Option.some.injEq] at h ⊢
              subst h
              rfl
      · simp only [m, if_false, Bool.false_eq_true, Option.some.injEq] at h ⊢
        subst h
        exact count_number_eq A _

theorem RaisedFrom.of_same {ps ps1 e : parser_t} (h : RaisedFrom ps1 e)
    (hs : SameErr ps1 ps) : RaisedFrom ps e := by
  obtain ⟨q, reason, hq, hr, he⟩ := h
  exact ⟨q, reason, hq.trans hs, hr, he⟩

theorem RaisedFrom.raise {ps q : parser_t} (reason : String) (hq : SameErr q ps)
    (hr : reason ∈ reasons) : RaisedFrom ps (set_err q reason) :=
  ⟨q, reason, hq, hr, rfl⟩

theorem parse_number_raised (A : Arith D) (ps e : parser_t)
    (h : parse_number A ps = .fail e) : RaisedFrom ps e := by
  simp only [parse_number] at h
  split at h
  · cases h
    exact RaisedFrom.raise _ ⟨rfl, rfl⟩ (by decide)
  · split at h
    · cases h
      exact RaisedFrom.raise _ ⟨rfl, rfl⟩ (by decide)
    · cases h

theorem raiseAt (A : Arith D) : ∀ f, RaiseAt A f := by
  intro f
  induction f with
  | zero =>
    refine ⟨?_, ?_, ?_, ?_, ?_, ?_, ?_⟩ <;> intros <;> simp_all [parse_expr, parse_expr_loop,
      parse_term, parse_term_loop, parse_power, parse_unary, parse_primary]
  | succ f ih =>
    obtain ⟨hE, hEL, hT, hTL, hP, hU, hPr⟩ := ih
    obtain ⟨kE, kEL, kT, kTL, kP, kU, kPr⟩ := keepAt A f
    refine ⟨?_, ?_, ?_, ?_, ?_, ?_, ?_⟩
    · intro ps e h
      rw [parse_expr] at h
      cases h1 : parse_term A f ps with
      | none => simp [h1] at h
      | some r1 =>
        cases r1 with
        | fail e1 =>
          simp only [h1, Option.some.injEq, Res.fail.injEq] at h
          subst h
          exact hT ps _ h1
        | ok v q =>
          simp only [h1] at h
          exact (hEL v q e h).of_same (kT ps v q h1)
    · intro w ps e h
      rw [parse_expr_loop] at h
      have s1 := match_sameErr ps '+'
      have s2 := match_sameErr (match_ ps '+').2 '-'
      by_cases m1 : (match_ ps '+').1 = true
      · simp only [m1, if_true] at h
        cases h1 : parse_term A f (match_ ps '+').2 with
        | none => simp [h1] at h
        | some r1 =>
          cases r1 with
          | fail e1 =>
            simp only [h1, Option.some.injEq, Res.fail.injEq] at h
            subst h
            exact (hT _ _ h1).of_same s1
          | ok rhs q =>
            simp only [h1] at h
            exact ((hEL _ q e h).of_same (kT _ rhs q h1)).of_same s1
      · simp only [m1, if_false, Bool.false_eq_true] at h
        by_cases m2 : (match_ (match_ ps '+').2 '-').1 = true
        · simp only [m2, if_true] at h
          cases h1 : parse_term A f (match_ (match_ ps '+').2 '-').2 with
          | none => simp [h1] at h
          | some r1 =>
            cases r1 with
            | fail e1 =>
              simp only [h1, Option.some.injEq, Res.fail.injEq] at h
              subst h
              exact ((hT _ _ h1).of_same s2).of_same s1
            | ok rhs q =>
              simp only [h1] at h
              exact (((hEL _ q e h).of_same (kT _ rhs q h1)).of_same s2).of_same s1
        · simp [m2] at h
    · intro ps e h
      rw [parse_term] at h
      cases h1 : parse_power A f ps with
      | none => simp [h1] at h
      | some r1 =>
        cases r1 with
        | fail e1 =>
          simp only [h1, Option.some.injEq, Res.fail.injEq] at h
          subst h
          exact hP ps _ h1
        | ok v q =>
          simp only [h1] at h
          exact (hTL v q e h).of_same (kP ps v q h1)
    · intro w ps e h
      rw [parse_term_loop] at h
      have s1 := match_sameErr ps '*'
      have s2 := match_sameErr (match_ ps '*').2 '/'
      by_cases m1 : (match_ ps '*').1 = true
      · simp only [m1, if_true] at h
        cases h1 : parse_power A f (match_ ps '*').2 with
        | none => simp [h1] at h
        | some r1 =>
          cases r1 with
          | fail e1 =>
            simp only [h1, Option.some.injEq, Res.fail.injEq] at h
            subst h
            exact (hP _ _ h1).of_same s1
          | ok rhs q =>
            simp only [h1] at h
            exact ((hTL _ q e h).of_same (kP _ rhs q h1)).of_same s1
      · simp only [m1, if_false, Bool.false_eq_true] at h
        by_cases m2 : (match_ (match_ ps '*').2 '/').1 = true
        · simp only [m2, if_true] at h
          cases h1 : parse_power A f (match_ (match_ ps '*').2 '/').2 with
          | none => simp [h1] at h
          | some r1 =>
            cases r1 with
            | fail e1 =>
              simp only [h1, Option.some.injEq, Res.fail.injEq] at h
              subst h
              exact ((hP _ _ h1).of_same s2).of_same s1
            | ok rhs q =>
              simp only [h1] at h
              have kq := ((kP _ rhs q h1).trans s2).trans s1
              by_cases hz : A.is_zero rhs = true
              · simp only [hz, if_true, Option.some.injEq, Res.fail.injEq] at h
                subst h
                exact RaisedFrom.raise _ kq (by decide)
              · simp only [hz, if_false, Bool.false_eq_true] at h
                exact (hTL _ q e h).of_same kq
        · simp [m2] at h
    · intro ps e h
      rw [parse_power] at h
      cases h1 : parse_unary A f ps with
      | none => simp [h1] at h
      | some r1 =>
        cases r1 with
        | fail e1 =>
          simp only [h1, Option.some.injEq, Res.fail.injEq] at h
          subst h
          exact hU ps _ h1
        | ok base q =>
          simp only [h1] at h
          have k1 := kU ps base q h1
          have s1 := match_sameErr q '^'
          by_cases m : (match_ q '^').1 = true
          · simp only [m, if_true] at h
            cases h2 : parse_power A f (match_ q '^').2 with
            | none => simp [h2] at h
            | some r2 =>
              cases r2 with
              | fail e1 =>
                simp only [h2, Option.some.injEq, Res.fail.injEq] at h
                subst h
                exact ((hP _ _ h2).of_same s1).of_same k1
              | ok exp q2 =>
                simp only [h2] at h
                split at h
                · simp only [Option.some.injEq, Res.fail.injEq] at h
                  subst h
                  exact RaisedFrom.raise _ (((kP _ exp q2 h2).trans s1).trans k1) (by decide)
                · simp at h
          · simp [m] at h
    · intro ps e h
      rw [parse_unary] at h
      have s1 := match_sameErr ps '+'
      have s2 := match_sameErr (match_ ps '+').2 '-'
      by_cases m1 : (match_ ps '+').1 = true
      · simp only [m1, if_true] at h
        exact (hU _ e h).of_same s1
      · simp only [m1, if_false, Bool.false_eq_true] at h
        by_cases m2 : (match_ (match_ ps '+').2 '-').1 = true
        · simp only [m2, if_true] at h
          cases h1 : parse_unary A f (match_ (match_ ps '+').2 '-').2 with
          | none => simp [h1] at h
          | some r1 =>
            cases r1 with
            | fail e1 =>
              simp only [h1, Option.some.injEq, Res.fail.injEq] at h
              subst h
              exact ((hU _ _ h1).of_same s2).of_same s1
            | ok v q => simp [h1] at h
        · simp only [m2, if_false, Bool.false_eq_true] at h
          exact ((hPr _ e h).of_same s2).of_same s1
    · intro ps e h
      rw [parse_primary] at h
      have s1 := match_sameErr ps '('
      by_cases m : (match_ ps '(').1 = true
      · simp only [m, if_true] at h
        cases h1 : parse_expr A f (match_ ps '(').2 with
        | none => simp [h1] at h
        | some r1 =>
          cases r1 with
          | fail e1 =>
            simp only [h1, Option.some.injEq, Res.fail.injEq] at h
            subst h
            exact (hE _ _ h1).of_same s1
          | ok v q =>
            simp only [h1] at h
            by_cases m2 : (match_ q ')').1 = true
            · simp [m2] at h
            · simp only [m2, if_false, Bool.false_eq_true, Option.some.injEq,
                Res.fail.injEq] at h
              subst h
              exact RaisedFrom.raise _
                (((match_sameErr q ')').trans (kE _ v q h1)).trans s1) (by decide)
      · simp only [m, if_false, Bool.false_eq_true, Option.some.injEq] at h
        exact (parse_number_raised A _ e h).of_same s1

/-- The three forms of the text `near`. -/
theorem near_text_cases (p : List Char) :
    (cur p = NUL → near_text p = "end")
    ∧ (cur p ≠ NUL → isprint (cur p) = true → near_text p = String.singleton (cur p))
    ∧ (cur p ≠ NUL → isprint (cur p) = false →
      near_text p = "byte 0x" ++ String.mk [hexDigit ((cur p).toNat % 256 / 16),
        hexDigit ((cur p).toNat % 256 % 16)]) := by
  refine ⟨near_text_end p, ?_, ?_⟩
  · intro h1 h2
    unfold near_text
    rw [if_neg h1, if_pos h2, snprintf_fits _ _ (by simp)]
  · intro h1 h2
    unfold near_text
    rw [if_neg h1, if_neg (by simp [h2]),
      snprintf_fits _ _ (by simp [String.length_append]; decide)]

/-- No reason of the parser is the fallback reason. -/
theorem reasons_ne_fallback : ∀ r ∈ reasons, r ≠ "parse error" ∧ r ≠ "" ∧ r.length < 128 := by
  decide

end Parser
namespace Server

open Proto Parser

variable {D : Type}

/-! ## The connection loop -/

theorem snprintf_data (n : Nat) (s : String) : (snprintf n s).data = s.data.take (n - 1) := rfl

/-- A text without NUL that fits the buffer is sent whole. -/
theorem payload_of_fits (bufsz : Nat) (s : String) (hlen : s.length < bufsz)
    (hnul : ∀ c ∈ s.data, c ≠ NUL) :
    payload_of (snprintf bufsz s) = s.data.map to_byte := by
  rw [snprintf_fits bufsz s hlen]
  have htw : s.data.takeWhile (fun c => decide (c ≠ NUL)) = s.data := by
    rw [List.takeWhile_eq_self_iff]
    intro c hc
    simpa using hnul c hc
  unfold payload_of strlen
  rw [htw, List.take_length]

/-- The text of a response always starts with a character that is not NUL, so
that its `strlen` is positive. -/
theorem strlen_snprintf_pos (s : String) (c : Char) (cs : List Char) (hs : s.data = c :: cs)
    (hc : c ≠ NUL) : 0 < strlen (snprintf 512 s) := by
  unfold strlen
  rw [snprintf_data, hs]
  simp [List.takeWhile, hc]

theorem respond_returns (A : Arith D) (L : Libc D) (expr : List Byte) :
    ∃ out, respond A L expr = some out ∧ 0 < strlen out := by
  obtain ⟨r, hr⟩ := parse_eval_returns A (c_str expr) 256
  unfold respond
  rw [hr]
  simp only
  split
  · refine ⟨_, rfl, ?_⟩
    unfold format_ok
    exact strlen_snprintf_pos _ 'O' _ (by simp [String.data_append]; rfl) (by decide)
  · refine ⟨_, rfl, ?_⟩
    unfold format_err
    exact strlen_snprintf_pos _ 'E' _ (by simp [String.data_append]; rfl) (by decide)

theorem payload_of_ne_nil (out : String) (h : 0 < strlen out) : payload_of out ≠ [] := by
  unfold payload_of
  intro hnil
  have hl : ((out.data.take (strlen out)).map to_byte).length = 0 := by rw [hnil]; rfl
  have hle : strlen out ≤ out.data.length := by
    unfold strlen
    exact (List.takeWhile_sublist _).length_le
  simp only [List.length_map, List.length_take] at hl
  omega

/-! ## The messages of `parse_eval` hold no NUL -/

theorem NulFree.append {s t : String} (hs : NulFree s) (ht : NulFree t) : NulFree (s ++ t) := by
  intro c hc
  rw [String.data_append, List.mem_append] at hc
  cases hc with
  | inl h => exact hs c h
  | inr h => exact ht c h

theorem NulFree.snprintf {s : String} (n : Nat) (hs : NulFree s) : NulFree (snprintf n s) := by
  intro c hc
  rw [snprintf_data] at hc
  exact hs c (List.mem_of_mem_take hc)

theorem hexDigit_ne_NUL (n : Nat) (h : n < 16) : hexDigit n ≠ NUL := by
  interval_cases n <;> decide

theorem near_text_nulFree (p : List Char) : NulFree (near_text p) := by
  obtain ⟨n1, n2, n3⟩ := near_text_cases p
  by_cases h1 : cur p = NUL
  · rw [n1 h1]; decide
  · by_cases h2 : isprint (cur p) = true
    · rw [n2 h1 h2]
      intro c hc
      simp only [String.singleton, String.data_push, List.mem_append] at hc
      simp at hc
      rw [hc]; exact h1
    · rw [n3 h1 (by simpa using h2)]
      apply NulFree.append (by decide)
      intro c hc
      simp only [List.mem_cons, List.mem_singleton, List.not_mem_nil, or_false] at hc
      cases hc with
      | inl h => rw [h]; exact hexDigit_ne_NUL _ (by omega)
      | inr h => rw [h]; exact hexDigit_ne_NUL _ (by omega)

theorem reasons_nulFree : ∀ r ∈ reasons, NulFree r := by
  decide

/-- Every message that `parse_eval` writes is free of NUL, shorter than the
buffer and, in a buffer of at least two bytes, not empty; and a message is
written exactly when the status is `PARSE_ERR` and there is a buffer. -/
theorem parse_eval_message (A : Arith D) (input : List Char) (sz : Nat) (r : EvalResult D)
    (h : parse_eval A input sz = some r) :
    (r.status = .PARSE_OK → r.errbuf = none ∧ ∃ v, r.out_value = some v)
    ∧ (r.status = .PARSE_ERR → 0 < sz → ∃ m, r.errbuf = some m ∧ NulFree m ∧ m.length < sz
        ∧ (2 ≤ sz → m ≠ "")) := by
  have hlen : ∀ t : String, 0 < sz → (snprintf sz t).length < sz := by
    intro t hsz
    show (t.data.take (sz - 1)).length < sz
    rw [List.length_take]
    omega
  have hne : ∀ t : String, t.data ≠ [] → 2 ≤ sz → snprintf sz t ≠ "" := by
    intro t ht hsz hempty
    have h0 : (snprintf sz t).data = [] := by rw [hempty]
    rw [snprintf_data] at h0
    obtain ⟨k, hk⟩ : ∃ k, sz - 1 = k + 1 := ⟨sz - 2, by omega⟩
    obtain ⟨c, cs, hcs⟩ := List.exists_cons_of_ne_nil ht
    rw [hk, hcs] at h0
    exact List.cons_ne_nil _ _ h0
  simp only [parse_eval] at h
  cases h1 : parse_expr A (eval_fuel input) { p := input, err_at := none, err_msg := "" } with
  | none => simp [h1] at h
  | some r1 =>
    cases r1 with
    | fail e =>
      simp only [h1, Option.some.injEq] at h
      subst h
      refine ⟨fun hs => by simp at hs, fun _ hsz => ?_⟩
      obtain ⟨q, reason, _, hr, he⟩ := (raiseAt A _).1 _ _ h1
      obtain ⟨r1, r2, r3⟩ := reasons_ne_fallback reason hr
      have hmsg : e.err_msg = reason := by
        rw [he]; exact snprintf_fits 128 reason r3
      rw [if_pos hsz]
      refine ⟨_, rfl, ?_, hlen _ hsz, ?_⟩
      · apply NulFree.snprintf
        rw [hmsg, if_pos r2]
        exact ((((reasons_nulFree reason hr).append (by decide)).append
          (near_text_nulFree _)).append (by decide))
      · intro h2
        rw [hmsg, if_pos r2]
        have hdata : reason.data ≠ [] := by
          intro hd
          apply r2
          cases reason
          simp_all
        exact hne _ (by simp [String.data_append, hdata]) h2
    | ok v ps1 =>
      simp only [h1, skip_ws_p, ne_eq, ite_not] at h
      by_cases hend : cur (skip_ws_from ps1.p) = NUL
      · rw [if_pos hend] at h
        simp only [Option.some.injEq] at h
        subst h
        exact ⟨fun _ => ⟨rfl, v, rfl⟩, fun hs => by simp at hs⟩
      · rw [if_neg hend] at h
        simp only [Option.some.injEq] at h
        subst h
        refine ⟨fun hs => by simp at hs, fun _ hsz => ?_⟩
        rw [if_pos hsz]
        refine ⟨_, rfl, ?_, hlen _ hsz, fun h2 => hne _ (by
          simp [String.data_append]) h2⟩
        apply NulFree.snprintf
        apply NulFree.append _ (by decide)
        apply NulFree.append (by decide)
        intro c hc
        simp only [String.singleton, String.data_push, List.mem_append] at hc
        simp at hc
        rw [hc]
        split
        · exact hend
        · decide

/-! ## One iteration of the loop -/

theorem strlen_le (out : String) : strlen out ≤ out.data.length := by
  unfold strlen
  exact (List.takeWhile_sublist _).length_le

theorem payload_of_length (out : String) : (payload_of out).length = strlen out := by
  unfold payload_of
  have := strlen_le out
  simp only [List.length_map, List.length_take]
  omega

/-- A kernel that takes the header in one call and the payload in the next
lets `send_frame` succeed, and the two events are used up. -/
theorem send_frame_two (a b : Nat) (ss : List SendEvent) (data : List Byte) (len : Nat)
    (ha : 4 ≤ a) (hb : len ≤ b) (hpos : 0 < len) (hlen : len ≤ data.length) :
    send_frame (.accept a :: .accept b :: ss) data len
      = some (0, htonl len ++ data.take len, ss) := by
  have hl : (List.take len data).length = len := by simp [hlen]
  have h1 : ¬ ((len : Int) ≤ 0) := by omega
  have h2 : ¬ (len < len) := by omega
  have h3 : ¬ ((len : Int) < 0) := by omega
  have h4 : min b len = len := by omega
  have h5 : min a 4 = 4 := by omega
  have h6 : ∀ x y z w : Byte, List.take a [x, y, z, w] = [x, y, z, w] :=
    fun x y z w => List.take_of_length_le (by simpa using ha)
  simp [send_frame, write_exact, write_exact_loop, send, htonl, hpos, hl, h1, h2, h3, h4, h5, h6,
    List.take_take]

/-- The text of a response is at most 511 characters long. -/
theorem respond_length (A : Arith D) (L : Libc D) (expr : List Byte) (out : String)
    (h : respond A L expr = some out) : out.data.length ≤ 511 := by
  unfold respond at h
  cases hr : parse_eval A (c_str expr) 256 with
  | none => simp [hr] at h
  | some r =>
    simp only [hr] at h
    split at h
    · simp only [Option.some.injEq] at h
      rw [← h, format_ok, snprintf_data, List.length_take]
      omega
    · simp only [Option.some.injEq] at h
      rw [← h, format_err, snprintf_data, List.length_take]
      omega

/-- A willing kernel sends the response of one iteration as one frame. -/
theorem send_frame_response (out : String) (ss : List SendEvent) (hpos : 0 < strlen out)
    (hlen : out.data.length ≤ 511) :
    send_frame (.accept 512 :: .accept 512 :: ss) (out.data.map to_byte) (strlen out)
      = some (0, frame (payload_of out), ss) := by
  have hle := strlen_le out
  rw [send_frame_two 512 512 ss _ _ (by omega) (by omega) hpos (by simpa using hle)]
  rw [frame, payload_of_length]
  simp [payload_of, List.map_take]

/-- A failed `recv_frame` ends the loop. -/
theorem client_loop_recv_failed (A : Arith D) (L : Libc D) (m : Bool) (fuel : Nat)
    (es es1 : List RecvEvent) (ss : List SendEvent) (served : List (List Byte × List Byte))
    (sent : List Byte) (fr : FrameResult) (hr : recv_frame true m es = some (fr, es1))
    (hret : fr.ret < 0) :
    client_loop A L m (fuel + 1) es ss served sent
      = some ⟨served, sent, .recv_failed, es1, ss⟩ := by
  simp [client_loop, hr, hret]

/-- After a successful `recv_frame` the loop sends the response of the request
once; it ends if that `send_frame` fails and reads the next request if not. -/
theorem client_loop_step (A : Arith D) (L : Libc D) (m : Bool) (fuel : Nat)
    (es es1 : List RecvEvent) (ss ss1 : List SendEvent)
    (served : List (List Byte × List Byte)) (sent bytes : List Byte) (fr : FrameResult)
    (out : String) (w : Int) (hr : recv_frame true m es = some (fr, es1)) (hret : ¬ fr.ret < 0)
    (ho : respond A L (fr.out_buf.getD []) = some out)
    (hs : send_frame ss (out.data.map to_byte) (strlen out) = some (w, bytes, ss1)) :
    client_loop A L m (fuel + 1) es ss served sent
      = if w < 0 then some ⟨served, sent ++ bytes, .send_failed, es1, ss1⟩
        else client_loop A L m fuel es1 ss1
          (served ++ [((fr.out_buf.getD []).take (fr.out_len.getD 0), payload_of out)])
          (sent ++ bytes) := by
  simp [client_loop, hr, hret, ho, hs]

theorem willing_succ (n : Nat) :
    willing (n + 1) = .accept 512 :: .accept 512 :: willing n := by
  unfold willing
  rw [show 2 * (n + 1) = (2 * n + 1) + 1 by ring, List.replicate_succ, List.replicate_succ]

theorem frame_length (p : List Byte) : (frame p).length = 4 + p.length := by
  simp [frame, htonl]
  omega

/-- A complete well-formed frame at the head of the stream is received as its
payload followed by a NUL. -/
theorem recv_frame_of_frame (p rest : List Byte) (es : List RecvEvent) (h1 : 1 ≤ p.length)
    (h2 : p.length ≤ PROTO_MAX_FRAME) (hw : wire es = frame p ++ rest) :
    ∃ es1, recv_frame true true es = some (⟨0, some (p ++ [0]), some p.length⟩, es1)
      ∧ wire es1 = rest := by
  have hmax : p.length < 2 ^ 32 := by unfold PROTO_MAX_FRAME at h2; omega
  have hlen : (wire es).length = 4 + p.length + rest.length := by
    rw [hw, List.length_append, frame_length]
  have ht4 : (wire es).take 4 = htonl p.length := by
    rw [hw, frame, List.append_assoc, List.take_left' (htonl_length _)]
  have hd4 : ((wire es).drop 4).take p.length = p := by
    rw [hw, frame, List.append_assoc, List.drop_left' (htonl_length _), List.take_left' rfl]
  obtain ⟨es1, hr, hw1⟩ := recv_frame_ok es p.length (by omega)
    (by rw [ht4]; exact ntohl_htonl _ hmax) h1 h2 (by omega)
  rw [hd4] at hr
  exact ⟨es1, hr, by rw [hw1, hw, List.drop_left' (by rw [frame_length])]⟩

/-- The loop answers a complete well-formed frame at the head of the stream
and goes on with the rest of the stream. -/
theorem client_loop_one (A : Arith D) (L : Libc D) (p rest : List Byte) (fuel : Nat)
    (es : List RecvEvent) (ss : List SendEvent) (served : List (List Byte × List Byte))
    (sent : List Byte) (h1 : 1 ≤ p.length) (h2 : p.length ≤ PROTO_MAX_FRAME)
    (hw : wire es = frame p ++ rest) :
    ∃ es1 out, wire es1 = rest ∧ respond A L (p ++ [0]) = some out
      ∧ client_loop A L true (fuel + 1) es (.accept 512 :: .accept 512 :: ss) served sent
        = client_loop A L true fuel es1 ss (served ++ [(p, payload_of out)])
            (sent ++ frame (payload_of out)) := by
  obtain ⟨es1, hr, hw1⟩ := recv_frame_of_frame p rest es h1 h2 hw
  obtain ⟨out, ho, hpos⟩ := respond_returns A L (p ++ [0])
  refine ⟨es1, out, hw1, ho, ?_⟩
  rw [client_loop_step A L true fuel es es1 _ ss served sent _ _ out 0 hr (by simp)
    (by simpa using ho)
    (send_frame_response out ss hpos (respond_length A L _ out ho))]
  simp

/-- The loop answers each of a run of complete well-formed frames in turn,
one response frame for each, and goes on with the rest of the stream. -/
theorem client_loop_serves (A : Arith D) (L : Libc D) (rest : List Byte) (fuel : Nat)
    (ss : List SendEvent) :
    ∀ (reqs : List (List Byte)) (es : List RecvEvent) (served : List (List Byte × List Byte))
      (sent : List Byte), (∀ p ∈ reqs, 1 ≤ p.length ∧ p.length ≤ PROTO_MAX_FRAME) →
      wire es = reqs.flatMap frame ++ rest →
      ∃ es1 outs, wire es1 = rest
        ∧ List.Forall₂ (fun p out => respond A L (p ++ [0]) = some out) reqs outs
        ∧ client_loop A L true (fuel + reqs.length) es (willing reqs.length ++ ss) served sent
          = client_loop A L true fuel es1 ss (served ++ reqs.zip (outs.map payload_of))
              (sent ++ outs.flatMap (fun out => frame (payload_of out))) := by
  intro reqs
  induction reqs with
  | nil =>
    intro es served sent _ hw
    exact ⟨es, [], by simpa using hw, List.Forall₂.nil, by simp [willing]⟩
  | cons p ps ih =>
    intro es served sent hreq hw
    obtain ⟨h1, h2⟩ := hreq p (List.mem_cons_self _ _)
    rw [List.flatMap_cons, List.append_assoc] at hw
    obtain ⟨es1, out, hw1, ho, hstep⟩ := client_loop_one A L p _ (fuel + ps.length) es
      (willing ps.length ++ ss) served sent h1 h2 hw
    obtain ⟨es2, outs, hw2, hall, hrest⟩ := ih es1 (served ++ [(p, payload_of out)])
      (sent ++ frame (payload_of out)) (fun q hq => hreq q (List.mem_cons_of_mem _ hq)) hw1
    refine ⟨es2, out :: outs, hw2, List.Forall₂.cons ho hall, ?_⟩
    rw [List.length_cons, willing_succ, ← Nat.add_assoc, List.cons_append, List.cons_append,
      hstep, hrest]
    simp [List.flatMap_cons]

theorem flatMap_frame_length (reqs : List (List Byte)) :
    reqs.length ≤ (reqs.flatMap frame).length := by
  induction reqs with
  | nil => simp
  | cons p ps ih =>
    rw [List.flatMap_cons, List.length_append, frame_length, List.length_cons]
    omega

/-- The payload of the response to a request: `OK`, the value and a newline
when the evaluation succeeds, and `ERR`, the message of `parse_eval` and a
newline when it fails. -/
theorem respond_payload (A : Arith D) (L : Libc D) (expr : List Byte) :
    ∃ r out, parse_eval A (c_str expr) 256 = some r ∧ respond A L expr = some out
      ∧ payload_of out ≠ []
      ∧ (r.status = .PARSE_OK → ∃ v, r.out_value = some v
          ∧ out = snprintf 512 ("OK " ++ L.g15 v ++ "\n")
          ∧ (NulFree (L.g15 v) → (L.g15 v).length < 500 →
              payload_of out = ("OK " ++ L.g15 v ++ "\n").data.map to_byte))
      ∧ (r.status = .PARSE_ERR → ∃ m, r.errbuf = some m
          ∧ payload_of out = ("ERR " ++ m ++ "\n").data.map to_byte) := by
  obtain ⟨r, hr⟩ := parse_eval_returns A (c_str expr) 256
  obtain ⟨out, ho, hpos⟩ := respond_returns A L expr
  obtain ⟨hok, herr⟩ := parse_eval_message A _ _ r hr
  refine ⟨r, out, hr, ho, payload_of_ne_nil out hpos, ?_, ?_⟩
  · intro hst
    obtain ⟨_, v, hv⟩ := hok hst
    have hout : out = snprintf 512 ("OK " ++ L.g15 v ++ "\n") := by
      simp [respond, hr, hst, hv, format_ok] at ho
      exact ho.symm
    refine ⟨v, hv, hout, fun hn hl => ?_⟩
    rw [hout]
    apply payload_of_fits
    · simp only [String.length_append]
      have h3 : "OK ".length = 3 := rfl
      have h1 : "\n".length = 1 := rfl
      omega
    · exact ((show NulFree "OK " by decide).append hn).append (by decide)
  · intro hst
    obtain ⟨m, hm, hn, hl, hne⟩ := herr hst (by decide)
    have hout : out = snprintf 512 ("ERR " ++ m ++ "\n") := by
      simp [respond, hr, hst, hm, format_err, hne (by decide)] at ho
      exact ho.symm
    refine ⟨m, hm, ?_⟩
    rw [hout]
    apply payload_of_fits
    · simp only [String.length_append]
      have h4 : "ERR ".length = 4 := rfl
      have h1 : "\n".length = 1 := rfl
      omega
    · exact ((show NulFree "ERR " by decide).append hn).append (by decide)

/-- A `send_frame` of a response that does not fail has put the frame of the
response on the wire. -/
theorem send_frame_response_out (out : String) (ss ss1 : List SendEvent) (w : Int)
    (bytes : List Byte)
    (h : send_frame ss (out.data.map to_byte) (strlen out) = some (w, bytes, ss1))
    (hw : 0 ≤ w) : bytes = frame (payload_of out) := by
  have hle := strlen_le out
  obtain ⟨_, hb⟩ := send_frame_out ss _ _ w bytes ss1 (by simpa using hle) h hw
  rw [hb, frame, payload_of_length]
  simp [payload_of, List.map_take]

/-! ## The request as a C string -/

end Server
namespace Parser

variable {D : Type}

/-! ## Related cursors give related runs -/

theorem isspace_ne_NUL {c : Char} (h : isspace c = true) : c ≠ NUL := by
  intro hc
  subst hc
  revert h
  decide

theorem match_false (ps : parser_t) (c : Char) (h : (match_ ps c).1 = false) :
    (match_ ps c).2 = skip_ws ps ∧ cur (skip_ws_from ps.p) ≠ c := by
  by_cases hc : cur (skip_ws_from ps.p) = c
  · simp [match_, skip_ws, hc] at h
  · simp [match_, skip_ws, hc]

theorem ResSim.none {R : List Char → List Char → Prop} :
    ResSim R (Option.none : Option (Res D)) Option.none := Or.inl ⟨rfl, rfl⟩

theorem ResSim.fail {R : List Char → List Char → Prop} {e e1 : parser_t} (h : FailSim e e1) :
    ResSim R (some (Res.fail e : Res D)) (some (Res.fail e1)) :=
  Or.inr (Or.inl ⟨e, e1, rfl, rfl, h⟩)

theorem ResSim.ok {R : List Char → List Char → Prop} {q q1 : parser_t} (v : D)
    (h : StSim R q q1) : ResSim R (some (Res.ok v q)) (some (Res.ok v q1)) :=
  Or.inr (Or.inr ⟨v, q, q1, rfl, rfl, h⟩)

theorem match_sim {A : Arith D} {R : List Char → List Char → Prop} (hS : CursorSim A R)
    {ps ps1 : parser_t} (c : Char) (hc : c ∈ ops) (h : StSim R ps ps1) :
    (match_ ps1 c).1 = (match_ ps c).1 ∧ StSim R (match_ ps c).2 (match_ ps1 c).2 := by
  obtain ⟨hR, h1, h2, h3⟩ := h
  have hw := hS.ws _ _ hR
  have hh := hS.head _ _ hw (skip_ws_from_idem _) (skip_ws_from_idem _)
  by_cases hcur : cur (skip_ws_from ps.p) = c
  · have hcur1 : cur (skip_ws_from ps1.p) = c := by rw [hh, hcur]
    have ht := hS.tail _ _ hw (skip_ws_from_idem _) (skip_ws_from_idem _)
      (by rw [hcur]; exact hc)
    simp only [match_, skip_ws, hcur, hcur1, if_true]
    exact ⟨trivial, ht, h1, h2, h3⟩
  · have hcur1 : cur (skip_ws_from ps1.p) ≠ c := by rw [hh]; exact hcur
    simp only [match_, skip_ws, hcur, hcur1, if_false]
    exact ⟨trivial, hw, h1, h2, h3⟩

theorem set_err_sim {R : List Char → List Char → Prop} {q q1 : parser_t} (reason : String)
    (h : StSim R q q1) (hc : cur q1.p = cur q.p) :
    FailSim (set_err q reason) (set_err q1 reason) := by
  obtain ⟨_, h1, h2, _⟩ := h
  simp [FailSim, set_err, err_pos, h1, h2, hc]

/-- Both states after `skip_ws` show the same character. -/
theorem stSim_cur {A : Arith D} {R : List Char → List Char → Prop} (hS : CursorSim A R)
    {q q1 : parser_t} (h : StSim R q q1) :
    cur (skip_ws_from q1.p) = cur (skip_ws_from q.p) :=
  hS.head _ _ (hS.ws _ _ h.1) (skip_ws_from_idem _) (skip_ws_from_idem _)

theorem number_sim {A : Arith D} {R : List Char → List Char → Prop} (hS : CursorSim A R)
    {ps ps1 : parser_t} (h : StSim R ps ps1) (n1 : cur (skip_ws_from ps.p) ≠ '+')
    (n2 : cur (skip_ws_from ps.p) ≠ '-') (n3 : cur (skip_ws_from ps.p) ≠ '(') :
    ResSim R (some (parse_number A ps)) (some (parse_number A ps1)) := by
  have hh := stSim_cur hS h
  obtain ⟨hR, h1, h2, h3⟩ := h
  have hw := hS.ws _ _ hR
  obtain ⟨hs, hd⟩ := hS.number _ _ hw (skip_ws_from_idem _) (skip_ws_from_idem _) n1 n2 n3
  have hst : StSim R (skip_ws ps) (skip_ws ps1) := ⟨hw, h1, h2, h3⟩
  simp only [parse_number, skip_ws_p, hs]
  by_cases c0 : (A.strtod (skip_ws_from ps.p)).consumed = 0
  · simp only [c0, if_true]
    exact ResSim.fail (set_err_sim _ hst hh)
  · simp only [c0, if_false]
    by_cases c1 : (A.strtod (skip_ws_from ps.p)).erange = true
        ∨ A.isfinite (A.strtod (skip_ws_from ps.p)).value = false
    · simp only [c1, if_true]
      exact ResSim.fail (set_err_sim _ hst hh)
    · simp only [c1, if_false]
      exact ResSim.ok _ ⟨hd, h1, h2, h3⟩

/-- A `parse_power` that returns 1 has left the cursor behind the white
space: its last step is a `match` that misses. -/
theorem parse_power_normal (A : Arith D) :
    ∀ f ps v q, parse_power A f ps = some (.ok v q) → skip_ws_from q.p = q.p := by
  intro f
  induction f with
  | zero => intro ps v q h; simp [parse_power] at h
  | succ f ih =>
    intro ps v q h
    rw [parse_power] at h
    cases h1 : parse_unary A f ps with
    | none => simp [h1] at h
    | some r1 =>
      cases r1 with
      | fail e => simp [h1] at h
      | ok base q1 =>
        simp only [h1] at h
        by_cases m : (match_ q1 '^').1 = true
        · simp only [m, if_true] at h
          cases h2 : parse_power A f (match_ q1 '^').2 with
          | none => simp [h2] at h
          | some r2 =>
            cases r2 with
            | fail e => simp [h2] at h
            | ok exp q2 =>
              simp only [h2] at h
              split at h
              · simp at h
              · simp only [Option.some.injEq, Res.ok.injEq] at h
                rw [← h.2]; exact ih _ _ _ h2
        · simp only [m, if_false, Bool.false_eq_true, Option.some.injEq, Res.ok.injEq] at h
          rw [← h.2, (match_false q1 '^' (by simpa using m)).1]
          exact skip_ws_from_idem _

/-- After a `parse_power` that returns 1 on both sides, both cursors show the
same character. -/
theorem power_cur {A : Arith D} {R : List Char → List Char → Prop} (hS : CursorSim A R)
    {f : Nat} {ps ps1 q q1 : parser_t} {v : D} (a : parse_power A f ps = some (.ok v q))
    (b : parse_power A f ps1 = some (.ok v q1)) (hs : StSim R q q1) : cur q1.p = cur q.p :=
  hS.head _ _ hs.1 (parse_power_normal A _ _ _ _ a) (parse_power_normal A _ _ _ _ b)

theorem simAt {A : Arith D} {R : List Char → List Char → Prop} (hS : CursorSim A R) :
    ∀ f, SimAt A R f := by
  intro f
  induction f with
  | zero =>
    refine ⟨?_, ?_, ?_, ?_, ?_, ?_, ?_⟩ <;> intros <;>
      simp only [parse_expr, parse_expr_loop, parse_term, parse_term_loop, parse_power,
        parse_unary, parse_primary] <;> exact ResSim.none
  | succ f ih =>
    obtain ⟨hE, hEL, hT, hTL, hP, hU, hPr⟩ := ih
    refine ⟨?_, ?_, ?_, ?_, ?_, ?_, ?_⟩
    · intro ps ps1 h
      rw [parse_expr, parse_expr]
      rcases hT ps ps1 h with ⟨a, b⟩ | ⟨e, e1, a, b, hf⟩ | ⟨v, q, q1, a, b, hs⟩
      · simp only [a, b]; exact ResSim.none
      · simp only [a, b]; exact ResSim.fail hf
      · simp only [a, b]; exact hEL v q q1 hs
    · intro v ps ps1 h
      rw [parse_expr_loop, parse_expr_loop]
      obtain ⟨e1, s1⟩ := match_sim hS '+' (by decide) h
      simp only [e1]
      by_cases m1 : (match_ ps '+').1 = true
      · simp only [m1, if_true]
        rcases hT _ _ s1 with ⟨a, b⟩ | ⟨e, e1, a, b, hf⟩ | ⟨rhs, q, q1, a, b, hs⟩
        · simp only [a, b]; exact ResSim.none
        · simp only [a, b]; exact ResSim.fail hf
        · simp only [a, b]; exact hEL _ q q1 hs
      · simp only [m1, if_false, Bool.false_eq_true]
        obtain ⟨e2, s2⟩ := match_sim hS '-' (by decide) s1
        simp only [e2]
        by_cases m2 : (match_ (match_ ps '+').2 '-').1 = true
        · simp only [m2, if_true]
          rcases hT _ _ s2 with ⟨a, b⟩ | ⟨e, e1, a, b, hf⟩ | ⟨rhs, q, q1, a, b, hs⟩
          · simp only [a, b]; exact ResSim.none
          · simp only [a, b]; exact ResSim.fail hf
          · simp only [a, b]; exact hEL _ q q1 hs
        · simp only [m2, if_false, Bool.false_eq_true]
          exact ResSim.ok v s2
    · intro ps ps1 h
      rw [parse_term, parse_term]
      rcases hP ps ps1 h with ⟨a, b⟩ | ⟨e, e1, a, b, hf⟩ | ⟨v, q, q1, a, b, hs⟩
      · simp only [a, b]; exact ResSim.none
      · simp only [a, b]; exact ResSim.fail hf
      · simp only [a, b]; exact hTL v q q1 hs
    · intro v ps ps1 h
      rw [parse_term_loop, parse_term_loop]
      obtain ⟨e1, s1⟩ := match_sim hS '*' (by decide) h
      simp only [e1]
      by_cases m1 : (match_ ps '*').1 = true
      · simp only [m1, if_true]
        rcases hP _ _ s1 with ⟨a, b⟩ | ⟨e, e1, a, b, hf⟩ | ⟨rhs, q, q1, a, b, hs⟩
        · simp only [a, b]; exact ResSim.none
        · simp only [a, b]; exact ResSim.fail hf
        · simp only [a, b]; exact hTL _ q q1 hs
      · simp only [m1, if_false, Bool.false_eq_true]
        obtain ⟨e2, s2⟩ := match_sim hS '/' (by decide) s1
        simp only [e2]
        by_cases m2 : (match_ (match_ ps '*').2 '/').1 = true
        · simp only [m2, if_true]
          rcases hP _ _ s2 with ⟨a, b⟩ | ⟨e, e1, a, b, hf⟩ | ⟨rhs, q, q1, a, b, hs⟩
          · simp only [a, b]; exact ResSim.none
          · simp only [a, b]; exact ResSim.fail hf
          · simp only [a, b]
            by_cases hz : A.is_zero rhs = true
            · simp only [hz, if_true]
              exact ResSim.fail (set_err_sim _ hs (power_cur hS a b hs))
            · simp only [hz, if_false, Bool.false_eq_true]
              exact hTL _ q q1 hs
        · simp only [m2, if_false, Bool.false_eq_true]
          exact ResSim.ok v s2
    · intro ps ps1 h
      rw [parse_power, parse_power]
      rcases hU ps ps1 h with ⟨a, b⟩ | ⟨e, e1, a, b, hf⟩ | ⟨base, q, q1, a, b, hs⟩
      · simp only [a, b]; exact ResSim.none
      · simp only [a, b]; exact ResSim.fail hf
      · simp only [a, b]
        obtain ⟨e1, s1⟩ := match_sim hS '^' (by decide) hs
        simp only [e1]
        by_cases m : (match_ q '^').1 = true
        · simp only [m, if_true]
          rcases hP _ _ s1 with ⟨a2, b2⟩ | ⟨e, e1, a2, b2, hf⟩ | ⟨exp, q2, q21, a2, b2, hs2⟩
          · simp only [a2, b2]; exact ResSim.none
          · simp only [a2, b2]; exact ResSim.fail hf
          · simp only [a2, b2]
            by_cases hc : (A.pow base exp).2 = true ∨ A.isfinite (A.pow base exp).1 = false
            · simp only [hc, if_true]
              exact ResSim.fail (set_err_sim _ hs2 (power_cur hS a2 b2 hs2))
            · simp only [hc, if_false]
              exact ResSim.ok _ hs2
        · simp only [m, if_false, Bool.false_eq_true]
          exact ResSim.ok base s1
    · intro ps ps1 h
      rw [parse_unary, parse_unary]
      obtain ⟨e1, s1⟩ := match_sim hS '+' (by decide) h
      simp only [e1]
      by_cases m1 : (match_ ps '+').1 = true
      · simp only [m1, if_true]
        exact hU _ _ s1
      · simp only [m1, if_false, Bool.false_eq_true]
        obtain ⟨e2, s2⟩ := match_sim hS '-' (by decide) s1
        simp only [e2]
        by_cases m2 : (match_ (match_ ps '+').2 '-').1 = true
        · simp only [m2, if_true]
          rcases hU _ _ s2 with ⟨a, b⟩ | ⟨e, e1, a, b, hf⟩ | ⟨v, q, q1, a, b, hs⟩
          · simp only [a, b]; exact ResSim.none
          · simp only [a, b]; exact ResSim.fail hf
          · simp only [a, b]; exact ResSim.ok _ hs
        · simp only [m2, if_false, Bool.false_eq_true]
          obtain ⟨k1, n1⟩ := match_false ps '+' (by simpa using m1)
          obtain ⟨k2, n2⟩ := match_false (match_ ps '+').2 '-' (by simpa using m2)
          have hp : skip_ws_from (match_ (match_ ps '+').2 '-').2.p = skip_ws_from ps.p := by
            rw [k2, k1]
            simp only [skip_ws_p, skip_ws_from_idem]
          have hp1 : skip_ws_from (match_ ps '+').2.p = skip_ws_from ps.p := by
            rw [k1]
            simp only [skip_ws_p, skip_ws_from_idem]
          exact hPr _ _ s2 (by rw [hp]; exact n1) (by rw [hp, ← hp1]; exact n2)
    · intro ps ps1 h n1 n2
      rw [parse_primary, parse_primary]
      obtain ⟨e1, s1⟩ := match_sim hS '(' (by decide) h
      simp only [e1]
      by_cases m : (match_ ps '(').1 = true
      · simp only [m, if_true]
        rcases hE _ _ s1 with ⟨a, b⟩ | ⟨e, e1, a, b, hf⟩ | ⟨v, q, q1, a, b, hs⟩
        · simp only [a, b]; exact ResSim.none
        · simp only [a, b]; exact ResSim.fail hf
        · simp only [a, b]
          obtain ⟨e2, s2⟩ := match_sim hS ')' (by decide) hs
          simp only [e2]
          by_cases m2 : (match_ q ')').1 = true
          · simp only [m2, if_true]
            exact ResSim.ok v s2
          · simp only [m2, if_false, Bool.false_eq_true]
            have k := (match_false q ')' (by simpa using m2)).1
            have k1 := (match_false q1 ')' (by rw [e2]; simpa using m2)).1
            refine ResSim.fail (set_err_sim _ s2 ?_)
            rw [k, k1]
            exact stSim_cur hS hs
      · simp only [m, if_false, Bool.false_eq_true]
        obtain ⟨k, n3⟩ := match_false ps '(' (by simpa using m)
        have hp : skip_ws_from (match_ ps '(').2.p = skip_ws_from ps.p := by
          rw [k]
          simp only [skip_ws_p, skip_ws_from_idem]
        exact number_sim hS s1 (by rw [hp]; exact n1) (by rw [hp]; exact n2)
          (by rw [hp]; exact n3)

theorem near_text_congr {a b : List Char} (h : cur a = cur b) : near_text a = near_text b := by
  unfold near_text
  rw [h]

/-- Two inputs whose cursors are related by a relation that the lexical steps
keep are evaluated alike: the same status, value and message. -/
theorem parse_eval_sim {A : Arith D} {R : List Char → List Char → Prop} (hS : CursorSim A R)
    {s s1 : List Char} (h : R s s1) (sz : Nat) : parse_eval A s1 sz = parse_eval A s sz := by
  have hF : 5 * s.length + 5 ≤ max (eval_fuel s) (eval_fuel s1) := le_max_left _ _
  have hF1 : 5 * s1.length + 5 ≤ max (eval_fuel s) (eval_fuel s1) := le_max_right _ _
  have hsim := (simAt hS (max (eval_fuel s) (eval_fuel s1))).1 ⟨s, none, ""⟩ ⟨s1, none, ""⟩
    ⟨h, rfl, rfl, rfl⟩
  rcases hsim with ⟨a, _⟩ | ⟨e, e1, a, b, hf⟩ | ⟨v, q, q1, a, b, hs⟩
  · obtain ⟨r, hr⟩ := parse_expr_enough A ⟨s, none, ""⟩ _ hF
    rw [a] at hr
    cases hr
  · have a1 : parse_expr A (eval_fuel s) ⟨s, none, ""⟩ = some (.fail e) :=
      parse_expr_any_fuel A a (le_refl _)
    have b1 : parse_expr A (eval_fuel s1) ⟨s1, none, ""⟩ = some (.fail e1) :=
      parse_expr_any_fuel A b (le_refl _)
    have ht : err_text e1 = err_text e := by
      unfold err_text
      rw [hf.1, near_text_congr hf.2]
    rw [parse_eval_fail A s sz e a1, parse_eval_fail A s1 sz e1 b1, ht]
  · have a1 : parse_expr A (eval_fuel s) ⟨s, none, ""⟩ = some (.ok v q) :=
      parse_expr_any_fuel A a (le_refl _)
    have b1 : parse_expr A (eval_fuel s1) ⟨s1, none, ""⟩ = some (.ok v q1) :=
      parse_expr_any_fuel A b (le_refl _)
    simp only [parse_eval, a1, b1, skip_ws_p, stSim_cur hS hs]

/-! ## An inserted whitespace character -/

theorem boundary_ws (A : Arith D) (w : Char) (post : List Char) (hw : isspace w = true) :
    ∀ (u : List Char) (n : Nat), Boundary A w post n u →
      InsR A w post (skip_ws_from (u ++ post)) (skip_ws_from (u ++ w :: post)) := by
  intro u
  induction u with
  | nil =>
    intro n _
    left
    show skip_ws_from (w :: post) = skip_ws_from post
    rw [skip_ws_from, if_pos ⟨isspace_ne_NUL hw, hw⟩]
  | cons c u ih =>
    intro n hB
    cases n with
    | zero => exact absurd hB (by simp [Boundary])
    | succ n =>
      by_cases hc : isspace c = true
      · have hB1 : Boundary A w post n u := by simpa [Boundary, hc] using hB
        have e1 : skip_ws_from (c :: u ++ post) = skip_ws_from (u ++ post) := by
          rw [List.cons_append, skip_ws_from, if_pos ⟨isspace_ne_NUL hc, hc⟩]
        have e2 : skip_ws_from (c :: u ++ w :: post) = skip_ws_from (u ++ w :: post) := by
          rw [List.cons_append, skip_ws_from, if_pos ⟨isspace_ne_NUL hc, hc⟩]
        rw [e1, e2]
        exact ih n hB1
      · have e1 : skip_ws_from (c :: u ++ post) = c :: u ++ post := by
          rw [List.cons_append, skip_ws_from, if_neg (fun h => hc h.2)]
        have e2 : skip_ws_from (c :: u ++ w :: post) = c :: u ++ w :: post := by
          rw [List.cons_append, skip_ws_from, if_neg (fun h => hc h.2)]
        rw [e1, e2]
        exact Or.inr ⟨n + 1, c :: u, hB, rfl, rfl⟩

/-- Two related cursors behind the white space are the same, or both stand on
the same character before the inserted one. -/
theorem insR_normal (A : Arith D) (w : Char) (post : List Char) (hw : isspace w = true)
    (p p1 : List Char) (h : InsR A w post p p1) (hn : skip_ws_from p1 = p1) :
    p1 = p ∨ ∃ n c u, Boundary A w post (n + 1) (c :: u) ∧ isspace c = false
      ∧ p = c :: (u ++ post) ∧ p1 = c :: (u ++ w :: post) := by
  rcases h with h | ⟨n, u, hB, hp, hp1⟩
  · exact Or.inl h
  · right
    cases u with
    | nil =>
      exfalso
      have hl := skip_ws_from_length post
      have e : skip_ws_from p1 = skip_ws_from post := by
        rw [hp1]
        show skip_ws_from (w :: post) = skip_ws_from post
        rw [skip_ws_from, if_pos ⟨isspace_ne_NUL hw, hw⟩]
      rw [hn, hp1] at e
      have : ([] ++ w :: post).length = (skip_ws_from post).length := by rw [e]
      simp at this
      omega
    | cons c u =>
      cases n with
      | zero => exact absurd hB (by simp [Boundary])
      | succ n =>
        refine ⟨n, c, u, hB, ?_, hp, hp1⟩
        have hc := skip_ws_from_cur p1
        rw [hn, hp1] at hc
        exact hc

theorem insR_cursorSim (A : Arith D) (w : Char) (post : List Char) (hw : isspace w = true) :
    CursorSim A (InsR A w post) where
  ws := by
    intro p p1 h
    rcases h with h | ⟨n, u, hB, hp, hp1⟩
    · exact Or.inl (by rw [h])
    · rw [hp, hp1]
      exact boundary_ws A w post hw u n hB
  head := by
    intro p p1 h _ hn1
    rcases insR_normal A w post hw p p1 h hn1 with h | ⟨n, c, u, _, _, hp, hp1⟩
    · rw [h]
    · rw [hp, hp1]
      rfl
  tail := by
    intro p p1 h _ hn1 hc
    rcases insR_normal A w post hw p p1 h hn1 with h | ⟨n, c, u, hB, hsp, hp, hp1⟩
    · exact Or.inl (by rw [h])
    · rw [hp] at hc
      have hB1 : Boundary A w post n u := by
        simp only [Boundary, hsp, Bool.false_eq_true, if_false] at hB
        exact hB.1 hc
      rw [hp, hp1]
      exact Or.inr ⟨n, u, hB1, rfl, rfl⟩
  number := by
    intro p p1 h _ hn1 c1 c2 c3
    rcases insR_normal A w post hw p p1 h hn1 with h | ⟨n, c, u, hB, hsp, hp, hp1⟩
    · rw [h]
      exact ⟨rfl, Or.inl rfl⟩
    · rw [hp] at c1 c2 c3
      simp only [Boundary, hsp, Bool.false_eq_true, if_false] at hB
      obtain ⟨hs, hle, hnext⟩ := hB.2 c1 c2 c3
      rw [hp, hp1]
      refine ⟨hs, ?_⟩
      by_cases hk : 0 < (A.strtod (c :: u ++ post)).consumed
      · refine Or.inr ⟨n, _, hnext hk, ?_, ?_⟩
        · exact List.drop_append_of_le_length hle
        · exact List.drop_append_of_le_length hle
      · have h0 : (A.strtod (c :: (u ++ post))).consumed = 0 := by
          have : (A.strtod (c :: u ++ post)).consumed = 0 := by omega
          simpa using this
        rw [h0]
        exact Or.inr ⟨n + 1, c :: u, by
          simp only [Boundary, hsp, Bool.false_eq_true, if_false]
          exact hB, rfl, rfl⟩

/-- One whitespace character inserted between two tokens changes nothing of
what `parse_eval` returns. -/
theorem parse_eval_inserted (A : Arith D) (s s1 : List Char) (sz : Nat)
    (h : Inserted A s s1) : parse_eval A s1 sz = parse_eval A s sz := by
  obtain ⟨pre, w, post, hs, hs1, hw, hB⟩ := h
  exact parse_eval_sim (insR_cursorSim A w post hw)
    (Or.inr ⟨pre.length, pre, hB, hs, hs1⟩) sz

end Parser
namespace Parser

variable {D : Type}

/-! ## The claims on the evaluator -/

/-- The sentence `2+3` of the grammar, in the reference arithmetic. -/
theorem sentence_2_plus_3 :
    Sentence Ref.arith "2+3".toList
      (.add (.num (.fin 2 1) true) (.num (.fin 3 1) true)) :=
  ⟨[], .add
      (.term (.power (.unary (.primary (.number
        (show NumberAt Ref.arith "2+3".toList "+3".toList (.fin 2 1) true by
          unfold NumberAt; decide))))))
      (show Tok '+' "+3".toList "3".toList by unfold Tok; decide)
      (.power (.unary (.primary (.number
        (show NumberAt Ref.arith "3".toList [] (.fin 3 1) true by
          unfold NumberAt; decide))))),
    by decide⟩

/-- C5. The evaluator agrees with the grammar: for every input that is a
sentence of the grammar expr/term/power/unary/primary (with `+ -` and `* /`
left-associative, `* /` binding tighter than `+ -`, and `^` tighter than
`* /`) and whose parse tree has a value (no division by zero, no invalid
exponentiation, no invalid literal), `parse_eval` returns `PARSE_OK` and
stores the value of the parse tree in `*out_value`. -/
theorem C5_evaluator_agrees_with_grammar (A : Arith D) (input : List Char) (sz : Nat)
    (t : Tree D) (v : D) (hs : Sentence A input t) (hv : t.eval A = some v) :
    parse_eval A input sz = some ⟨.PARSE_OK, some v, none⟩ :=
  sentence_parse_eval A input sz t v hs hv

/-- The sentence `2+3` gives 5. -/
theorem C5_evaluator_agrees_with_grammar_witness :
    Sentence Ref.arith "2+3".toList (.add (.num (.fin 2 1) true) (.num (.fin 3 1) true))
      ∧ parse_eval Ref.arith "2+3".toList 256 = some ⟨.PARSE_OK, some (.fin 5 1), none⟩ :=
  ⟨sentence_2_plus_3,
   C5_evaluator_agrees_with_grammar Ref.arith "2+3".toList 256 _ (.fin 5 1) sentence_2_plus_3
     (by decide)⟩

/-- The run of `parse_eval` on `1/0` comes to the loop of `parse_term` with
the left operand 1, in the reference arithmetic. -/
theorem reaches_one_slash_zero :
    Reaches Ref.arith "1/0".toList (.term_loop 18 (.fin 1 1) ⟨"/0".toList, none, ""⟩) :=
  (Relation.ReflTransGen.refl.tail (Calls.expr_term 19 _)).tail
    (Calls.term_loop 18 _ (.fin 1 1) ⟨"/0".toList, none, ""⟩ (by decide))

/-- The same for `1/0)`. -/
theorem reaches_one_slash_zero_paren :
    Reaches Ref.arith "1/0)".toList (.term_loop 23 (.fin 1 1) ⟨"/0)".toList, none, ""⟩) :=
  (Relation.ReflTransGen.refl.tail (Calls.expr_term 24 _)).tail
    (Calls.term_loop 23 _ (.fin 1 1) ⟨"/0)".toList, none, ""⟩ (by decide))

/-- C8. Division by zero is raised when the `/` is evaluated: for every input
whose run comes, without an earlier failure, to the loop of `parse_term` with
a left operand `v`, finds a `/` there, parses the right operand successfully
and finds it equal to zero (`rhs == 0.0`), `parse_eval` returns `PARSE_ERR`
and the message is "division by zero near 'X'", X naming the position after
the divisor, whatever the input from that position on is. -/
theorem C8_division_by_zero (A : Arith D) (input : List Char) (sz : Nat) (f : Nat) (v : D)
    (ps : parser_t) (rhs : D) (ps2 : parser_t)
    (hreach : Reaches A input (.term_loop (f + 1) v ps))
    (hmul : (match_ ps '*').1 = false) (hdiv : (match_ (match_ ps '*').2 '/').1 = true)
    (hrhs : parse_power A f (match_ (match_ ps '*').2 '/').2 = some (.ok rhs ps2))
    (hz : A.is_zero rhs = true) :
    parse_eval A input sz
      = some ⟨.PARSE_ERR, none,
          if 0 < sz then
            some (snprintf sz ("division by zero" ++ " near '" ++ near_text ps2.p ++ "'"))
          else none⟩ := by
  have hclean := (reaches_clean A hreach).1
  have hkeep := (keepAt A f).2.2.2.2.1 _ rhs ps2 hrhs
  have hclean2 : ps2.err_at = none := by
    rw [hkeep.1, (match_sameErr _ '/').1, (match_sameErr ps '*').1]
    exact hclean
  have hfail : (Call.term_loop (f + 1) v ps).run A
      = some (.fail (set_err ps2 "division by zero")) := by
    simp only [Call.run]
    rw [parse_term_loop]
    simp only [hmul, hdiv, hrhs, hz, if_true, if_false, Bool.false_eq_true]
  exact parse_eval_set_err A input sz ps2 "division by zero" hclean2 (by decide) (by decide)
    (reaches_fail A hreach _ hfail)

/-- The inputs `1/0` and `1/0)` both report a division by zero. -/
theorem C8_division_by_zero_witness :
    parse_eval Ref.arith "1/0".toList 256
        = some ⟨.PARSE_ERR, none, some "division by zero near 'end'"⟩
      ∧ parse_eval Ref.arith "1/0)".toList 256
        = some ⟨.PARSE_ERR, none, some "division by zero near ')'"⟩ :=
  ⟨(C8_division_by_zero Ref.arith "1/0".toList 256 17 (.fin 1 1) ⟨"/0".toList, none, ""⟩
      (.fin 0 1) ⟨[], none, ""⟩ reaches_one_slash_zero (by decide) (by decide) (by decide)
      (by decide)).trans (by decide),
   (C8_division_by_zero Ref.arith "1/0)".toList 256 22 (.fin 1 1) ⟨"/0)".toList, none, ""⟩
      (.fin 0 1) ⟨")".toList, none, ""⟩ reaches_one_slash_zero_paren (by decide) (by decide)
      (by decide) (by decide)).trans (by decide)⟩

/-- An input that starts with `(` takes `parse_eval` to `parse_primary` at
once. -/
theorem reaches_primary_of_paren (A : Arith D) (e : List Char) :
    Reaches A ('(' :: e) (.primary (eval_fuel e + 1) ⟨'(' :: e, none, ""⟩) := by
  have hs : skip_ws_from ('(' :: e) = '(' :: e := skip_ws_from_eq_self _ (by show isspace '(' = false; decide)
  have hc : cur (skip_ws_from ('(' :: e)) = '(' := by rw [hs]; rfl
  have m1 : match_ ⟨'(' :: e, none, ""⟩ '+' = (false, ⟨'(' :: e, none, ""⟩) := by
    rw [match_miss _ _ _ '+' (by rw [hc]; decide), hs]
  have m2 : match_ ⟨'(' :: e, none, ""⟩ '-' = (false, ⟨'(' :: e, none, ""⟩) := by
    rw [match_miss _ _ _ '-' (by rw [hc]; decide), hs]
  have hfuel : eval_fuel ('(' :: e) = eval_fuel e + 5 := by
    simp only [eval_fuel, List.length_cons]; omega
  unfold Reaches
  rw [hfuel]
  have step := Calls.unary_primary (A := A) (eval_fuel e + 1) ⟨'(' :: e, none, ""⟩
    (by rw [m1]) (by rw [m1, m2])
  rw [m1, m2] at step
  exact (((Relation.ReflTransGen.refl.tail (Calls.expr_term _ _)).tail
    (Calls.term_power _ _)).tail (Calls.power_unary _ _)).tail step

/-- C9. Missing closing parenthesis: for every input e on which `parse_eval`
succeeds, `parse_eval` of `(` followed by e returns `PARSE_ERR` and the
message is "expected ')' near 'end'" (as much of it as `errbuf` holds). -/
theorem C9_missing_close_paren (A : Arith D) (e : List Char) (v : D) (sz : Nat)
    (h : parse_eval A e sz = some ⟨.PARSE_OK, some v, none⟩) :
    parse_eval A ('(' :: e) sz
      = some ⟨.PARSE_ERR, none,
          if 0 < sz then some (snprintf sz "expected ')' near 'end'") else none⟩ := by
  obtain ⟨ps1, hexpr, hend⟩ := parse_eval_ok_inv A e sz v h
  have hkeep := parse_expr_keep A hexpr
  obtain ⟨p1, ea, em⟩ := ps1
  obtain ⟨k1, k2⟩ := hkeep
  simp only at k1 k2 hend
  subst k1 k2
  have hfail : (Call.primary (eval_fuel e + 1) ⟨'(' :: e, none, ""⟩).run A
      = some (.fail (set_err ⟨skip_ws_from p1, none, ""⟩ "expected ')'")) := by
    simp only [Call.run]
    rw [parse_primary, match_hit ('(' :: e) e none "" '('
      (skip_ws_from_eq_self _ (by show isspace '(' = false; decide))]
    simp only [if_true, hexpr]
    rw [match_miss p1 none "" ')' (by rw [hend]; decide)]
    simp
  have := parse_eval_set_err A ('(' :: e) sz ⟨skip_ws_from p1, none, ""⟩ "expected ')'" rfl
    (by decide) (by decide) (reaches_fail A (reaches_primary_of_paren A e) _ hfail)
  rw [this, near_text_end _ hend]
  rfl

/-- The input `(1+2` reports the missing parenthesis at the end. -/
theorem C9_missing_close_paren_witness :
    parse_eval Ref.arith "(1+2".toList 256
      = some ⟨.PARSE_ERR, none, some "expected ')' near 'end'"⟩ :=
  (C9_missing_close_paren Ref.arith "1+2".toList (.fin 3 1) 256 (by decide)).trans (by decide)

/-- An input of white space only takes `parse_eval` to `parse_primary` at the
end of the string. -/
theorem reaches_primary_of_blank (A : Arith D) (input : List Char)
    (h : skip_ws_from input = []) :
    Reaches A input (.primary (5 * input.length + 1) ⟨[], none, ""⟩) := by
  have hc : cur (skip_ws_from input) = NUL := by rw [h]; rfl
  have m1 : match_ ⟨input, none, ""⟩ '+' = (false, ⟨[], none, ""⟩) := by
    rw [match_miss _ _ _ '+' (by rw [hc]; decide), h]
  have m2 : match_ ⟨[], none, ""⟩ '-' = (false, ⟨[], none, ""⟩) := by decide
  unfold Reaches
  have hfuel : eval_fuel input = 5 * input.length + 5 := rfl
  rw [hfuel]
  have step := Calls.unary_primary (A := A) (5 * input.length + 1) ⟨input, none, ""⟩
    (by rw [m1]) (by rw [m1, m2])
  rw [m1, m2] at step
  exact (((Relation.ReflTransGen.refl.tail (Calls.expr_term _ _)).tail
    (Calls.term_power _ _)).tail (Calls.power_unary _ _)).tail step

/-- C10. Empty input: for every input that consists of zero or more white
space characters, `parse_eval` returns `PARSE_ERR` and the message is
"expected number or '(' near 'end'"; more generally, whenever the run comes
to `parse_primary`, no `(` is next and `strtod` consumes no character, it
returns `PARSE_ERR` and the reason of the message is "expected number or '('"
(in both cases, as much of the message as `errbuf` holds). -/
theorem C10_expected_number (A : Arith D) (sz : Nat) :
    (∀ input : List Char, (∀ c ∈ input, isspace c = true) →
      parse_eval A input sz
        = some ⟨.PARSE_ERR, none,
            if 0 < sz then some (snprintf sz "expected number or '(' near 'end'") else none⟩)
    ∧ (∀ (input : List Char) (f : Nat) (ps : parser_t),
      Reaches A input (.primary (f + 1) ps) → (match_ ps '(').1 = false →
      (A.strtod (skip_ws_from ps.p)).consumed = 0 →
      parse_eval A input sz
        = some ⟨.PARSE_ERR, none,
            if 0 < sz then
              some (snprintf sz
                ("expected number or '('" ++ " near '" ++ near_text (skip_ws_from ps.p) ++ "'"))
            else none⟩) := by
  have general : ∀ (input : List Char) (f : Nat) (ps : parser_t),
      Reaches A input (.primary (f + 1) ps) → (match_ ps '(').1 = false →
      (A.strtod (skip_ws_from ps.p)).consumed = 0 →
      parse_eval A input sz
        = some ⟨.PARSE_ERR, none,
            if 0 < sz then
              some (snprintf sz
                ("expected number or '('" ++ " near '" ++ near_text (skip_ws_from ps.p) ++ "'"))
            else none⟩ := by
    intro input f ps hreach hm hz
    have hclean := (reaches_clean A hreach).1
    have hm2 : (match_ ps '(').2 = skip_ws ps := by
      simp only [match_] at hm ⊢
      split at hm
      · simp at hm
      · rename_i hne; rw [if_neg hne]
    have hfail : (Call.primary (f + 1) ps).run A
        = some (.fail (set_err (skip_ws ps) "expected number or '('")) := by
      simp only [Call.run]
      rw [parse_primary]
      simp only [hm, if_false, Bool.false_eq_true, hm2, parse_number, skip_ws_p,
        skip_ws_from_idem, hz, if_true]
      congr 3
      simp [skip_ws, skip_ws_from_idem]
    exact parse_eval_set_err A input sz (skip_ws ps) "expected number or '('" hclean
      (by decide) (by decide) (reaches_fail A hreach _ hfail)
  refine ⟨?_, general⟩
  intro input hws
  have hskip : skip_ws_from input = [] := by
    induction input with
    | nil => rfl
    | cons c cs ih =>
      have hc : isspace c = true := hws c (List.mem_cons_self _ _)
      have hn : c ≠ NUL := by
        intro hcn; rw [hcn] at hc; exact absurd hc (by decide)
      rw [skip_ws_from, if_pos ⟨hn, hc⟩]
      exact ih (fun d hd => hws d (List.mem_cons_of_mem _ hd))
  have hz : (A.strtod []).consumed = 0 := Nat.le_zero.mp (A.strtod_le [])
  have := general input (5 * input.length) ⟨[], none, ""⟩
    (reaches_primary_of_blank A input hskip) (by decide) (by simpa [skip_ws_from] using hz)
  rw [this]
  rfl

/-- The empty input and an input of blanks and a tab. -/
theorem C10_expected_number_witness :
    parse_eval Ref.arith "".toList 256
        = some ⟨.PARSE_ERR, none, some "expected number or '(' near 'end'"⟩
      ∧ parse_eval Ref.arith " \t ".toList 256
        = some ⟨.PARSE_ERR, none, some "expected number or '(' near 'end'"⟩ :=
  ⟨((C10_expected_number Ref.arith 256).1 "".toList (by decide)).trans (by decide),
   ((C10_expected_number Ref.arith 256).1 " \t ".toList (by decide)).trans (by decide)⟩

end Parser
namespace Parser

variable {D : Type}

/-! ## Further claims on the evaluator -/

/-- C11. Trailing input is rejected: for every input on which `parse_expr`
succeeds and leaves, after white space, a character c that is not the end of
the string, `parse_eval` returns `PARSE_ERR`, does not write `*out_value`, and
the message is "unexpected token near 'c'", with `?` in the place of a c that
is not printable (as much of the message as `errbuf` holds). -/
theorem C11_trailing_input (A : Arith D) (input : List Char) (sz f : Nat) (v : D)
    (ps1 : parser_t)
    (h : parse_expr A f { p := input, err_at := none, err_msg := "" } = some (.ok v ps1))
    (hc : cur (skip_ws_from ps1.p) ≠ NUL) :
    parse_eval A input sz
      = some ⟨.PARSE_ERR, none,
          if 0 < sz then
            some (snprintf sz ("unexpected token near '"
              ++ String.singleton
                (if isprint (cur (skip_ws_from ps1.p)) = true then cur (skip_ws_from ps1.p)
                 else '?')
              ++ "'"))
          else none⟩ := by
  have h2 := parse_expr_any_fuel A h (g := eval_fuel input) (by simp [eval_fuel])
  simp only [parse_eval, h2, skip_ws_p, hc, ne_eq, not_false_eq_true, if_true]

/-- The input `1 2`: the expression `1` is followed by the token `2`. -/
theorem C11_trailing_input_witness :
    parse_eval Ref.arith "1 2".toList 256
      = some ⟨.PARSE_ERR, none, some "unexpected token near '2'"⟩ :=
  (C11_trailing_input Ref.arith "1 2".toList 256 20 (.fin 1 1) ⟨"2".toList, none, ""⟩
    (by decide) (by decide)).trans (by decide)

/-- C12 (the code at the failing inputs). On `1e308*10` and on `1e308+1e308`
the product and the sum overflow, and `parse_eval` returns `PARSE_OK` with a
value that is not finite: `parse_term` and `parse_expr` do not test the result
of `*`, `/`, `+` and `-` the way `parse_power` tests the result of `pow`. -/
theorem C12_nonfinite_result_is_ok :
    parse_eval Ref.arith "1e308*10".toList 256 = some ⟨.PARSE_OK, some .nonfin, none⟩
      ∧ parse_eval Ref.arith "1e308+1e308".toList 256 = some ⟨.PARSE_OK, some .nonfin, none⟩
      ∧ Ref.arith.isfinite .nonfin = false
      ∧ Ref.arith.strtod "1e308*10".toList = ⟨5, .fin (Ref.npow 10 308) 1, false⟩
      ∧ Ref.arith.mul (.fin (Ref.npow 10 308) 1) (.fin 10 1) = .nonfin := by
  decide

/-- When the first character after white space is neither `+` nor `-`, the
run of `parse_eval` comes to `parse_primary` at that character. -/
theorem reaches_primary_head (A : Arith D) (input : List Char)
    (h1 : cur (skip_ws_from input) ≠ '+') (h2 : cur (skip_ws_from input) ≠ '-') :
    Reaches A input (.primary (5 * input.length + 1) ⟨skip_ws_from input, none, ""⟩) := by
  have m1 : match_ ⟨input, none, ""⟩ '+' = (false, ⟨skip_ws_from input, none, ""⟩) :=
    match_miss _ _ _ '+' h1
  have m2 : match_ ⟨skip_ws_from input, none, ""⟩ '-'
      = (false, ⟨skip_ws_from input, none, ""⟩) := by
    rw [match_miss _ _ _ '-' (by rwa [skip_ws_from_idem]), skip_ws_from_idem]
  unfold Reaches
  have hfuel : eval_fuel input = 5 * input.length + 5 := rfl
  rw [hfuel]
  have step := Calls.unary_primary (A := A) (5 * input.length + 1) ⟨input, none, ""⟩
    (by rw [m1]) (by rw [m1, m2])
  rw [m1, m2] at step
  exact (((Relation.ReflTransGen.refl.tail (Calls.expr_term _ _)).tail
    (Calls.term_power _ _)).tail (Calls.power_unary _ _)).tail step

/-- C13. Non-finite literals are rejected: whenever `strtod` consumes at
least one character but reports a range error or returns a value that is not
finite, `parse_number` fails with the reason "invalid number"; and whenever
the run of `parse_eval` comes to `parse_primary`, no `(` is next and the
scanner behaves so, `parse_eval` returns `PARSE_ERR` with the message
"invalid number near 'X'", X naming the start of the literal, and writes no
value: such a literal never contributes to a successful result. -/
theorem C13_invalid_number (A : Arith D) (ps : parser_t)
    (hk : (A.strtod (skip_ws_from ps.p)).consumed ≠ 0)
    (hbad : (A.strtod (skip_ws_from ps.p)).erange = true
      ∨ A.isfinite (A.strtod (skip_ws_from ps.p)).value = false) :
    parse_number A ps = .fail (set_err (skip_ws ps) "invalid number")
      ∧ ∀ (input : List Char) (sz f : Nat), Reaches A input (.primary (f + 1) ps) →
          (match_ ps '(').1 = false →
          parse_eval A input sz
            = some ⟨.PARSE_ERR, none,
                if 0 < sz then
                  some (snprintf sz
                    ("invalid number" ++ " near '" ++ near_text (skip_ws_from ps.p) ++ "'"))
                else none⟩ := by
  have hnum : ∀ q : parser_t, q.p = ps.p →
      parse_number A q = .fail (set_err (skip_ws q) "invalid number") := by
    intro q hq
    simp only [parse_number, skip_ws_p, hq, hk, if_false, hbad, if_true]
  refine ⟨hnum ps rfl, ?_⟩
  intro input sz f hreach hm
  have hclean := (reaches_clean A hreach).1
  have hm2 : (match_ ps '(').2 = skip_ws ps := by
    simp only [match_] at hm ⊢
    split at hm
    · simp at hm
    · rename_i hne; rw [if_neg hne]
  have hfail : (Call.primary (f + 1) ps).run A
      = some (.fail (set_err (skip_ws ps) "invalid number")) := by
    simp only [Call.run]
    rw [parse_primary]
    simp only [hm, if_false, Bool.false_eq_true, hm2, parse_number, skip_ws_p,
      skip_ws_from_idem, hk, hbad, if_true]
    congr 3
    simp [skip_ws, skip_ws_from_idem]
  exact parse_eval_set_err A input sz (skip_ws ps) "invalid number" hclean
    (by decide) (by decide) (reaches_fail A hreach _ hfail)

/-- The literals `inf`, `nan` and `1e999` are reported as invalid numbers. -/
theorem C13_invalid_number_witness :
    parse_eval Ref.arith "inf".toList 256
        = some ⟨.PARSE_ERR, none, some "invalid number near 'i'"⟩
      ∧ parse_eval Ref.arith "nan".toList 256
        = some ⟨.PARSE_ERR, none, some "invalid number near 'n'"⟩
      ∧ parse_eval Ref.arith "1e999".toList 256
        = some ⟨.PARSE_ERR, none, some "invalid number near '1'"⟩ :=
  ⟨((C13_invalid_number Ref.arith ⟨"inf".toList, none, ""⟩ (by decide) (by decide)).2
      "inf".toList 256 15 (reaches_primary_head Ref.arith "inf".toList (by decide) (by decide))
      (by decide)).trans (by decide),
   ((C13_invalid_number Ref.arith ⟨"nan".toList, none, ""⟩ (by decide) (by decide)).2
      "nan".toList 256 15 (reaches_primary_head Ref.arith "nan".toList (by decide) (by decide))
      (by decide)).trans (by decide),
   ((C13_invalid_number Ref.arith ⟨"1e999".toList, none, ""⟩ (by decide) (by decide)).2
      "1e999".toList 256 25
      (reaches_primary_head Ref.arith "1e999".toList (by decide) (by decide))
      (by decide)).trans (by decide)⟩

/-- C14 (as stated, refuted). On the one-character input with code 7 the run
fails at that character, and the message does not show the character: it
shows `byte 0x07`. -/
theorem C14_near_character_counterexample :
    cur [Char.ofNat 7] ≠ NUL
      ∧ parse_eval Ref.arith [Char.ofNat 7] 256
        = some ⟨.PARSE_ERR, none, some "expected number or '(' near 'byte 0x07'"⟩
      ∧ parse_eval Ref.arith [Char.ofNat 7] 256
        ≠ some ⟨.PARSE_ERR, none,
            some ("expected number or '('" ++ " near '" ++ String.singleton (Char.ofNat 7)
              ++ "'")⟩ := by
  decide

/-- C14 (amended). First failure wins: in every run of `parse_eval` whose
`parse_expr` call fails, `set_err` is called exactly once; whenever a call in
the body of a production fails, the production returns failure at once, in
the same state; and the message is "<reason> near '<X>'", where reason is the
reason of that single call, one of the five reasons of the parser and never
the fallback "parse error", and X stands for the cursor at which it was
raised: "end" at the end of the input, the character at the cursor when it is
printable, and "byte 0xHH" with its code in hexadecimal when it is not (as
much of the message as `errbuf` holds). -/
theorem C14_first_failure_wins (A : Arith D) (input : List Char) (sz : Nat) (e : parser_t)
    (h : parse_expr A (eval_fuel input) { p := input, err_at := none, err_msg := "" }
      = some (.fail e)) :
    count_expr A (eval_fuel input) { p := input, err_at := none, err_msg := "" } = 1
    ∧ (∀ c d : Call D, Calls A c d → ∀ e1, d.run A = some (.fail e1) →
      c.run A = some (.fail e1))
    ∧ ∃ q reason, reason ∈ reasons ∧ reason ≠ "parse error"
      ∧ q.err_at = none ∧ q.p <:+ input ∧ e = set_err q reason
      ∧ parse_eval A input sz
        = some ⟨.PARSE_ERR, none,
            if 0 < sz then some (snprintf sz (reason ++ " near '" ++ near_text q.p ++ "'"))
            else none⟩
      ∧ (cur q.p = NUL → near_text q.p = "end")
      ∧ (cur q.p ≠ NUL → isprint (cur q.p) = true →
        near_text q.p = String.singleton (cur q.p))
      ∧ (cur q.p ≠ NUL → isprint (cur q.p) = false →
        near_text q.p = "byte 0x" ++ String.mk [hexDigit ((cur q.p).toNat % 256 / 16),
          hexDigit ((cur q.p).toNat % 256 % 16)]) := by
  refine ⟨(countAt A _).1 _ _ h, fun c d hcd e1 he1 => calls_fail A hcd e1 he1, ?_⟩
  obtain ⟨q, reason, hq, hr, he⟩ := (raiseAt A _).1 _ _ h
  have hclean : q.err_at = none := hq.1
  have hsuf : q.p <:+ input := by
    have := (suffixAt A _).1 _ _ h
    rw [he] at this
    exact this
  obtain ⟨n1, n2, n3⟩ := near_text_cases q.p
  obtain ⟨r1, r2, r3⟩ := reasons_ne_fallback reason hr
  refine ⟨q, reason, hr, r1, hclean, hsuf, he, ?_, n1, n2, n3⟩
  exact parse_eval_set_err A input sz q reason hclean r3 r2 (he ▸ h)

/-- The run on `(1+2` fails once, at the end of the input. -/
theorem C14_first_failure_wins_witness :
    count_expr Ref.arith 25 { p := "(1+2".toList, err_at := none, err_msg := "" } = 1 :=
  (C14_first_failure_wins Ref.arith "(1+2".toList 256 ⟨[], some [], "expected ')'"⟩
    (by decide)).1

/-- C18. The parse cursor is advance-only and stays in bounds. The cursor is
taken as the memory from the pointer on: `mem` is the memory at `input`, the
C string of length L = `c_strlen mem`, its terminating NUL and the bytes
behind it, so that a cursor that had passed the NUL would have an offset above
L. Provided `strtod`, called inside the string, consumes no more than what is
left of the string: in the run of `parse_eval` on `mem`, `skip_ws`, `match`
(of a character other than NUL) and `parse_number`, applied at a cursor inside
the string, and every call of a production or loop that the run comes to,
leave a cursor that is inside the string, at an offset that is at least the
offset before and at most L. -/
theorem C18_cursor_advance_only (A : Arith D) (mem : List Char)
    (hstr : ∀ k, k ≤ c_strlen mem → (A.strtod (mem.drop k)).consumed ≤ c_strlen mem - k) :
    (∀ ps : parser_t, InString mem ps.p →
      ((skip_ws ps).p <:+ mem
        ∧ offset mem.length ps.p ≤ offset mem.length (skip_ws ps).p
        ∧ offset mem.length (skip_ws ps).p ≤ c_strlen mem)
      ∧ (∀ c, c ≠ NUL → (match_ ps c).2.p <:+ mem
        ∧ offset mem.length ps.p ≤ offset mem.length (match_ ps c).2.p
        ∧ offset mem.length (match_ ps c).2.p ≤ c_strlen mem)
      ∧ ((parse_number A ps).state.p <:+ mem
        ∧ offset mem.length ps.p ≤ offset mem.length (parse_number A ps).state.p
        ∧ offset mem.length (parse_number A ps).state.p ≤ c_strlen mem))
    ∧ (∀ c : Call D, Reaches A mem c →
      InString mem c.state.p
      ∧ ∀ r, c.run A = some r →
        r.state.p <:+ mem
        ∧ offset mem.length c.state.p ≤ offset mem.length r.state.p
        ∧ offset mem.length r.state.p ≤ c_strlen mem) := by
  constructor
  · intro ps hps
    refine ⟨?_, ?_, ?_⟩
    · obtain ⟨h1, h2⟩ := skip_ws_from_inString mem ps.p hps
      exact ⟨h1, (offset_of_suffix _ (skip_ws_from_suffix ps.p)).1, h2⟩
    · intro c hc
      obtain ⟨h1, h2⟩ := match_inString mem ps c hc hps
      exact ⟨h1, (offset_of_suffix _ (match_suffix ps c)).1, h2⟩
    · obtain ⟨h1, h2⟩ := parse_number_inString A mem hstr ps hps
      exact ⟨h1, (offset_of_suffix _ (parse_number_suffix A ps)).1, h2⟩
  · intro c hreach
    have hc := reaches_inString A mem hstr hreach
    refine ⟨hc, fun r hr => ?_⟩
    obtain ⟨h1, h2⟩ := run_inString A mem hstr c r hr hc
    exact ⟨h1, (offset_of_suffix _ (run_suffix A c r hr)).1, h2⟩

/-- C18 on the memory that holds `(1+2)*3`, the NUL and then the bytes `45`:
the string has length 7, `parse_expr` returns with the cursor on the NUL, at
the offset 7, and the digits behind the NUL stay unread. A `match` of the NUL
itself, which the program never asks for, would leave the string. -/
theorem C18_cursor_advance_only_witness :
    c_strlen ("(1+2)*3".toList ++ NUL :: "45".toList) = 7
      ∧ parse_expr Ref.arith (eval_fuel ("(1+2)*3".toList ++ NUL :: "45".toList))
          ⟨"(1+2)*3".toList ++ NUL :: "45".toList, none, ""⟩
        = some (.ok (.fin 9 1) ⟨NUL :: "45".toList, none, ""⟩)
      ∧ offset ("(1+2)*3".toList ++ NUL :: "45".toList).length
          ("(1+2)*3".toList ++ NUL :: "45".toList)
        ≤ offset ("(1+2)*3".toList ++ NUL :: "45".toList).length (NUL :: "45".toList)
      ∧ offset ("(1+2)*3".toList ++ NUL :: "45".toList).length (NUL :: "45".toList) ≤ 7
      ∧ ¬ InString ("(1+2)*3".toList ++ NUL :: "45".toList)
          (match_ ⟨NUL :: "45".toList, none, ""⟩ NUL).2.p :=
  ⟨by decide, by decide,
   (((C18_cursor_advance_only Ref.arith ("(1+2)*3".toList ++ NUL :: "45".toList)
      (by decide)).2
      (.expr (eval_fuel ("(1+2)*3".toList ++ NUL :: "45".toList))
        ⟨"(1+2)*3".toList ++ NUL :: "45".toList, none, ""⟩)
      Relation.ReflTransGen.refl).2
      (.ok (.fin 9 1) ⟨NUL :: "45".toList, none, ""⟩) (by decide)).2.1,
   (((C18_cursor_advance_only Ref.arith ("(1+2)*3".toList ++ NUL :: "45".toList)
      (by decide)).2
      (.expr (eval_fuel ("(1+2)*3".toList ++ NUL :: "45".toList))
        ⟨"(1+2)*3".toList ++ NUL :: "45".toList, none, ""⟩)
      Relation.ReflTransGen.refl).2
      (.ok (.fin 9 1) ⟨NUL :: "45".toList, none, ""⟩) (by decide)).2.2,
   by unfold InString; decide⟩

/-- Every call in the body of a call has a smaller measure. -/
theorem calls_measure (A : Arith D) {c d : Call D} (h : Calls A c d) :
    d.measure < c.measure := by
  have hs := (calls_suffix A h).length_le
  cases h with
  | expr_term f ps => simp only [Call.measure, Call.state, Call.rank]; omega
  | expr_loop f ps v ps1 h1 =>
    simp only [Call.measure, Call.state, Call.rank] at hs ⊢; omega
  | loop_plus_term f v ps m1 =>
    have := match_length_lt ps '+' plus_ne_NUL m1
    simp only [Call.measure, Call.state, Call.rank]; omega
  | loop_plus_next f v ps rhs ps2 m1 h1 =>
    have := match_length_lt ps '+' plus_ne_NUL m1
    have := ((suffixAt A f).2.2.1 _ _ h1).length_le
    simp only [Call.measure, Call.state, Call.rank, Res.state] at *; omega
  | loop_minus_term f v ps m1 m2 =>
    have := match_length_lt _ '-' minus_ne_NUL m2
    have := match_length ps '+'
    simp only [Call.measure, Call.state, Call.rank]; omega
  | loop_minus_next f v ps rhs ps2 m1 m2 h1 =>
    have := match_length_lt _ '-' minus_ne_NUL m2
    have := match_length ps '+'
    have := ((suffixAt A f).2.2.1 _ _ h1).length_le
    simp only [Call.measure, Call.state, Call.rank, Res.state] at *; omega
  | term_power f ps => simp only [Call.measure, Call.state, Call.rank]; omega
  | term_loop f ps v ps1 h1 =>
    simp only [Call.measure, Call.state, Call.rank] at hs ⊢; omega
  | loop_mul_power f v ps m1 =>
    have := match_length_lt ps '*' star_ne_NUL m1
    simp only [Call.measure, Call.state, Call.rank]; omega
  | loop_mul_next f v ps rhs ps2 m1 h1 =>
    have := match_length_lt ps '*' star_ne_NUL m1
    have := ((suffixAt A f).2.2.2.2.1 _ _ h1).length_le
    simp only [Call.measure, Call.state, Call.rank, Res.state] at *; omega
  | loop_div_power f v ps m1 m2 =>
    have := match_length_lt _ '/' slash_ne_NUL m2
    have := match_length ps '*'
    simp only [Call.measure, Call.state, Call.rank]; omega
  | loop_div_next f v ps rhs ps2 m1 m2 h1 hz =>
    have := match_length_lt _ '/' slash_ne_NUL m2
    have := match_length ps '*'
    have := ((suffixAt A f).2.2.2.2.1 _ _ h1).length_le
    simp only [Call.measure, Call.state, Call.rank, Res.state] at *; omega
  | power_unary f ps => simp only [Call.measure, Call.state, Call.rank]; omega
  | power_power f ps base ps1 h1 m =>
    have := match_length_lt ps1 '^' caret_ne_NUL m
    have := ((suffixAt A f).2.2.2.2.2.1 _ _ h1).length_le
    simp only [Call.measure, Call.state, Call.rank, Res.state] at *; omega
  | unary_plus f ps m1 =>
    have := match_length_lt ps '+' plus_ne_NUL m1
    simp only [Call.measure, Call.state, Call.rank]; omega
  | unary_minus f ps m1 m2 =>
    have := match_length_lt _ '-' minus_ne_NUL m2
    have := match_length ps '+'
    simp only [Call.measure, Call.state, Call.rank]; omega
  | unary_primary f ps m1 m2 =>
    simp only [Call.measure, Call.state, Call.rank] at hs ⊢; omega
  | primary_expr f ps m =>
    have := match_length_lt ps '(' lparen_ne_NUL m
    simp only [Call.measure, Call.state, Call.rank]; omega

/-- A call that enters a production or loop again is a call of the body, and
at least one character has been consumed before it. -/
theorem reenters_consumes (A : Arith D) {c d : Call D} (h : Reenters A c d) :
    Calls A c d ∧ d.state.p.length < c.state.p.length := by
  cases h with
  | unary_plus f ps m1 =>
    have := match_length_lt ps '+' plus_ne_NUL m1
    exact ⟨.unary_plus f ps m1, by simp only [Call.state]; omega⟩
  | unary_minus f ps m1 m2 =>
    have := match_length_lt _ '-' minus_ne_NUL m2
    have := match_length ps '+'
    exact ⟨.unary_minus f ps m1 m2, by simp only [Call.state]; omega⟩
  | power_power f ps base ps1 h1 m =>
    have := match_length_lt ps1 '^' caret_ne_NUL m
    have := ((suffixAt A f).2.2.2.2.2.1 _ _ h1).length_le
    exact ⟨.power_power f ps base ps1 h1 m, by simp only [Call.state, Res.state] at *; omega⟩
  | primary_expr f ps m =>
    have := match_length_lt ps '(' lparen_ne_NUL m
    exact ⟨.primary_expr f ps m, by simp only [Call.state]; omega⟩
  | loop_plus_next f v ps rhs ps2 m1 h1 =>
    have := match_length_lt ps '+' plus_ne_NUL m1
    have := ((suffixAt A f).2.2.1 _ _ h1).length_le
    exact ⟨.loop_plus_next f v ps rhs ps2 m1 h1, by
      simp only [Call.state, Res.state] at *; omega⟩
  | loop_minus_next f v ps rhs ps2 m1 m2 h1 =>
    have := match_length_lt _ '-' minus_ne_NUL m2
    have := match_length ps '+'
    have := ((suffixAt A f).2.2.1 _ _ h1).length_le
    exact ⟨.loop_minus_next f v ps rhs ps2 m1 m2 h1, by
      simp only [Call.state, Res.state] at *; omega⟩
  | loop_mul_next f v ps rhs ps2 m1 h1 =>
    have := match_length_lt ps '*' star_ne_NUL m1
    have := ((suffixAt A f).2.2.2.2.1 _ _ h1).length_le
    exact ⟨.loop_mul_next f v ps rhs ps2 m1 h1, by
      simp only [Call.state, Res.state] at *; omega⟩
  | loop_div_next f v ps rhs ps2 m1 m2 h1 hz =>
    have := match_length_lt _ '/' slash_ne_NUL m2
    have := match_length ps '*'
    have := ((suffixAt A f).2.2.2.2.1 _ _ h1).length_le
    exact ⟨.loop_div_next f v ps rhs ps2 m1 m2 h1 hz, by
      simp only [Call.state, Res.state] at *; omega⟩

/-- C19. The evaluator terminates on every input: `parse_eval` returns a
result for every input, and `parse_expr` returns the same result under any
larger bound on the depth of calls. The reason is the claimed one: every
recursive call of `parse_unary` and `parse_power`, the call of `parse_expr` in
`parse_primary` and every iteration of the loops of `parse_expr` and
`parse_term` comes after a `match` that has consumed a character, so that the
remaining input is strictly shorter; and with it the measure
5 * (remaining input) + (rank of the function) decreases at every call of the
mutual recursion. -/
theorem C19_evaluator_terminates (A : Arith D) :
    (∀ (input : List Char) (sz : Nat), ∃ r, parse_eval A input sz = some r)
    ∧ (∀ (input : List Char) (f : Nat), eval_fuel input ≤ f →
      parse_expr A f { p := input, err_at := none, err_msg := "" }
        = parse_expr A (eval_fuel input) { p := input, err_at := none, err_msg := "" })
    ∧ (∀ c d : Call D, Reenters A c d → Calls A c d ∧ d.state.p.length < c.state.p.length)
    ∧ (∀ c d : Call D, Calls A c d → d.measure < c.measure) := by
  refine ⟨parse_eval_returns A, ?_, fun c d h => reenters_consumes A h,
    fun c d h => calls_measure A h⟩
  intro input f hf
  obtain ⟨r, hr⟩ := parse_expr_enough A { p := input, err_at := none, err_msg := "" }
    (eval_fuel input) (by simp [eval_fuel])
  rw [hr, parse_expr_mono A hr hf]

/-- C19 on `((1))`: `parse_eval` returns, a bound of 1000 calls gives what the
bound of `parse_eval` gives, and the call of `parse_expr` inside the first
parenthesis starts on a shorter input. -/
theorem C19_evaluator_terminates_witness :
    (∃ r, parse_eval Ref.arith "((1))".toList 256 = some r)
    ∧ parse_expr Ref.arith 1000 { p := "((1))".toList, err_at := none, err_msg := "" }
      = parse_expr Ref.arith (eval_fuel "((1))".toList)
          { p := "((1))".toList, err_at := none, err_msg := "" }
    ∧ "(1))".toList.length < "((1))".toList.length :=
  ⟨(C19_evaluator_terminates Ref.arith).1 "((1))".toList 256,
   (C19_evaluator_terminates Ref.arith).2.1 "((1))".toList 1000 (by decide),
   by decide⟩

end Parser

namespace Proto

/-- C17. Partial reads are not terminal: for every n (n > 0 in every call of
the program), `read_exact(n)` returns n
and has stored the first n bytes of the stream, in order, whenever the script
delivers at least n bytes before an end-of-stream or a failure other than
`EINTR`, however the bytes are split into segments and however many `EINTR`
failures are interleaved; the bytes after them stay queued. When the script
delivers fewer than n bytes, `read_exact` returns 0 if the end-of-stream comes
first and -1 if a failure other than `EINTR` comes first. -/
theorem C17_partial_reads (es : List RecvEvent) (n : Nat) :
    (n ≤ (wire es).length →
      ∃ es1, read_exact es n = some ((n : Int), (wire es).take n, es1)
        ∧ wire es1 = (wire es).drop n)
    ∧ ((wire es).length < n → closes es = true →
      ∃ b es1, read_exact es n = some (0, b, es1))
    ∧ ((wire es).length < n → closes es = false →
      ∃ b es1, read_exact es n = some (-1, b, es1)) := by
  refine ⟨?_, ?_, ?_⟩
  · intro h
    obtain ⟨es1, h1, h2, _⟩ := read_exact_wire es n h
    exact ⟨es1, h1, h2⟩
  · intro h hc
    obtain ⟨b, es1, h1⟩ := read_exact_short es n h
    exact ⟨b, es1, by rw [h1, hc]; rfl⟩
  · intro h hc
    obtain ⟨b, es1, h1⟩ := read_exact_short es n h
    exact ⟨b, es1, by rw [h1, hc]; rfl⟩

/-- Five bytes read from two segmentations of the same stream, and the two
ways a short stream can end. -/
theorem C17_partial_reads_witness :
    (∃ es1, read_exact [.data [1], .eintr, .eintr, .data [2, 3], .data [4, 5, 6]] 5
        = some (5, [1, 2, 3, 4, 5], es1) ∧ wire es1 = [6])
      ∧ (∃ es1, read_exact [.data [1, 2, 3, 4], .eintr, .data [5, 6]] 5
        = some (5, [1, 2, 3, 4, 5], es1) ∧ wire es1 = [6])
      ∧ (∃ b es1, read_exact [.data [1, 2], .eintr, .eof] 5 = some (0, b, es1))
      ∧ (∃ b es1, read_exact [.data [1, 2], .eintr, .fail] 5 = some (-1, b, es1)) :=
  ⟨(C17_partial_reads [.data [1], .eintr, .eintr, .data [2, 3], .data [4, 5, 6]] 5).1
      (by decide),
   (C17_partial_reads [.data [1, 2, 3, 4], .eintr, .data [5, 6]] 5).1 (by decide),
   (C17_partial_reads [.data [1, 2], .eintr, .eof] 5).2.1 (by decide) (by decide),
   (C17_partial_reads [.data [1, 2], .eintr, .fail] 5).2.2 (by decide) (by decide)⟩

end Proto
namespace Server

open Proto Parser

variable {D : Type}

/-! ## The claims about the server -/

/-- C16. Evaluation errors never end the connection. (1) Whatever the request
buffer, `parse_eval` returns and the loop has a response for it whose payload
is not empty: `OK`, the printed value and a newline if the status is
`PARSE_OK` (whole, if the printed value is a text of fewer than 500 characters
without NUL), and `ERR`, the message of `parse_eval` and a newline if it is
`PARSE_ERR`. (2) One iteration of the loop: if `recv_frame` fails the loop is
left; if not, `send_frame` is called once with that response, the loop is left
if it fails, and otherwise the frame of the response is on the wire and the
next iteration reads the next request. (3) On a stream that consists of N
well-formed request frames, with a kernel that takes what is sent,
`client_thread` answers each request with the frame of its response, in the
order of the requests, and leaves the loop only when the stream has ended. -/
theorem C16_errors_keep_connection (A : Arith D) (L : Libc D) :
    (∀ expr : List Byte, ∃ r out, parse_eval A (c_str expr) 256 = some r
        ∧ respond A L expr = some out ∧ payload_of out ≠ []
        ∧ (r.status = .PARSE_OK → ∃ v, r.out_value = some v
            ∧ out = snprintf 512 ("OK " ++ L.g15 v ++ "\n")
            ∧ (NulFree (L.g15 v) → (L.g15 v).length < 500 →
                payload_of out = ("OK " ++ L.g15 v ++ "\n").data.map to_byte))
        ∧ (r.status = .PARSE_ERR → ∃ m, r.errbuf = some m
            ∧ payload_of out = ("ERR " ++ m ++ "\n").data.map to_byte))
    ∧ (∀ (m : Bool) (fuel : Nat) (es es1 : List RecvEvent) (ss : List SendEvent)
        (served : List (List Byte × List Byte)) (sent : List Byte) (fr : FrameResult),
        recv_frame true m es = some (fr, es1) →
        (fr.ret < 0 → client_loop A L m (fuel + 1) es ss served sent
            = some ⟨served, sent, .recv_failed, es1, ss⟩)
        ∧ (¬ fr.ret < 0 → ∃ out w bytes ss1,
            respond A L (fr.out_buf.getD []) = some out
            ∧ send_frame ss (out.data.map to_byte) (strlen out) = some (w, bytes, ss1)
            ∧ (0 ≤ w → bytes = frame (payload_of out))
            ∧ client_loop A L m (fuel + 1) es ss served sent
              = if w < 0 then some ⟨served, sent ++ bytes, .send_failed, es1, ss1⟩
                else client_loop A L m fuel es1 ss1
                  (served ++ [((fr.out_buf.getD []).take (fr.out_len.getD 0), payload_of out)])
                  (sent ++ bytes)))
    ∧ (∀ (reqs : List (List Byte)) (es : List RecvEvent) (ss : List SendEvent),
        (∀ p ∈ reqs, 1 ≤ p.length ∧ p.length ≤ PROTO_MAX_FRAME) →
        wire es = reqs.flatMap frame →
        ∃ outs es1, List.Forall₂ (fun p out => respond A L (p ++ [0]) = some out) reqs outs
          ∧ outs.length = reqs.length
          ∧ client_thread A L true es (willing reqs.length ++ ss)
            = some ⟨reqs.zip (outs.map payload_of),
                outs.flatMap (fun out => frame (payload_of out)), .recv_failed, es1, ss⟩) := by
  refine ⟨respond_payload A L, ?_, ?_⟩
  · intro m fuel es es1 ss served sent fr hr
    refine ⟨client_loop_recv_failed A L m fuel es es1 ss served sent fr hr, fun hret => ?_⟩
    obtain ⟨out, ho, _⟩ := respond_returns A L (fr.out_buf.getD [])
    obtain ⟨⟨w, bytes, ss1⟩, hs⟩ := send_frame_returns ss (out.data.map to_byte) (strlen out)
    exact ⟨out, w, bytes, ss1, ho, hs, send_frame_response_out out ss ss1 w bytes hs,
      client_loop_step A L m fuel es es1 ss ss1 served sent bytes fr out w hr hret ho hs⟩
  · intro reqs es ss hreq hw
    have hN := flatMap_frame_length reqs
    obtain ⟨k, hk⟩ : ∃ k, (wire es).length + 1 = (k + 1) + reqs.length :=
      ⟨(wire es).length - reqs.length, by rw [hw]; omega⟩
    obtain ⟨es1, outs, hw1, hall, hrun⟩ := client_loop_serves A L [] (k + 1) ss reqs es [] []
      hreq (by simpa using hw)
    obtain ⟨es2, hfail⟩ := recv_frame_short true true es1 (Or.inl (by rw [hw1]; decide))
    refine ⟨outs, es2, hall, hall.length_eq.symm, ?_⟩
    rw [client_thread, hk, hrun,
      client_loop_recv_failed A L true k es1 es2 ss _ _ _ hfail (by decide)]
    simp

/-- C16 on a connection that sends `1+1`, then `1/0`, then `2*3`, the first
two in one segment: three responses, the second one an error, in that
order. -/
theorem C16_errors_keep_connection_witness :
    (∀ p ∈ ["1+1".toList.map to_byte, "1/0".toList.map to_byte, "2*3".toList.map to_byte],
        1 ≤ p.length ∧ p.length ≤ PROTO_MAX_FRAME)
    ∧ (∃ outs es1,
        List.Forall₂ (fun p out => respond Ref.arith ref_libc (p ++ [0]) = some out)
          ["1+1".toList.map to_byte, "1/0".toList.map to_byte, "2*3".toList.map to_byte] outs
        ∧ outs.length = 3
        ∧ client_thread Ref.arith ref_libc true
            [.data [0, 0, 0, 3, 49, 43, 49, 0, 0, 0, 3, 49, 47], .eintr,
             .data [48, 0, 0, 0, 3, 50, 42, 51], .eof] (willing 3 ++ [])
          = some ⟨["1+1".toList.map to_byte, "1/0".toList.map to_byte,
                "2*3".toList.map to_byte].zip (outs.map payload_of),
              outs.flatMap (fun out => frame (payload_of out)), .recv_failed, es1, []⟩)
    ∧ client_thread Ref.arith ref_libc true
        [.data [0, 0, 0, 3, 49, 43, 49, 0, 0, 0, 3, 49, 47], .eintr,
         .data [48, 0, 0, 0, 3, 50, 42, 51], .eof] (willing 3)
      = some ⟨[("1+1".toList.map to_byte, "OK 2\n".toList.map to_byte),
            ("1/0".toList.map to_byte,
              "ERR division by zero near 'end'\n".toList.map to_byte),
            ("2*3".toList.map to_byte, "OK 6\n".toList.map to_byte)],
          frame ("OK 2\n".toList.map to_byte)
            ++ frame ("ERR division by zero near 'end'\n".toList.map to_byte)
            ++ frame ("OK 6\n".toList.map to_byte),
          .recv_failed, [.eof], []⟩ :=
  ⟨by decide,
   (C16_errors_keep_connection Ref.arith ref_libc).2.2
      ["1+1".toList.map to_byte, "1/0".toList.map to_byte, "2*3".toList.map to_byte]
      [.data [0, 0, 0, 3, 49, 43, 49, 0, 0, 0, 3, 49, 47], .eintr,
       .data [48, 0, 0, 0, 3, 50, 42, 51], .eof] [] (by decide) (by decide),
   by decide⟩

end Server
namespace Parser

variable {D : Type}

/-! ## The claim about whitespace -/

/-- C15. Whitespace is insignificant. If the input `s1` is the input `s` with
whitespace characters inserted, one after the other, each before the first
token, after the last token or between two adjacent tokens (`Inserted`), then
`parse_eval` returns on both, and returns the same: the same status, the same
value on success and the same message on failure. -/
theorem C15_whitespace_insignificant (A : Arith D) (s s1 : List Char) (sz : Nat)
    (h : Relation.ReflTransGen (Inserted A) s s1) :
    parse_eval A s1 sz = parse_eval A s sz ∧ ∃ r, parse_eval A s sz = some r := by
  refine ⟨?_, parse_eval_returns A s sz⟩
  induction h with
  | refl => rfl
  | tail _ hstep ih => rw [parse_eval_inserted A _ _ sz hstep, ih]

/-- C15 on `(1+2)/0` with a space inserted before the first token, then
between `1` and `+`, then a tab after the last token: the message is that of
`(1+2)/0`. -/
theorem C15_whitespace_insignificant_witness :
    Relation.ReflTransGen (Inserted Ref.arith) "(1+2)/0".toList " (1 +2)/0\t".toList
    ∧ parse_eval Ref.arith " (1 +2)/0\t".toList 256
      = some ⟨.PARSE_ERR, none, some "division by zero near 'end'"⟩ :=
  have h1 : Inserted Ref.arith "(1+2)/0".toList " (1+2)/0".toList :=
    ⟨[], ' ', "(1+2)/0".toList, by decide, by decide, by decide, by decide⟩
  have h2 : Inserted Ref.arith " (1+2)/0".toList " (1 +2)/0".toList :=
    ⟨" (1".toList, ' ', "+2)/0".toList, by decide, by decide, by decide, by decide⟩
  have h3 : Inserted Ref.arith " (1 +2)/0".toList " (1 +2)/0\t".toList :=
    ⟨" (1 +2)/0".toList, '\t', [], by decide, by decide, by decide, by decide⟩
  have h : Relation.ReflTransGen (Inserted Ref.arith) "(1+2)/0".toList " (1 +2)/0\t".toList :=
    ((Relation.ReflTransGen.single h1).tail h2).tail h3
  ⟨h, (C15_whitespace_insignificant Ref.arith _ _ 256 h).1.trans (by decide)⟩

end Parser
